import Mathlib

/-!
SeqFilter.cpp: threshold selection, masking, region extension, edge trimming, summary

A shallow embedding of `TargetCutoff`, `DoFiltering` and the summary statistics of `main`
from `src/SeqFilter.cpp`.

* Posterior probabilities (`double`) are rationals: every double is one, and the scores
  are only compared and sorted. The arithmetic on `double` in `TargetCutoff` is rounded
  to binary64 (`toDouble`).
* The global `data` (vector of `CSequence`) together with the global matrix `PP`
  is a list of sequences; sequence `i` is the list of its positions, position `j`
  carrying `PP[i][j]`, `data->at(i).Remove[j]` and `data->at(i).Inside[j]`
  (the three arrays of a sequence have the sequence's length).
* Every `for` loop is a fold (or a recursion with early exit for `break`) over the
  list of indices the loop visits, in the order it visits them.
* Reading a vector outside its bounds has no defined result; `TargetCutoff`
  returns `none` there.
* `int` counters and indices are unbounded (`Nat` / `Int`).
-/

namespace SeqFilter

/-- One position `j` of sequence `i`: `PP[i][j]`, `Remove[j]`, `Inside[j]`. -/
structure Residue where
  PP : ℚ
  Remove : Bool
  Inside : Bool
deriving DecidableEq

/-- A sequence with its row of the `PP` matrix; `length()` is the list length. -/
abbrev CSequence := List Residue

/-- A freshly read sequence with scores `pp`: nothing removed, everything inside. -/
def CSequence.ofScores (pp : List ℚ) : CSequence :=
  pp.map (fun x => ⟨x, false, true⟩)

/-- A sequence with removal flags `m`, everything inside (scores are irrelevant). -/
def CSequence.ofMask (m : List Bool) : CSequence :=
  m.map (fun b => ⟨0, b, true⟩)

/-- The `Remove` vector of a sequence. -/
def removeMask (s : CSequence) : List Bool := s.map Residue.Remove

/-- The `Inside` vector of a sequence. -/
def insideMask (s : CSequence) : List Bool := s.map Residue.Inside

/-- Apply `f` to position `pos` (an assignment to one element of a member vector). -/
def updateAt (f : Residue → Residue) : CSequence → Nat → CSequence
  | [], _ => []
  | r :: rs, 0 => f r :: rs
  | r :: rs, pos + 1 => r :: updateAt f rs pos

/-- Reads `PP[i][j]` of sequence `s = data->at(i)`. -/
def scoreAt (s : CSequence) (j : Nat) : ℚ :=
  match s[j]? with
  | some r => r.PP
  | none => 0

/-- Reads `Remove[j]`. -/
def removedAt (s : CSequence) (j : Nat) : Bool :=
  match s[j]? with
  | some r => r.Remove
  | none => false

/-- Reads `Inside[j]`. -/
def inCoreAt (s : CSequence) (j : Nat) : Bool :=
  match s[j]? with
  | some r => r.Inside
  | none => true

/-- The assignment `Remove[j] = true`. -/
def setRemove (s : CSequence) (j : Nat) : CSequence :=
  updateAt (fun r => { r with Remove := true }) s j

/-- The assignment `Inside[j] = false`. -/
def setOutside (s : CSequence) (j : Nat) : CSequence :=
  updateAt (fun r => { r with Inside := false }) s j

/-- Modelled from the spec: `CSequence::Filter(pos)` is declared in `Sequence.h`, which is
not among the sources. The spec reads `Filter(j)` as "position `j` is removed". -/
def Filter (s : CSequence) (pos : Nat) : Bool := removedAt s pos

/-- Modelled from the spec: `my_min` comes from a header that is not among the sources;
the spec reads `my_min(length, runLength)` as the minimum. -/
def my_min (a b : Int) : Int := if a < b then a else b

/-- Modelled from the spec: `my_max` comes from a header that is not among the sources;
the spec reads `my_max(0, length - runLength)` as the maximum. -/
def my_max (a b : Int) : Int := if a > b then a else b

/-! ## TargetCutoff (lines 158-181) -/

/-- Lines 161-166: `total_length` after the loop over the sequences. -/
def totalLength (data : List CSequence) : Nat :=
  data.foldl (fun total s => total + s.length) 0

/-- Lines 161-166: `tmp_PP` after the loops, every `PP[i][j]` pushed back in order. -/
def collectPP (data : List CSequence) : List ℚ :=
  data.foldl (fun tmp s => (List.range s.length).foldl (fun t j => t ++ [scoreAt s j]) tmp) []

/-- Line 167: `tmp_PP` after `std::sort`, ascending. -/
def sortedPP (data : List CSequence) : List ℚ :=
  (collectPP data).insertionSort (· ≤ ·)

/-! ### Binary64 arithmetic

The rank of lines 176 and 179 is computed in `double`: every arithmetic operation returns
the double nearest to its exact result (round to nearest, ties to even). A double is a
rational of the form `m * 2 ^ e` with `|m| < 2 ^ 53` and `e ≥ -1074`; results beyond the
largest double (overflow to infinity) do not occur for the quantities of `TargetCutoff`
and are not modelled. -/

/-- Round to the nearest integer, ties to the even one. -/
def roundEven (q : ℚ) : Int :=
  if q - ⌊q⌋ < 1/2 then ⌊q⌋
  else if 1/2 < q - ⌊q⌋ then ⌊q⌋ + 1
  else if ⌊q⌋ % 2 = 0 then ⌊q⌋ else ⌊q⌋ + 1

/-- Number of binary digits of `n`, computed by halving (`fuel ≥ n` is enough). -/
def bitLength : Nat → Nat → Nat
  | 0, _ => 0
  | fuel + 1, n => if n = 0 then 0 else bitLength fuel (n / 2) + 1

/-- Binary exponent of a positive rational `q`: `2 ^ ilog2 q ≤ q < 2 ^ (ilog2 q + 1)`. -/
def ilog2 (q : ℚ) : Int :=
  let k : Int := (bitLength q.num.natAbs q.num.natAbs : Int) - (bitLength q.den q.den : Int)
  if (2 : ℚ) ^ k ≤ q then k else k - 1

/-- Exponent of the last place of the doubles around `x > 0`: 53 significant bits for a
normal number, the fixed exponent `-1074` in the subnormal range (below `2 ^ -1022`). -/
def ulpExp (x : ℚ) : Int := max (ilog2 x) (-1022) - 52

/-- The double nearest to `x ≥ 0`. -/
def roundMag (x : ℚ) : ℚ := (roundEven (x / (2 : ℚ) ^ ulpExp x) : ℚ) * (2 : ℚ) ^ ulpExp x

/-- The double nearest to `x`: the result of a `double` operation (or conversion, or
decimal literal) whose exact value is `x`. -/
def toDouble (x : ℚ) : ℚ := if x < 0 then - roundMag (-x) else roundMag x

/-- The cast `(int) x` of a `double`: truncation toward zero. -/
def toInt (x : ℚ) : Int := if 0 ≤ x then ⌊x⌋ else ⌈x⌉

/-- Lines 176 and 179: `count_stop = (int)((1.0 - x) * (double) total_length)`, the
subtraction, the conversion of `total_length` and the product each rounded to a double. -/
def countStop (x : ℚ) (total_length : Nat) : Int :=
  toInt (toDouble (toDouble (1 - x) * toDouble (total_length : ℚ)))

/-- The read `tmp_PP[count_stop]`; no result outside the vector. -/
def readAt (tmp : List ℚ) (count_stop : Int) : Option ℚ :=
  if 0 ≤ count_stop then tmp[count_stop.toNat]? else none

/-- Line 174: the values `x` visited by `for (double x = 1.0; x >= 0.75; x -= 0.01)`,
starting from `x`; `fuel` bounds the number of iterations. -/
def ladderFrom : Nat → ℚ → List ℚ
  | 0, _ => []
  | fuel + 1, x =>
    if 3/4 ≤ x then x :: ladderFrom fuel (toDouble (x - toDouble (1/100))) else []

/-- Line 174: the values of `x` in the diagnostic loop. The loop leaves after 25 rounds
(`ladder_length`), so the bound of 100 rounds is never reached. -/
def ladder : List ℚ := ladderFrom 100 1

/-- `TargetCutoff(prop2Keep)`: the diagnostic loop reads (and prints) one element of the
sorted vector for each ladder value, then the element at `count_stop` is returned. -/
def TargetCutoff (data : List CSequence) (prop2Keep : ℚ) : Option ℚ :=
  let total_length := totalLength data
  let tmp_PP := sortedPP data
  if (ladder.all fun x => (readAt tmp_PP (countStop x total_length)).isSome) then
    readAt tmp_PP (countStop prop2Keep total_length)
  else none

/-! ## DoFiltering (lines 183-255) -/

/-- A loop `for (i = 0; i < data->size(); i++)` whose body works on `data->at(i)` and a
counter shared by all iterations. -/
def overSeqs (body : CSequence → Nat → CSequence × Nat) :
    List CSequence → Nat → List CSequence × Nat
  | [], c => ([], c)
  | s :: rest, c =>
    let r := body s c
    let r' := overSeqs body rest r.2
    (r.1 :: r'.1, r'.2)

/-- Lines 192-195: the body of the loop over `j`. -/
def thresholdStep (threshold : ℚ) (st : CSequence × Nat) (j : Nat) : CSequence × Nat :=
  if scoreAt st.1 j < threshold then (setRemove st.1 j, st.2 + 1) else st

/-- Lines 191-196: the loop over `j` for one sequence. -/
def thresholdSeq (threshold : ℚ) (s : CSequence) (thresholdCount : Nat) : CSequence × Nat :=
  (List.range s.length).foldl (thresholdStep threshold) (s, thresholdCount)

/-- Lines 186-197: the threshold step; returns the corpus and `thresholdCount`. -/
def applyThreshold (threshold : ℚ) (data : List CSequence) : List CSequence × Nat :=
  overSeqs (thresholdSeq threshold) data 0

/-- Lines 210-212: `for (k = j; k > lastFilter; k--) Remove[k] = true`. -/
def markBack (s : CSequence) (lastFilter j : Nat) : CSequence :=
  ((List.range' (lastFilter + 1) (j - lastFilter)).reverse).foldl setRemove s

/-- State of the loop over `j` of the region extension. -/
structure ExtState where
  seq : CSequence
  lastFilter : Nat
  filter_count : Nat

/-- Lines 206-216: the body of the loop over `j`. -/
def extendStep (FilterRange : Int) (st : ExtState) (j : Nat) : ExtState :=
  if Filter st.seq j then
    if (j : Int) - (st.lastFilter : Int) < FilterRange ∧ (j : Int) - (st.lastFilter : Int) > 1 then
      { seq := markBack st.seq st.lastFilter j, lastFilter := j,
        filter_count := st.filter_count + 1 }
    else { st with lastFilter := j }
  else st

/-- Lines 204-217: region extension of one sequence. -/
def extendSeq (FilterRange : Int) (s : CSequence) (filter_count : Nat) : CSequence × Nat :=
  let st := (List.range s.length).foldl (extendStep FilterRange) ⟨s, 0, filter_count⟩
  (st.seq, st.filter_count)

/-- Lines 202-218: region extension; returns the corpus and `filter_count`. -/
def extendRegions (FilterRange : Int) (data : List CSequence) : List CSequence × Nat :=
  overSeqs (extendSeq FilterRange) data 0

/-- State of the two window scans of the edge trimming. -/
structure TrimState where
  seq : CSequence
  DoOutside : Bool
  seqTrimmed : Nat

/-- Lines 230-231 and 240-241: the body shared by the front and the back window scan. -/
def windowStep (st : TrimState) (j : Nat) : TrimState :=
  let st1 : TrimState :=
    if Filter st.seq j then
      { st with DoOutside := true,
                seqTrimmed := if !st.DoOutside then st.seqTrimmed + 1 else st.seqTrimmed }
    else st
  if st1.DoOutside then { st1 with seq := setRemove (setOutside st1.seq j) j } else st1

/-- Lines 233-236 and 243-246: walk over the indices `js`, stop at the first position
that is not filtered, mark the others as outside. -/
def coreScan : List Nat → CSequence → CSequence
  | [], s => s
  | j :: js, s => if !Filter s j then s else coreScan js (setOutside s j)

/-- Line 229: the indices `my_min(length, RunBeforeInside) - 1, ..., 1`. -/
def frontWindow (length : Nat) (RunBeforeInside : Int) : List Nat :=
  (List.range' 1 (my_min (length : Int) RunBeforeInside - 1).toNat).reverse

/-- Line 239: the indices `my_max(0, length - RunBeforeInside), ..., length - 1`. -/
def backWindow (length : Nat) (RunBeforeInside : Int) : List Nat :=
  List.range' (my_max 0 ((length : Int) - RunBeforeInside)).toNat
    (length - (my_max 0 ((length : Int) - RunBeforeInside)).toNat)

/-- Lines 228-246: edge trimming of one sequence. -/
def trimSeq (RunBeforeInside : Int) (s : CSequence) (seqTrimmed : Nat) : CSequence × Nat :=
  let f := (frontWindow s.length RunBeforeInside).foldl windowStep ⟨s, false, seqTrimmed⟩
  let s1 := coreScan (List.range s.length) f.seq
  let b := (backWindow s.length RunBeforeInside).foldl windowStep ⟨s1, false, f.seqTrimmed⟩
  let s2 := coreScan (List.range s.length).reverse b.seq
  (s2, b.seqTrimmed)

/-- Lines 225-247: edge trimming; returns the corpus and `seqTrimmed`. -/
def trimEdges (RunBeforeInside : Int) (data : List CSequence) : List CSequence × Nat :=
  overSeqs (trimSeq RunBeforeInside) data 0

/-- Lines 183-249: the three stages of `DoFiltering` on the annotations; region extension
runs when `FilterRange > 0`, edge trimming when `RunBeforeInside > 0`. -/
def DoFiltering (threshold : ℚ) (FilterRange RunBeforeInside : Int)
    (data : List CSequence) : List CSequence :=
  let d1 := (applyThreshold threshold data).1
  let d2 := if FilterRange > 0 then (extendRegions FilterRange d1).1 else d1
  if RunBeforeInside > 0 then (trimEdges RunBeforeInside d2).1 else d2

/-! ## Summary statistics of `main` (lines 95-112) -/

/-- The fields `PropRemoved` and `PropInside` of one sequence as `CalculateSummary` left
them (`Sequence.cpp` is not among the sources; the two proportions are taken as given). -/
structure SeqSummary where
  PropRemoved : ℚ
  PropInside : ℚ
deriving DecidableEq

/-- The variables of lines 95-96. -/
structure SummaryState where
  rem_mean : ℚ
  rem_max : ℚ
  in_mean : ℚ
  in_min : ℚ
  rem_index : Int
  in_index : Int

/-- Lines 95-96: the initial values. -/
def summaryInit : SummaryState := ⟨0, 0, 0, 1, -1, -1⟩

/-- Lines 99-103: the body of the loop for sequence `i`, `x` being `data->at(i)`. -/
def summaryBody (st : SummaryState) (i : Nat) (x : SeqSummary) : SummaryState :=
  let st1 : SummaryState := { st with rem_mean := st.rem_mean + x.PropRemoved }
  let st2 : SummaryState :=
    if x.PropRemoved > st1.rem_max then
      { st1 with rem_max := x.PropRemoved, rem_index := (i : Int) }
    else st1
  let st3 : SummaryState := { st2 with in_mean := st2.in_mean + x.PropInside }
  if x.PropInside < st3.in_min then
    { st3 with in_min := x.PropInside, in_index := (i : Int) }
  else st3

/-- Lines 97-104: the loop over the sequences, from index `i` on. -/
def summaryLoop : List SeqSummary → Nat → SummaryState → SummaryState
  | [], _, st => st
  | x :: rest, i, st => summaryLoop rest (i + 1) (summaryBody st i x)

/-- Lines 95-106: the statistics after the loop and the two divisions by `data->size()`
(for an empty corpus the `double` division yields NaN, which is not modelled). -/
def summaryStats (data : List SeqSummary) : SummaryState :=
  let st := summaryLoop data 0 summaryInit
  { st with rem_mean := st.rem_mean / (data.length : ℚ),
            in_mean := st.in_mean / (data.length : ℚ) }

/-- Line 110: the index written as "sequence with most removed", if any is written. -/
def mostRemoved (data : List SeqSummary) : Option Nat :=
  if (summaryStats data).rem_index ≥ 0 then some (summaryStats data).rem_index.toNat else none

/-- Line 112: the index written as "sequence with least in core", if any is written. -/
def leastInCore (data : List SeqSummary) : Option Nat :=
  if (summaryStats data).in_index ≥ 0 then some (summaryStats data).in_index.toNat else none

/-! ## Reference notions used in the statements -/

/-- The list of all confidence scores of all sequences, in corpus order. -/
def allScores (data : List CSequence) : List ℚ :=
  data.flatMap (fun s => s.map Residue.PP)

/-- The corpus of the spec's scenario: two sequences of lengths 10 and 20, every score
0.0 except one 1.0 in each. -/
def scenarioCorpus : List CSequence :=
  [CSequence.ofScores (List.replicate 9 0 ++ [1]), CSequence.ofScores (List.replicate 19 0 ++ [1])]

/-- One sequence of `n` positions with the distinct scores `0/100, 1/100, ..., (n-1)/100`,
in ascending order. -/
def gradedCorpus (n : Nat) : List CSequence :=
  [CSequence.ofScores ((List.range n).map (fun (k : Nat) => (k : ℚ) / 100))]

/-- The positions removed in a sequence, ascending: `r_1 < ... < r_n`. -/
def removedPositions (s : CSequence) : List Nat := (List.range s.length).filter (removedAt s)

/-- The `i`-th entry of `0, l_1, l_2, ...`. -/
def rankIn (l : List Nat) : Nat → Nat
  | 0 => 0
  | i + 1 => l.getD i 0

/-- The position `r_i` of the `i`-th removed position, with `r_0 = 0`. -/
def rankPos (s : CSequence) (i : Nat) : Nat := rankIn (removedPositions s) i

/-- The gap `r_i - r_(i-1)`. -/
def gapAt (s : CSequence) (i : Nat) : Int := (rankPos s i : Int) - (rankPos s (i - 1) : Int)

/-- The ranks `i` with `1 ≤ i ≤ n` and `1 < r_i - r_(i-1) < G`. -/
def mergeRanks (G : Int) (s : CSequence) : List Nat :=
  (List.range' 1 (removedPositions s).length).filter
    (fun i => decide (1 < gapAt s i ∧ gapAt s i < G))

/-- Number of positions of the corpus scoring strictly below `t`. -/
def countBelow (t : ℚ) (data : List CSequence) : Nat :=
  (allScores data).countP (fun x => decide (x < t))

/-- Number of positions whose removed flag is false in `before` and true in `after`. -/
def newlyMarkedSeq (before after : CSequence) : Nat :=
  (List.zip before after).countP (fun p => !p.1.Remove && p.2.Remove)

/-- Number of positions of the corpus whose removed flag changes from false to true. -/
def newlyMarked (before after : List CSequence) : Nat :=
  ((List.zip before after).map (fun p => newlyMarkedSeq p.1 p.2)).sum

/-- Number of positions that are already removed and score strictly below `t`. -/
def removedBelow (t : ℚ) (data : List CSequence) : Nat :=
  (data.map (fun s => s.countP (fun r => r.Remove && decide (r.PP < t)))).sum

/-- Number of removed positions of the corpus. -/
def removedCount (data : List CSequence) : Nat :=
  (data.map (fun s => s.countP (fun r => r.Remove))).sum

/-- The front window scan of `trimSeq` finds a removed position (and counts once): some
position `1 ≤ j < min(length, RunBeforeInside)` is removed. -/
def frontTriggered (R : Int) (s : CSequence) : Bool :=
  (frontWindow s.length R).any (removedAt s)

/-- The back window scan of `trimSeq` finds a removed position (and counts once): some
position `max(0, length - RunBeforeInside) ≤ j < length` is removed. -/
def backTriggered (R : Int) (s : CSequence) : Bool :=
  (backWindow s.length R).any (removedAt s)

/-! ## Closed forms and invariants of the loops, used in the proofs -/

/-- The value of `lastFilter` when the scan of the region extension reaches position `j`:
the last position before `j` that is removed, or 0 when there is none. -/
def lastBefore (s : CSequence) : Nat → Nat
  | 0 => 0
  | j + 1 => if removedAt s j then j else lastBefore s j

/-- The scan of the region extension merges at position `b`: `b` is removed and the gap
to the previous removed position (or to 0) is above 1 and below `FilterRange`. -/
def mergeAt (FilterRange : Int) (s : CSequence) (b : Nat) : Bool :=
  removedAt s b &&
    decide ((b : Int) - (lastBefore s b : Int) < FilterRange ∧ (b : Int) - (lastBefore s b : Int) > 1)

/-- Position `k` is marked by a window scan over the indices `js` (visited in list order,
`R j k` meaning that `j` is visited before `k`) started with flag `d` on sequence `s`. -/
def Marked (R : Nat → Nat → Prop) (js : List Nat) (s : CSequence) (d : Bool) (k : Nat) : Prop :=
  k ∈ js ∧ k < s.length ∧ (d = true ∨ ∃ j ∈ js, (j = k ∨ R j k) ∧ removedAt s j = true)

/-- Every position visited up to and including `k` by a scan over `js` is removed. -/
def RunTo (R : Nat → Nat → Prop) (js : List Nat) (s : CSequence) (k : Nat) : Prop :=
  k ∈ js ∧ k < s.length ∧ ∀ j ∈ js, (j = k ∨ R j k) → removedAt s j = true

/-- The front window scan marks position `k`: `k ≥ 1` and some removed position `q ≥ k`
lies in the front window (`q < min(length, RunBeforeInside)`). -/
def frontHit (R : Int) (s : CSequence) (k : Nat) : Prop :=
  1 ≤ k ∧ ∃ q : Nat, k ≤ q ∧ q < s.length ∧ (q : Int) < R ∧ removedAt s q = true

/-- Position `k` is removed after the front window scan. -/
def midRemoved (R : Int) (s : CSequence) (k : Nat) : Prop :=
  removedAt s k = true ∨ frontHit R s k

/-- The back window scan marks position `k`: some position `q ≤ k` of the back window
(`q ≥ length - RunBeforeInside`) is removed when the scan reaches it. -/
def backHit (R : Int) (s : CSequence) (k : Nat) : Prop :=
  k < s.length ∧ ∃ q : Nat, (s.length : Int) - R ≤ (q : Int) ∧ q ≤ k ∧ midRemoved R s q

/-- Position `k` is removed after the edge trimming. -/
def trimRemoved (R : Int) (s : CSequence) (k : Nat) : Prop :=
  midRemoved R s k ∨ backHit R s k

/-- Position `k` belongs to the removed run that starts at position 0 (after the front
window scan). -/
def frontRun (R : Int) (s : CSequence) (k : Nat) : Prop :=
  k < s.length ∧ ∀ c, c ≤ k → midRemoved R s c

/-- Position `k` belongs to the removed run that ends at the last position (after the
back window scan). -/
def backRun (R : Int) (s : CSequence) (k : Nat) : Prop :=
  k < s.length ∧ ∀ c, k ≤ c → c < s.length → trimRemoved R s c

/-- No two neighbouring removed positions of `s` (nor position 0 and the first removed
position) are separated by a gap that the region extension merges. -/
def Closed (G : Int) (s : CSequence) : Prop :=
  ∀ a b, a < b → b < s.length → removedAt s b = true → (removedAt s a = true ∨ a = 0) →
    (∀ c, a < c → c < b → removedAt s c = false) →
    ¬ (1 < (b : Int) - (a : Int) ∧ (b : Int) - (a : Int) < G)

/-- Every position scoring below `t` is removed. -/
def Below (t : ℚ) (s : CSequence) : Prop :=
  ∀ j, j < s.length → scoreAt s j < t → removedAt s j = true

/-- Lines 188-249 for one sequence: threshold step, region extension when
`FilterRange > 0`, edge trimming when `RunBeforeInside > 0`. -/
def filterSeq (threshold : ℚ) (FilterRange RunBeforeInside : Int) (s : CSequence) : CSequence :=
  let s1 := (thresholdSeq threshold s 0).1
  let s2 := if FilterRange > 0 then (extendSeq FilterRange s1 0).1 else s1
  if RunBeforeInside > 0 then (trimSeq RunBeforeInside s2 0).1 else s2

/-- What the loop over `j` of the threshold step has done after `n` iterations. -/
structure ThresholdInv (t : ℚ) (s : CSequence) (c : Nat) (n : Nat) (st : CSequence × Nat) :
    Prop where
  len : st.1.length = s.length
  score : ∀ j, scoreAt st.1 j = scoreAt s j
  core : ∀ j, inCoreAt st.1 j = inCoreAt s j
  removed : ∀ j, removedAt st.1 j =
    (removedAt s j || (decide (j < n) && decide (scoreAt s j < t)))
  count : st.2 = c + (List.range n).countP (fun j => decide (scoreAt s j < t))

/-- What the scan of the region extension has done after `n` iterations. -/
structure ExtInv (G : Int) (s : CSequence) (c : Nat) (n : Nat) (st : ExtState) : Prop where
  len : st.seq.length = s.length
  score : ∀ k, scoreAt st.seq k = scoreAt s k
  core : ∀ k, inCoreAt st.seq k = inCoreAt s k
  last : st.lastFilter = lastBefore s n
  removed : ∀ k, removedAt st.seq k = true ↔
    removedAt s k = true ∨ ∃ b, b < n ∧ mergeAt G s b = true ∧ lastBefore s b < k ∧ k ≤ b
  count : st.filter_count = c + (List.range n).countP (mergeAt G s)

/-- What `trimSeq` leaves behind, in terms of the sequence it was called on. -/
structure TrimSpec (R : Int) (s : CSequence) (out : CSequence) : Prop where
  len : out.length = s.length
  score : ∀ k, scoreAt out k = scoreAt s k
  removed : ∀ k, removedAt out k = true ↔ trimRemoved R s k
  core : ∀ k, inCoreAt out k = true ↔
    inCoreAt s k = true ∧ ¬ frontHit R s k ∧ ¬ frontRun R s k ∧ ¬ backHit R s k ∧ ¬ backRun R s k

/-- The threshold step on one position: `Remove` is set when the score is below the
threshold. -/
def maskResidue (threshold : ℚ) (r : Residue) : Residue :=
  { r with Remove := r.Remove || decide (r.PP < threshold) }

/-- Every position outside the core is removed. -/
def CoreInv (s : CSequence) : Prop :=
  ∀ j, inCoreAt s j = false → removedAt s j = true

/-- State of `rem_max`, `rem_index` after the sequences `pre` have been visited. -/
def RemInv (pre : List SeqSummary) (st : SummaryState) : Prop :=
  (st.rem_index = -1 ∧ st.rem_max = 0 ∧ ∀ x ∈ pre, x.PropRemoved ≤ 0) ∨
    ∃ (k : Nat) (y : SeqSummary), st.rem_index = (k : Int) ∧ pre[k]? = some y ∧
      st.rem_max = y.PropRemoved ∧ 0 < y.PropRemoved ∧
      (∀ x ∈ pre, x.PropRemoved ≤ y.PropRemoved) ∧
      ∀ j x, j < k → pre[j]? = some x → x.PropRemoved < y.PropRemoved

/-- State of `in_min`, `in_index` after the sequences `pre` have been visited. -/
def InInv (pre : List SeqSummary) (st : SummaryState) : Prop :=
  (st.in_index = -1 ∧ st.in_min = 1 ∧ ∀ x ∈ pre, 1 ≤ x.PropInside) ∨
    ∃ (k : Nat) (y : SeqSummary), st.in_index = (k : Int) ∧ pre[k]? = some y ∧
      st.in_min = y.PropInside ∧ y.PropInside < 1 ∧
      (∀ x ∈ pre, y.PropInside ≤ x.PropInside) ∧
      ∀ j x, j < k → pre[j]? = some x → y.PropInside < x.PropInside

/-! # Proofs -/

/-! ## The sorted score vector -/

theorem scoreAt_eq_getD (s : CSequence) (j : Nat) : scoreAt s j = (s.map Residue.PP).getD j 0 := by
  unfold scoreAt
  rw [List.getD_eq_getElem?_getD, List.getElem?_map]
  cases s[j]? <;> rfl

theorem pushLoop_eq (s : CSequence) (tmp : List ℚ) :
    (List.range s.length).foldl (fun t j => t ++ [scoreAt s j]) tmp = tmp ++ s.map Residue.PP := by
  have h : ∀ n, n ≤ s.length →
      (List.range n).foldl (fun t j => t ++ [scoreAt s j]) tmp = tmp ++ (s.map Residue.PP).take n := by
    intro n
    induction n with
    | zero => intro _; simp
    | succ n ih =>
      intro hn
      rw [List.range_succ, List.foldl_append, ih (by omega)]
      have hlt : n < (s.map Residue.PP).length := by simpa using hn
      simp only [List.foldl_cons, List.foldl_nil, List.append_assoc]
      rw [List.take_succ, List.getElem?_eq_getElem hlt]
      simp [scoreAt, List.getElem?_eq_getElem (show n < s.length by omega)]
  have := h s.length le_rfl
  rw [this]
  simp

theorem collectPP_foldl (data : List CSequence) (acc : List ℚ) :
    data.foldl (fun tmp s => (List.range s.length).foldl (fun t j => t ++ [scoreAt s j]) tmp) acc
      = acc ++ allScores data := by
  induction data generalizing acc with
  | nil => simp [allScores]
  | cons s rest ih =>
    simp only [List.foldl_cons]
    rw [ih, pushLoop_eq]
    simp [allScores]

theorem collectPP_eq (data : List CSequence) : collectPP data = allScores data := by
  unfold collectPP
  rw [collectPP_foldl]
  simp

theorem totalLength_foldl (data : List CSequence) (acc : Nat) :
    data.foldl (fun total s => total + s.length) acc = acc + (allScores data).length := by
  induction data generalizing acc with
  | nil => simp [allScores]
  | cons s rest ih =>
    simp only [List.foldl_cons]
    rw [ih]
    simp [allScores]
    omega

theorem totalLength_eq (data : List CSequence) : totalLength data = (allScores data).length := by
  unfold totalLength
  rw [totalLength_foldl]
  simp

theorem sortedPP_length (data : List CSequence) : (sortedPP data).length = totalLength data := by
  unfold sortedPP
  rw [List.length_insertionSort, collectPP_eq, totalLength_eq]

theorem sortedPP_sorted (data : List CSequence) : (sortedPP data).Sorted (· ≤ ·) :=
  List.sorted_insertionSort _ _

theorem sortedPP_perm (data : List CSequence) : (sortedPP data).Perm (allScores data) := by
  unfold sortedPP
  rw [← collectPP_eq]
  exact List.perm_insertionSort _ _

theorem sortedPP_unique (data : List CSequence) (ref : List ℚ) (hs : ref.Sorted (· ≤ ·))
    (hp : ref.Perm (allScores data)) : sortedPP data = ref :=
  List.eq_of_perm_of_sorted ((sortedPP_perm data).trans hp.symm) (sortedPP_sorted data) hs

/-! ## Reading the sorted vector -/

theorem readAt_of_lt (tmp : List ℚ) (c : Int) (h0 : 0 ≤ c) (h1 : c < tmp.length) :
    readAt tmp c = some (tmp.get ⟨c.toNat, by omega⟩) := by
  unfold readAt
  rw [if_pos h0]
  exact List.getElem?_eq_getElem _

theorem readAt_isSome_iff (tmp : List ℚ) (c : Int) :
    (readAt tmp c).isSome ↔ 0 ≤ c ∧ c < tmp.length := by
  unfold readAt
  split
  · rename_i h
    by_cases hlt : c.toNat < tmp.length
    · simp only [List.getElem?_eq_getElem hlt, Option.isSome_some, true_iff]
      exact ⟨h, by omega⟩
    · simp only [List.getElem?_eq_none (Nat.le_of_not_lt hlt), Option.isSome_none]
      constructor
      · intro h'; cases h'
      · intro h'; omega
  · rename_i h
    simp [h]

theorem readAt_eq_some {tmp : List ℚ} {c : Int} {t : ℚ} (h : readAt tmp c = some t) :
    ∃ (_ : 0 ≤ c) (h1 : c.toNat < tmp.length), tmp.get ⟨c.toNat, h1⟩ = t := by
  have hs := (readAt_isSome_iff tmp c).mp (by rw [h]; rfl)
  have h1 : c.toNat < tmp.length := by omega
  refine ⟨hs.1, h1, ?_⟩
  rw [readAt_of_lt tmp c hs.1 hs.2] at h
  exact Option.some.inj h

/-! ## Rounding to binary64 -/

theorem roundEven_bounds (q : ℚ) : ⌊q⌋ ≤ roundEven q ∧ roundEven q ≤ ⌊q⌋ + 1 := by
  unfold roundEven
  split_ifs <;> constructor <;> omega

theorem roundEven_near (q : ℚ) : (roundEven q : ℚ) - 1/2 ≤ q ∧ q ≤ (roundEven q : ℚ) + 1/2 := by
  have h1 := Int.floor_le q
  have h2 := Int.lt_floor_add_one q
  unfold roundEven
  split_ifs <;> push_cast <;> constructor <;> linarith

theorem roundEven_intCast (n : Int) : roundEven (n : ℚ) = n := by
  unfold roundEven
  simp

theorem roundEven_mono {x y : ℚ} (h : x ≤ y) : roundEven x ≤ roundEven y := by
  have hf := Int.floor_mono h
  rcases eq_or_lt_of_le hf with he | hl
  · unfold roundEven
    rw [← he]
    split_ifs <;> first | omega | (exfalso; linarith)
  · have h1 := (roundEven_bounds x).2
    have h2 := (roundEven_bounds y).1
    omega

theorem bitLength_zero (fuel : Nat) : bitLength fuel 0 = 0 := by
  cases fuel <;> simp [bitLength]

theorem bitLength_spec (fuel n : Nat) (h : n ≤ fuel) :
    n < 2 ^ bitLength fuel n ∧ (0 < n → 2 ^ bitLength fuel n ≤ 2 * n) := by
  induction fuel generalizing n with
  | zero =>
    have : n = 0 := by omega
    subst this
    simp [bitLength]
  | succ fuel ih =>
    by_cases hn : n = 0
    · subst hn; simp [bitLength]
    · have hhalf : n / 2 ≤ fuel := by omega
      obtain ⟨h1, h2⟩ := ih (n / 2) hhalf
      simp only [bitLength, hn, if_false, pow_succ]
      constructor
      · omega
      · intro _
        by_cases h0 : n / 2 = 0
        · rw [h0, bitLength_zero]
          omega
        · have := h2 (by omega)
          omega

theorem ilog2_spec {q : ℚ} (hq : 0 < q) :
    (2 : ℚ) ^ ilog2 q ≤ q ∧ q < (2 : ℚ) ^ (ilog2 q + 1) := by
  have hnum : 0 < q.num := Rat.num_pos.mpr hq
  obtain ⟨a1, a2⟩ := bitLength_spec q.num.natAbs q.num.natAbs le_rfl
  obtain ⟨b1, b2⟩ := bitLength_spec q.den q.den le_rfl
  have a2 := a2 (by omega)
  have b2 := b2 q.den_pos
  set a := bitLength q.num.natAbs q.num.natAbs
  set b := bitLength q.den q.den
  have hqeq : q = (q.num.natAbs : ℚ) / (q.den : ℚ) := by
    have h1 : ((q.num.natAbs : Int) : ℚ) = (q.num : ℚ) := by
      rw [Int.natAbs_of_nonneg hnum.le]
    have h2 : ((q.num.natAbs : Nat) : ℚ) = ((q.num.natAbs : Int) : ℚ) := (Int.cast_natCast _).symm
    rw [h2, h1]
    exact (Rat.num_div_den q).symm
  have hd : (0 : ℚ) < q.den := by exact_mod_cast q.den_pos
  have hA : (0 : ℚ) < (2 : ℚ) ^ a := by positivity
  have hB : (0 : ℚ) < (2 : ℚ) ^ b := by positivity
  have a1q : (q.num.natAbs : ℚ) < (2 : ℚ) ^ a := by exact_mod_cast a1
  have a2q : (2 : ℚ) ^ a ≤ 2 * (q.num.natAbs : ℚ) := by exact_mod_cast a2
  have b1q : (q.den : ℚ) < (2 : ℚ) ^ b := by exact_mod_cast b1
  have b2q : (2 : ℚ) ^ b ≤ 2 * (q.den : ℚ) := by exact_mod_cast b2
  have hn0 : (0 : ℚ) < (q.num.natAbs : ℚ) := by
    have : 0 < q.num.natAbs := by omega
    exact_mod_cast this
  have hk : (2 : ℚ) ^ ((a : Int) - (b : Int)) = (2 : ℚ) ^ a / (2 : ℚ) ^ b := by
    rw [zpow_sub₀ (by norm_num), zpow_natCast, zpow_natCast]
  have hk1 : (2 : ℚ) ^ ((a : Int) - (b : Int) + 1) = 2 * ((2 : ℚ) ^ a / (2 : ℚ) ^ b) := by
    rw [zpow_add₀ (by norm_num), hk, zpow_one]; ring
  have hk0 : (2 : ℚ) ^ ((a : Int) - (b : Int) - 1) = ((2 : ℚ) ^ a / (2 : ℚ) ^ b) / 2 := by
    rw [zpow_sub₀ (by norm_num), hk, zpow_one]
  have hup : q < 2 * ((2 : ℚ) ^ a / (2 : ℚ) ^ b) := by
    rw [hqeq, ← mul_div_assoc, div_lt_div_iff₀ hd hB]
    nlinarith
  have hlo : ((2 : ℚ) ^ a / (2 : ℚ) ^ b) / 2 ≤ q := by
    rw [hqeq, div_div, div_le_div_iff₀ (by positivity) hd]
    nlinarith
  simp only [ilog2]
  split_ifs with hc
  · exact ⟨hc, by rw [hk1]; exact hup⟩
  · refine ⟨by rw [hk0]; exact hlo, ?_⟩
    rw [sub_add_cancel]
    exact not_le.mp hc

theorem ilog2_mono {x y : ℚ} (hx : 0 < x) (h : x ≤ y) : ilog2 x ≤ ilog2 y := by
  have h1 := (ilog2_spec hx).1
  have h2 := (ilog2_spec (lt_of_lt_of_le hx h)).2
  have : (2 : ℚ) ^ ilog2 x < (2 : ℚ) ^ (ilog2 y + 1) := lt_of_le_of_lt (le_trans h1 h) h2
  have := (zpow_lt_zpow_iff_right₀ (by norm_num : (1 : ℚ) < 2)).mp this
  omega

theorem ulpExp_pos (x : ℚ) : (0 : ℚ) < (2 : ℚ) ^ ulpExp x := by positivity

theorem roundMag_zero : roundMag 0 = 0 := by
  simp [roundMag, roundEven]

theorem roundMag_ge_grid {x : ℚ} (m : Int) (h : (m : ℚ) * (2 : ℚ) ^ ulpExp x ≤ x) :
    (m : ℚ) * (2 : ℚ) ^ ulpExp x ≤ roundMag x := by
  have hpos := ulpExp_pos x
  have h1 : (m : ℚ) ≤ x / (2 : ℚ) ^ ulpExp x := (le_div_iff₀ hpos).mpr h
  have h2 := roundEven_mono h1
  rw [roundEven_intCast] at h2
  have h3 : (m : ℚ) ≤ (roundEven (x / (2 : ℚ) ^ ulpExp x) : ℚ) := by exact_mod_cast h2
  unfold roundMag
  exact mul_le_mul_of_nonneg_right h3 hpos.le

theorem roundMag_le_grid {x : ℚ} (m : Int) (h : x ≤ (m : ℚ) * (2 : ℚ) ^ ulpExp x) :
    roundMag x ≤ (m : ℚ) * (2 : ℚ) ^ ulpExp x := by
  have hpos := ulpExp_pos x
  have h1 : x / (2 : ℚ) ^ ulpExp x ≤ (m : ℚ) := (div_le_iff₀ hpos).mpr h
  have h2 := roundEven_mono h1
  rw [roundEven_intCast] at h2
  have h3 : (roundEven (x / (2 : ℚ) ^ ulpExp x) : ℚ) ≤ (m : ℚ) := by exact_mod_cast h2
  unfold roundMag
  exact mul_le_mul_of_nonneg_right h3 hpos.le

theorem roundMag_nonneg {x : ℚ} (hx : 0 ≤ x) : 0 ≤ roundMag x := by
  have := roundMag_ge_grid (x := x) 0 (by simpa using hx)
  simpa using this

theorem roundMag_err (x : ℚ) : |roundMag x - x| ≤ (2 : ℚ) ^ ulpExp x / 2 := by
  have hpos := ulpExp_pos x
  obtain ⟨h1, h2⟩ := roundEven_near (x / (2 : ℚ) ^ ulpExp x)
  have hx : x = x / (2 : ℚ) ^ ulpExp x * (2 : ℚ) ^ ulpExp x := by
    field_simp
  unfold roundMag
  rw [abs_le]
  constructor
  · nlinarith
  · nlinarith

theorem zpow_two_split (L : Int) : (2 : ℚ) ^ (L + 1) = (2 ^ 53 : Int) * (2 : ℚ) ^ (L - 52) := by
  have : L + 1 = 53 + (L - 52) := by ring
  rw [this, zpow_add₀ (by norm_num)]
  norm_num

theorem zpow_two_split_lo (L : Int) : (2 : ℚ) ^ L = (2 ^ 52 : Int) * (2 : ℚ) ^ (L - 52) := by
  have : L = 52 + (L - 52) := by ring
  nth_rewrite 1 [this]
  rw [zpow_add₀ (by norm_num)]
  norm_num

theorem roundMag_le_pow {x : ℚ} (hx : 0 < x) :
    roundMag x ≤ (2 : ℚ) ^ (max (ilog2 x) (-1022) + 1) := by
  have h := (ilog2_spec hx).2
  have h1 : (2 : ℚ) ^ (ilog2 x + 1) ≤ (2 : ℚ) ^ (max (ilog2 x) (-1022) + 1) :=
    zpow_le_zpow_right₀ (by norm_num) (by omega)
  rw [zpow_two_split (max (ilog2 x) (-1022))] at h1 ⊢
  exact roundMag_le_grid _ (le_trans h.le h1)

theorem pow_le_roundMag {x : ℚ} (hx : 0 < x) (hn : -1022 ≤ ilog2 x) :
    (2 : ℚ) ^ ilog2 x ≤ roundMag x := by
  have h := (ilog2_spec hx).1
  have he : ulpExp x = ilog2 x - 52 := by unfold ulpExp; rw [max_eq_left hn]
  have := roundMag_ge_grid (x := x) (2 ^ 52 : Int) (by rw [he, ← zpow_two_split_lo]; exact h)
  rw [he, ← zpow_two_split_lo] at this
  exact this

theorem roundMag_mono {x y : ℚ} (hx : 0 ≤ x) (h : x ≤ y) : roundMag x ≤ roundMag y := by
  rcases eq_or_lt_of_le hx with h0 | hpos
  · rw [← h0, roundMag_zero]; exact roundMag_nonneg (le_trans hx h)
  have hy : 0 < y := lt_of_lt_of_le hpos h
  have hl := ilog2_mono hpos h
  by_cases he : ulpExp x = ulpExp y
  · unfold roundMag
    rw [he]
    have hp := ulpExp_pos y
    have : x / (2 : ℚ) ^ ulpExp y ≤ y / (2 : ℚ) ^ ulpExp y := div_le_div_of_nonneg_right h hp.le
    have := roundEven_mono this
    have : (roundEven (x / (2 : ℚ) ^ ulpExp y) : ℚ) ≤ (roundEven (y / (2 : ℚ) ^ ulpExp y) : ℚ) := by
      exact_mod_cast this
    exact mul_le_mul_of_nonneg_right this hp.le
  · have hlt : max (ilog2 x) (-1022) + 1 ≤ ilog2 y ∧ -1022 ≤ ilog2 y := by
      unfold ulpExp at he
      constructor <;> omega
    calc roundMag x ≤ (2 : ℚ) ^ (max (ilog2 x) (-1022) + 1) := roundMag_le_pow hpos
      _ ≤ (2 : ℚ) ^ ilog2 y := zpow_le_zpow_right₀ (by norm_num) hlt.1
      _ ≤ roundMag y := pow_le_roundMag hy hlt.2

theorem toDouble_zero : toDouble 0 = 0 := by
  simp [toDouble, roundMag_zero]

theorem toDouble_mono {x y : ℚ} (h : x ≤ y) : toDouble x ≤ toDouble y := by
  unfold toDouble
  split_ifs with h1 h2 h2
  · exact neg_le_neg (roundMag_mono (by linarith) (by linarith))
  · have a := roundMag_nonneg (x := -x) (by linarith)
    have b := roundMag_nonneg (x := y) (by linarith)
    linarith
  · linarith
  · exact roundMag_mono (by linarith) h

theorem toDouble_nonneg {x : ℚ} (hx : 0 ≤ x) : 0 ≤ toDouble x := by
  have := toDouble_mono hx
  rwa [toDouble_zero] at this

theorem ulpExp_le {x : ℚ} (hx : 0 < x) :
    (2 : ℚ) ^ ulpExp x ≤ x / 2 ^ 52 + 1 / 2 ^ 1074 := by
  unfold ulpExp
  rcases le_total (ilog2 x) (-1022) with h | h
  · rw [max_eq_right h]
    have : (2 : ℚ) ^ ((-1022 : Int) - 52) = 1 / 2 ^ 1074 := by
      rw [show ((-1022 : Int) - 52) = -(1074 : Nat) by norm_num, zpow_neg, zpow_natCast]
      simp
    rw [this]
    have : 0 ≤ x / 2 ^ 52 := by positivity
    linarith
  · rw [max_eq_left h, zpow_sub₀ (by norm_num)]
    have h1 := (ilog2_spec hx).1
    have : (2 : ℚ) ^ ilog2 x / 2 ^ (52 : Int) ≤ x / 2 ^ 52 := by
      rw [show ((2 : ℚ) ^ (52 : Int)) = 2 ^ 52 by norm_num]
      exact div_le_div_of_nonneg_right h1 (by positivity)
    have : (0 : ℚ) ≤ 1 / 2 ^ 1074 := by positivity
    linarith

theorem roundMag_err_rel {x : ℚ} (hx : 0 ≤ x) :
    |roundMag x - x| ≤ x / 2 ^ 53 + 1 / 2 ^ 1075 := by
  rcases eq_or_lt_of_le hx with h0 | hpos
  · rw [← h0, roundMag_zero]; norm_num
  have h1 := roundMag_err x
  have h2 := ulpExp_le hpos
  have : (2 : ℚ) ^ ulpExp x / 2 ≤ x / 2 ^ 53 + 1 / 2 ^ 1075 := by
    have e1 : x / 2 ^ 53 = x / 2 ^ 52 / 2 := by rw [div_div]; norm_num
    have e2 : (1 : ℚ) / 2 ^ 1075 = 1 / 2 ^ 1074 / 2 := by rw [div_div]; norm_num
    rw [e1, e2]
    linarith
  linarith

theorem toDouble_err (x : ℚ) : |toDouble x - x| ≤ |x| / 2 ^ 53 + 1 / 2 ^ 1075 := by
  unfold toDouble
  split_ifs with h
  · have := roundMag_err_rel (x := -x) (by linarith)
    rw [abs_of_neg h]
    have e : -roundMag (-x) - x = -(roundMag (-x) - -x) := by ring
    rw [e, abs_neg]
    exact this
  · have := roundMag_err_rel (x := x) (by linarith)
    rw [abs_of_nonneg (not_lt.mp h)]
    exact this

theorem roundMag_of_grid {x : ℚ} (m : Int) (h : x = (m : ℚ) * (2 : ℚ) ^ ulpExp x) :
    roundMag x = x := by
  have h1 := roundMag_ge_grid (x := x) m h.symm.le
  have h2 := roundMag_le_grid (x := x) m h.le
  rw [← h] at h1 h2
  exact le_antisymm h2 h1

theorem toDouble_natCast (n : Nat) (h : n < 2 ^ 53) : toDouble (n : ℚ) = n := by
  rcases Nat.eq_zero_or_pos n with h0 | hpos
  · subst h0; simpa using toDouble_zero
  have hq : (0 : ℚ) < n := by exact_mod_cast hpos
  have hnn : ¬ ((n : ℚ) < 0) := not_lt.mpr hq.le
  unfold toDouble
  rw [if_neg hnn]
  obtain ⟨s1, s2⟩ := ilog2_spec hq
  have hlo : 0 ≤ ilog2 (n : ℚ) := by
    have h1 : (1 : ℚ) ≤ n := by exact_mod_cast hpos
    have : (2 : ℚ) ^ (0 : Int) < (2 : ℚ) ^ (ilog2 (n : ℚ) + 1) := by
      rw [zpow_zero]; exact lt_of_le_of_lt h1 s2
    have := (zpow_lt_zpow_iff_right₀ (by norm_num : (1 : ℚ) < 2)).mp this
    omega
  have hhi : ilog2 (n : ℚ) ≤ 52 := by
    have h1 : (n : ℚ) < (2 : ℚ) ^ (53 : Int) := by
      have : (n : ℚ) < ((2 ^ 53 : Nat) : ℚ) := by exact_mod_cast h
      rw [show ((2 : ℚ) ^ (53 : Int)) = ((2 ^ 53 : Nat) : ℚ) by norm_num]
      exact this
    have := (zpow_lt_zpow_iff_right₀ (by norm_num : (1 : ℚ) < 2)).mp (lt_of_le_of_lt s1 h1)
    omega
  have he : ulpExp (n : ℚ) = -((52 - ilog2 (n : ℚ)).toNat : Int) := by
    unfold ulpExp
    rw [max_eq_left (by omega), Int.toNat_of_nonneg (by omega)]
    ring
  apply roundMag_of_grid ((n : Int) * 2 ^ (52 - ilog2 (n : ℚ)).toNat)
  rw [he, zpow_neg, zpow_natCast]
  push_cast
  field_simp

theorem toDouble_one : toDouble 1 = 1 := by
  have := toDouble_natCast 1 (by norm_num)
  simpa using this

theorem toDouble_quarter : toDouble (1 / 4) = 1 / 4 := by decide!

/-! ## The rank `count_stop` -/

theorem toInt_of_nonneg {x : ℚ} (hx : 0 ≤ x) : toInt x = ⌊x⌋ := by
  simp [toInt, hx]

theorem toInt_mono {x y : ℚ} (h : x ≤ y) : toInt x ≤ toInt y := by
  unfold toInt
  split <;> split
  · exact Int.floor_mono h
  · rename_i h1 h2; exact absurd (le_trans h1 h) h2
  · rename_i h1 h2
    have h3 : ⌈x⌉ ≤ 0 := Int.ceil_le.mpr (by push_cast; linarith [not_le.mp h1])
    exact le_trans h3 (Int.floor_nonneg.mpr h2)
  · exact Int.ceil_mono h

theorem countStop_anti {p1 p2 : ℚ} (h : p1 ≤ p2) (N : Nat) : countStop p2 N ≤ countStop p1 N := by
  unfold countStop
  apply toInt_mono
  apply toDouble_mono
  have hc : 0 ≤ toDouble (N : ℚ) := toDouble_nonneg (by positivity)
  have ha : toDouble (1 - p2) ≤ toDouble (1 - p1) := toDouble_mono (by linarith)
  exact mul_le_mul_of_nonneg_right ha hc

theorem countStop_value_nonneg {x : ℚ} (hx : x ≤ 1) (N : Nat) :
    0 ≤ toDouble (toDouble (1 - x) * toDouble (N : ℚ)) :=
  toDouble_nonneg (mul_nonneg (toDouble_nonneg (by linarith)) (toDouble_nonneg (by positivity)))

theorem countStop_eq_floor {x : ℚ} (hx : x ≤ 1) (N : Nat) :
    countStop x N = ⌊toDouble (toDouble (1 - x) * toDouble (N : ℚ))⌋ := by
  unfold countStop
  exact toInt_of_nonneg (countStop_value_nonneg hx N)

theorem countStop_nonneg {x : ℚ} (hx : x ≤ 1) (N : Nat) : 0 ≤ countStop x N := by
  rw [countStop_eq_floor hx]
  exact Int.floor_nonneg.mpr (countStop_value_nonneg hx N)

theorem toDouble_natCast_le (N : Nat) (hN : 0 < N) :
    |toDouble (N : ℚ) - N| ≤ (N : ℚ) / 2 ^ 53 + 1 / 2 ^ 1075 := by
  have := toDouble_err (N : ℚ)
  rwa [abs_of_nonneg (by positivity : (0 : ℚ) ≤ N)] at this

theorem countStop_lt_of_ladder {x : ℚ} (h1 : 3 / 4 ≤ x) {N : Nat} (hN : 0 < N) :
    countStop x N < N := by
  have hN1 : (1 : ℚ) ≤ N := by exact_mod_cast hN
  by_cases hx : x ≤ 1
  · rw [countStop_eq_floor hx, Int.floor_lt]
    have ha0 : 0 ≤ toDouble (1 - x) := toDouble_nonneg (by linarith)
    have ha1 : toDouble (1 - x) ≤ 1 / 4 := by
      have := toDouble_mono (show 1 - x ≤ 1 / 4 by linarith)
      rwa [toDouble_quarter] at this
    have hc0 : 0 ≤ toDouble (N : ℚ) := toDouble_nonneg (by positivity)
    have hc := abs_le.mp (toDouble_natCast_le N hN)
    have hc1 : toDouble (N : ℚ) ≤ 2 * N := by
      have : (N : ℚ) / 2 ^ 53 + 1 / 2 ^ 1075 ≤ N := by
        have e1 : (N : ℚ) / 2 ^ 53 ≤ N / 2 := by
          apply div_le_div_of_nonneg_left (by positivity) (by norm_num) (by norm_num)
        have e2 : (1 : ℚ) / 2 ^ 1075 ≤ 1 / 2 := by
          apply div_le_div_of_nonneg_left (by norm_num) (by norm_num) (by norm_num)
        linarith
      linarith [hc.2]
    have hprod0 : 0 ≤ toDouble (1 - x) * toDouble (N : ℚ) := mul_nonneg ha0 hc0
    have hprod : toDouble (1 - x) * toDouble (N : ℚ) ≤ (N : ℚ) / 2 := by
      calc toDouble (1 - x) * toDouble (N : ℚ) ≤ 1 / 4 * (2 * N) :=
            mul_le_mul ha1 hc1 hc0 (by norm_num)
        _ = (N : ℚ) / 2 := by ring
    have hb := abs_le.mp (toDouble_err (toDouble (1 - x) * toDouble (N : ℚ)))
    rw [abs_of_nonneg hprod0] at hb
    have e1 : toDouble (1 - x) * toDouble (N : ℚ) / 2 ^ 53 ≤ (N : ℚ) / 4 := by
      calc toDouble (1 - x) * toDouble (N : ℚ) / 2 ^ 53
          ≤ toDouble (1 - x) * toDouble (N : ℚ) / 2 :=
            div_le_div_of_nonneg_left hprod0 (by norm_num) (by norm_num)
        _ ≤ (N : ℚ) / 2 / 2 := div_le_div_of_nonneg_right hprod (by norm_num)
        _ = (N : ℚ) / 4 := by ring
    have e2 : (1 : ℚ) / 2 ^ 1075 < 1 / 4 := by
      apply div_lt_div_of_pos_left (by norm_num) (by norm_num) (by norm_num)
    push_cast
    linarith [hb.2]
  · have hneg : 1 - x ≤ 0 := by linarith
    have ha : toDouble (1 - x) ≤ 0 := by
      have := toDouble_mono hneg
      rwa [toDouble_zero] at this
    have hc0 : 0 ≤ toDouble (N : ℚ) := toDouble_nonneg (by positivity)
    have hb : toDouble (toDouble (1 - x) * toDouble (N : ℚ)) ≤ 0 := by
      have := toDouble_mono (mul_nonpos_of_nonpos_of_nonneg ha hc0)
      rwa [toDouble_zero] at this
    have : countStop x N ≤ 0 := by
      have h := toInt_mono hb
      unfold countStop
      simpa [toInt] using h
    omega

theorem countStop_value_near {p : ℚ} (hp0 : 0 ≤ p) (hp1 : p ≤ 1) (N : Nat) :
    |toDouble (toDouble (1 - p) * toDouble (N : ℚ)) - (1 - p) * (N : ℚ)| ≤ (N : ℚ) / 2 ^ 51 := by
  rcases Nat.eq_zero_or_pos N with h0 | hN
  · subst h0
    simp [toDouble_zero]
  have hN1 : (1 : ℚ) ≤ N := by exact_mod_cast hN
  have ha0 : 0 ≤ toDouble (1 - p) := toDouble_nonneg (by linarith)
  have ha1 : toDouble (1 - p) ≤ 1 := by
    have := toDouble_mono (show 1 - p ≤ 1 by linarith)
    rwa [toDouble_one] at this
  have hc0 : 0 ≤ toDouble (N : ℚ) := toDouble_nonneg (by positivity)
  have ha := toDouble_err (1 - p)
  rw [abs_of_nonneg (show 0 ≤ 1 - p by linarith)] at ha
  have ha := abs_le.mp ha
  have hc := abs_le.mp (toDouble_natCast_le N hN)
  have hprod0 : 0 ≤ toDouble (1 - p) * toDouble (N : ℚ) := mul_nonneg ha0 hc0
  have hb := toDouble_err (toDouble (1 - p) * toDouble (N : ℚ))
  rw [abs_of_nonneg hprod0] at hb
  have hb := abs_le.mp hb
  have hprod1 : toDouble (1 - p) * toDouble (N : ℚ) ≤ toDouble (N : ℚ) := by
    calc toDouble (1 - p) * toDouble (N : ℚ) ≤ 1 * toDouble (N : ℚ) :=
          mul_le_mul_of_nonneg_right ha1 hc0
      _ = toDouble (N : ℚ) := one_mul _
  have hd2 : 0 ≤ (N : ℚ) / 2 ^ 53 + 1 / 2 ^ 1075 := by positivity
  have k1 : toDouble (1 - p) * (toDouble (N : ℚ) - N) ≤ (N : ℚ) / 2 ^ 53 + 1 / 2 ^ 1075 := by
    calc toDouble (1 - p) * (toDouble (N : ℚ) - N)
        ≤ toDouble (1 - p) * ((N : ℚ) / 2 ^ 53 + 1 / 2 ^ 1075) :=
          mul_le_mul_of_nonneg_left hc.2 ha0
      _ ≤ 1 * ((N : ℚ) / 2 ^ 53 + 1 / 2 ^ 1075) := mul_le_mul_of_nonneg_right ha1 hd2
      _ = _ := one_mul _
  have k2 : -((N : ℚ) / 2 ^ 53 + 1 / 2 ^ 1075) ≤ toDouble (1 - p) * (toDouble (N : ℚ) - N) := by
    have : toDouble (1 - p) * (-((N : ℚ) / 2 ^ 53 + 1 / 2 ^ 1075))
        ≤ toDouble (1 - p) * (toDouble (N : ℚ) - N) := mul_le_mul_of_nonneg_left hc.1 ha0
    have h' : toDouble (1 - p) * ((N : ℚ) / 2 ^ 53 + 1 / 2 ^ 1075)
        ≤ 1 * ((N : ℚ) / 2 ^ 53 + 1 / 2 ^ 1075) := mul_le_mul_of_nonneg_right ha1 hd2
    linarith
  have hNq : (0 : ℚ) ≤ N := by positivity
  have k3 : (toDouble (1 - p) - (1 - p)) * (N : ℚ)
      ≤ ((1 - p) / 2 ^ 53 + 1 / 2 ^ 1075) * (N : ℚ) := mul_le_mul_of_nonneg_right ha.2 hNq
  have k4 : -((1 - p) / 2 ^ 53 + 1 / 2 ^ 1075) * (N : ℚ)
      ≤ (toDouble (1 - p) - (1 - p)) * (N : ℚ) := mul_le_mul_of_nonneg_right ha.1 hNq
  have k5 : ((1 - p) / 2 ^ 53 + 1 / 2 ^ 1075) * (N : ℚ)
      ≤ ((1 : ℚ) / 2 ^ 53 + 1 / 2 ^ 1075) * (N : ℚ) := by
    apply mul_le_mul_of_nonneg_right _ hNq
    have : (1 - p) / 2 ^ 53 ≤ (1 : ℚ) / 2 ^ 53 :=
      div_le_div_of_nonneg_right (by linarith) (by norm_num)
    linarith
  have k6 : toDouble (1 - p) * toDouble (N : ℚ) / 2 ^ 53
      ≤ ((N : ℚ) + ((N : ℚ) / 2 ^ 53 + 1 / 2 ^ 1075)) / 2 ^ 53 :=
    div_le_div_of_nonneg_right (by linarith [hc.2]) (by norm_num)
  have hsplit : toDouble (1 - p) * toDouble (N : ℚ) - (1 - p) * (N : ℚ)
      = toDouble (1 - p) * (toDouble (N : ℚ) - N) + (toDouble (1 - p) - (1 - p)) * (N : ℚ) := by
    ring
  have hfin : 3 * ((N : ℚ) / 2 ^ 53) + (N : ℚ) / 2 ^ 53 / 2 ^ 53
      + (2 + (N : ℚ) + 1 / 2 ^ 53) * (1 / 2 ^ 1075) ≤ (N : ℚ) / 2 ^ 51 := by
    have e1 : (N : ℚ) / 2 ^ 51 = 4 * ((N : ℚ) / 2 ^ 53) := by ring
    have e2 : (N : ℚ) / 2 ^ 53 / 2 ^ 53 ≤ (N : ℚ) / 2 ^ 53 / 2 :=
      div_le_div_of_nonneg_left (by positivity) (by norm_num) (by norm_num)
    have e3 : (2 + (N : ℚ) + 1 / 2 ^ 53) * (1 / 2 ^ 1075) ≤ (4 * (N : ℚ)) * (1 / 2 ^ 1075) := by
      apply mul_le_mul_of_nonneg_right _ (by positivity)
      have : (1 : ℚ) / 2 ^ 53 ≤ 1 := by
        rw [div_le_one (by positivity)]; norm_num
      linarith
    have e4 : (4 * (N : ℚ)) * (1 / 2 ^ 1075) ≤ (N : ℚ) / 2 ^ 53 / 2 := by
      have : (4 * (N : ℚ)) * (1 / 2 ^ 1075) = (N : ℚ) * (4 / 2 ^ 1075) := by ring
      rw [this, div_div, div_eq_mul_one_div (N : ℚ)]
      apply mul_le_mul_of_nonneg_left _ hNq
      norm_num
    linarith
  have k7 : ((N : ℚ) + ((N : ℚ) / 2 ^ 53 + 1 / 2 ^ 1075)) / 2 ^ 53
      = (N : ℚ) / 2 ^ 53 + (N : ℚ) / 2 ^ 53 / 2 ^ 53 + 1 / 2 ^ 53 * (1 / 2 ^ 1075) := by
    ring
  have k8 : ((1 : ℚ) / 2 ^ 53 + 1 / 2 ^ 1075) * (N : ℚ)
      = (N : ℚ) / 2 ^ 53 + (N : ℚ) * (1 / 2 ^ 1075) := by ring
  rw [abs_le]
  constructor <;> linarith [hb.1, hb.2]

theorem countStop_bounds {p : ℚ} (hp0 : 0 ≤ p) (hp1 : p ≤ 1) (N : Nat) :
    (countStop p N : ℚ) ≤ (1 - p) * (N : ℚ) + (N : ℚ) / 2 ^ 51 ∧
      (1 - p) * (N : ℚ) - (N : ℚ) / 2 ^ 51 < (countStop p N : ℚ) + 1 := by
  have h := abs_le.mp (countStop_value_near hp0 hp1 N)
  rw [countStop_eq_floor hp1]
  have f1 := Int.floor_le (toDouble (toDouble (1 - p) * toDouble (N : ℚ)))
  have f2 := Int.lt_floor_add_one (toDouble (toDouble (1 - p) * toDouble (N : ℚ)))
  constructor <;> linarith [h.1, h.2]

theorem countStop_floor_bounds {p : ℚ} (hp0 : 0 ≤ p) (hp1 : p ≤ 1) (N : Nat) :
    ⌊(1 - p) * (N : ℚ) - (N : ℚ) / 2 ^ 51⌋ ≤ countStop p N ∧
      countStop p N ≤ ⌊(1 - p) * (N : ℚ) + (N : ℚ) / 2 ^ 51⌋ := by
  obtain ⟨h1, h2⟩ := countStop_bounds hp0 hp1 N
  constructor
  · have : ⌊(1 - p) * (N : ℚ) - (N : ℚ) / 2 ^ 51⌋ < countStop p N + 1 :=
      Int.floor_lt.mpr (by push_cast; exact h2)
    omega
  · exact Int.le_floor.mpr h1

theorem countStop_exact {p : ℚ} (hp1 : p ≤ 1) {N : Nat} (hN : N < 2 ^ 53)
    (h1 : toDouble (1 - p) = 1 - p) (h2 : toDouble ((1 - p) * (N : ℚ)) = (1 - p) * (N : ℚ)) :
    countStop p N = ⌊(1 - p) * (N : ℚ)⌋ := by
  rw [countStop_eq_floor hp1, toDouble_natCast N hN, h1, h2]

theorem countStop_near_floor {p : ℚ} (hp0 : 0 ≤ p) (hp1 : p ≤ 1) {N : Nat} (hN : N ≤ 2 ^ 51) :
    ⌊(1 - p) * (N : ℚ)⌋ - 1 ≤ countStop p N ∧ countStop p N ≤ ⌊(1 - p) * (N : ℚ)⌋ + 1 := by
  obtain ⟨h1, h2⟩ := countStop_bounds hp0 hp1 N
  have hd : (N : ℚ) / 2 ^ 51 ≤ 1 := by
    rw [div_le_one (by positivity)]
    exact_mod_cast hN
  have f1 := Int.floor_le ((1 - p) * (N : ℚ))
  have f2 := Int.lt_floor_add_one ((1 - p) * (N : ℚ))
  constructor
  · have : ((⌊(1 - p) * (N : ℚ)⌋ : Int) : ℚ) < ((countStop p N + 2 : Int) : ℚ) := by
      push_cast; linarith
    have := Int.cast_lt.mp this
    omega
  · have : ((countStop p N : Int) : ℚ) < ((⌊(1 - p) * (N : ℚ)⌋ + 2 : Int) : ℚ) := by
      push_cast; linarith
    have := Int.cast_lt.mp this
    omega

/-! ## The diagnostic loop and the returned element -/

theorem ladder_length : ladder.length = 25 := by decide!

theorem mem_ladderFrom (fuel : Nat) (x0 : ℚ) (h : x0 ≤ 1) :
    ∀ x ∈ ladderFrom fuel x0, 3 / 4 ≤ x ∧ x ≤ 1 := by
  induction fuel generalizing x0 with
  | zero => intro x hx; simp [ladderFrom] at hx
  | succ fuel ih =>
    intro x hx
    unfold ladderFrom at hx
    split_ifs at hx with hc
    · rcases List.mem_cons.mp hx with rfl | hx
      · exact ⟨hc, h⟩
      · refine ih _ ?_ x hx
        have hstep : 0 ≤ toDouble (1 / 100) := toDouble_nonneg (by norm_num)
        have := toDouble_mono (show x0 - toDouble (1 / 100) ≤ 1 by linarith)
        rwa [toDouble_one] at this
    · simp at hx

theorem mem_ladder : ∀ x ∈ ladder, 3 / 4 ≤ x ∧ x ≤ 1 :=
  mem_ladderFrom 100 1 le_rfl

theorem ladder_reads (data : List CSequence) (hN : 0 < totalLength data) :
    (ladder.all fun x => (readAt (sortedPP data) (countStop x (totalLength data))).isSome) = true := by
  rw [List.all_eq_true]
  intro x hx
  obtain ⟨h1, h2⟩ := mem_ladder x hx
  rw [readAt_isSome_iff, sortedPP_length]
  exact ⟨countStop_nonneg h2 _, countStop_lt_of_ladder h1 hN⟩

theorem TargetCutoff_of_pos (data : List CSequence) (p : ℚ) (hN : 0 < totalLength data) :
    TargetCutoff data p = readAt (sortedPP data) (countStop p (totalLength data)) := by
  unfold TargetCutoff
  simp only [ladder_reads data hN, if_true]

theorem TargetCutoff_of_zero (data : List CSequence) (p : ℚ) (hN : totalLength data = 0) :
    TargetCutoff data p = none := by
  have hlen : (sortedPP data).length = 0 := by rw [sortedPP_length, hN]
  have hread : ∀ c, readAt (sortedPP data) c = none := by
    intro c
    cases h : readAt (sortedPP data) c with
    | none => rfl
    | some v =>
      have := (readAt_isSome_iff (sortedPP data) c).mp (by rw [h]; rfl)
      rw [hlen] at this
      omega
  unfold TargetCutoff
  simp only [hread]
  split <;> rfl

theorem totalLength_nil : totalLength [] = 0 := rfl

theorem TargetCutoff_eq_some {data : List CSequence} {p t : ℚ} (h : TargetCutoff data p = some t) :
    0 < totalLength data ∧ readAt (sortedPP data) (countStop p (totalLength data)) = some t := by
  have hN : 0 < totalLength data := by
    rcases Nat.eq_zero_or_pos (totalLength data) with h0 | h0
    · rw [TargetCutoff_of_zero data p h0] at h; cases h
    · exact h0
  exact ⟨hN, by rw [← TargetCutoff_of_pos data p hN]; exact h⟩

theorem sortedPP_gradedCorpus :
    sortedPP (gradedCorpus 90) = (List.range 90).map (fun (k : Nat) => (k : ℚ) / 100) := by
  decide!

/-- C1, counterexample: one sequence of 90 positions with the distinct scores
`0/100, 1/100, ..., 89/100` and the retain proportion `0.3` (the double nearest to `3/10`,
or `3/10` itself). The rank `⌊(1 - p) * N⌋` is 63 and the sorted list holds `63/100` there.
In binary64 the difference `1.0 - 0.3` is a tie and rounds to the double just below `0.7`,
the product with `90.0` rounds to the double just below `63`, and the cast gives 62: the
code returns the element `62/100` at position 62. -/
theorem targetCutoff_rank_rounded_down :
    0 < totalLength (gradedCorpus 90) ∧
      ⌊(1 - toDouble (3/10)) * (totalLength (gradedCorpus 90) : ℚ)⌋ = 63 ∧
      ⌊(1 - (3/10 : ℚ)) * (totalLength (gradedCorpus 90) : ℚ)⌋ = 63 ∧
      (sortedPP (gradedCorpus 90))[63]? = some (63/100) ∧
      countStop (toDouble (3/10)) (totalLength (gradedCorpus 90)) = 62 ∧
      TargetCutoff (gradedCorpus 90) (toDouble (3/10)) = some (62/100) ∧
      TargetCutoff (gradedCorpus 90) (3/10) = some (62/100) := by
  have hN : 0 < totalLength (gradedCorpus 90) := by decide!
  rw [TargetCutoff_of_pos _ _ hN, TargetCutoff_of_pos _ _ hN, sortedPP_gradedCorpus]
  decide!

/-- C1, amended: for a corpus of total length `N > 0` and a retain proportion `p` whose
rank as the code computes it, `r = (int)((1.0 - p) * (double) N)` in binary64, satisfies
`0 ≤ r < N`, `TargetCutoff p` returns the element at 0-indexed position `r` of the
ascending-sorted list of all confidence scores (`ref` is any sorted arrangement of all the
scores). For `0 ≤ p ≤ 1` the rank lies between `⌊(1 - p) * N - N / 2 ^ 51⌋` and
`⌊(1 - p) * N + N / 2 ^ 51⌋`, so it differs from `⌊(1 - p) * N⌋` by at most one when
`N ≤ 2 ^ 51`; it is `⌊(1 - p) * N⌋` when `N < 2 ^ 53` and both `1 - p` and `(1 - p) * N`
are doubles. -/
theorem targetCutoff_reference (data : List CSequence) (p : ℚ) (ref : List ℚ)
    (hsorted : ref.Sorted (· ≤ ·)) (hperm : ref.Perm (allScores data))
    (hN : 0 < totalLength data) (h0 : 0 ≤ countStop p (totalLength data))
    (hr : countStop p (totalLength data) < (totalLength data : Int)) :
    (∃ t, TargetCutoff data p = some t ∧
      ref[(countStop p (totalLength data)).toNat]? = some t) ∧
      (0 ≤ p → p ≤ 1 →
        (⌊(1 - p) * (totalLength data : ℚ) - (totalLength data : ℚ) / 2 ^ 51⌋
            ≤ countStop p (totalLength data) ∧
          countStop p (totalLength data)
            ≤ ⌊(1 - p) * (totalLength data : ℚ) + (totalLength data : ℚ) / 2 ^ 51⌋) ∧
        (totalLength data ≤ 2 ^ 51 →
          ⌊(1 - p) * (totalLength data : ℚ)⌋ - 1 ≤ countStop p (totalLength data) ∧
            countStop p (totalLength data) ≤ ⌊(1 - p) * (totalLength data : ℚ)⌋ + 1)) ∧
      (p ≤ 1 → totalLength data < 2 ^ 53 → toDouble (1 - p) = 1 - p →
        toDouble ((1 - p) * (totalLength data : ℚ)) = (1 - p) * (totalLength data : ℚ) →
        countStop p (totalLength data) = ⌊(1 - p) * (totalLength data : ℚ)⌋) := by
  refine ⟨?_, fun hp0 hp1 => ⟨countStop_floor_bounds hp0 hp1 _,
    fun hle => countStop_near_floor hp0 hp1 hle⟩,
    fun hp1 hlt e1 e2 => countStop_exact hp1 hlt e1 e2⟩
  rw [TargetCutoff_of_pos data p hN, ← sortedPP_unique data ref hsorted hperm]
  have h1 : countStop p (totalLength data) < ((sortedPP data).length : Int) := by
    rw [sortedPP_length]; exact hr
  refine ⟨_, readAt_of_lt _ _ h0 h1, ?_⟩
  exact List.getElem?_eq_getElem _

theorem targetCutoff_reference_witness :
    (∃ t, TargetCutoff (gradedCorpus 5) (1/2) = some t ∧
      ([0, 1/100, 2/100, 3/100, 4/100] : List ℚ)[(countStop (1/2)
        (totalLength (gradedCorpus 5))).toNat]? = some t) ∧
      (0 ≤ (1/2 : ℚ) → (1/2 : ℚ) ≤ 1 →
        (⌊(1 - (1/2 : ℚ)) * (totalLength (gradedCorpus 5) : ℚ)
              - (totalLength (gradedCorpus 5) : ℚ) / 2 ^ 51⌋
            ≤ countStop (1/2) (totalLength (gradedCorpus 5)) ∧
          countStop (1/2) (totalLength (gradedCorpus 5))
            ≤ ⌊(1 - (1/2 : ℚ)) * (totalLength (gradedCorpus 5) : ℚ)
              + (totalLength (gradedCorpus 5) : ℚ) / 2 ^ 51⌋) ∧
        (totalLength (gradedCorpus 5) ≤ 2 ^ 51 →
          ⌊(1 - (1/2 : ℚ)) * (totalLength (gradedCorpus 5) : ℚ)⌋ - 1
              ≤ countStop (1/2) (totalLength (gradedCorpus 5)) ∧
            countStop (1/2) (totalLength (gradedCorpus 5))
              ≤ ⌊(1 - (1/2 : ℚ)) * (totalLength (gradedCorpus 5) : ℚ)⌋ + 1)) ∧
      ((1/2 : ℚ) ≤ 1 → totalLength (gradedCorpus 5) < 2 ^ 53 →
        toDouble (1 - (1/2 : ℚ)) = 1 - 1/2 →
        toDouble ((1 - (1/2 : ℚ)) * (totalLength (gradedCorpus 5) : ℚ))
          = (1 - (1/2 : ℚ)) * (totalLength (gradedCorpus 5) : ℚ) →
        countStop (1/2) (totalLength (gradedCorpus 5))
          = ⌊(1 - (1/2 : ℚ)) * (totalLength (gradedCorpus 5) : ℚ)⌋) :=
  targetCutoff_reference (gradedCorpus 5) (1/2) [0, 1/100, 2/100, 3/100, 4/100]
    (by decide!) (by decide!) (by decide) (by decide!) (by decide!)

/-- C9: the quantile cutoff is antitone in the retain proportion: when `p1 ≤ p2` and both
cutoffs are defined, `TargetCutoff p2 ≤ TargetCutoff p1`. -/
theorem targetCutoff_antitone (data : List CSequence) (p1 p2 t1 t2 : ℚ) (h : p1 ≤ p2)
    (h1 : TargetCutoff data p1 = some t1) (h2 : TargetCutoff data p2 = some t2) : t2 ≤ t1 := by
  obtain ⟨_, h1'⟩ := TargetCutoff_eq_some h1
  obtain ⟨_, h2'⟩ := TargetCutoff_eq_some h2
  obtain ⟨a0, a1, rfl⟩ := readAt_eq_some h1'
  obtain ⟨b0, b1, rfl⟩ := readAt_eq_some h2'
  apply (sortedPP_sorted data).rel_get_of_le
  have := countStop_anti h (totalLength data)
  show (⟨_, _⟩ : Fin _) ≤ ⟨_, _⟩
  simp only [Fin.mk_le_mk]
  omega

theorem targetCutoff_antitone_witness : (1/5 : ℚ) ≤ 3/10 :=
  targetCutoff_antitone [CSequence.ofScores [3/10, 1/10], CSequence.ofScores [1/5]]
    (1/4) (1/2) (3/10) (1/5) (by norm_num)
    (by rw [TargetCutoff_of_pos _ _ (by decide)]; decide!)
    (by rw [TargetCutoff_of_pos _ _ (by decide)]; decide!)

/-- C10: evaluation at the failing input. For a corpus without positions (no sequence, or
empty sequences only) `total_length` is 0 and the sorted vector is empty. No test of
`total_length` precedes the reads: the first round of the diagnostic loop (`x = 1.0`,
`count_stop = 0`) reads `tmp_PP[0]` outside the empty vector, and so does line 180. The
value `none` of `TargetCutoff` stands for this read without a defined result; the code has
no rejection of the empty corpus. -/
theorem targetCutoff_empty_reads_outside :
    totalLength [] = 0 ∧ sortedPP [] = [] ∧
      totalLength [[], []] = 0 ∧ sortedPP [[], []] = [] ∧
      ladder.head? = some 1 ∧ countStop 1 0 = 0 ∧
      readAt [] (countStop 1 0) = none ∧
      countStop (toDouble (9/10)) 0 = 0 ∧
      TargetCutoff [] (toDouble (9/10)) = none ∧
      TargetCutoff [[], []] (toDouble (9/10)) = none := by
  decide!

/-! ## Counting in the sorted score vector -/

theorem sorted_getElem_le {s : List ℚ} (hs : s.Sorted (· ≤ ·)) {i j : Nat} (hij : i ≤ j)
    (hj : j < s.length) : s.get ⟨i, by omega⟩ ≤ s.get ⟨j, hj⟩ :=
  hs.rel_get_of_le (by simpa using hij)

theorem countP_split (P : ℚ → Bool) (s : List ℚ) (k : Nat) :
    s.countP P = (s.take k).countP P + (s.drop k).countP P := by
  rw [← List.countP_append, List.take_append_drop]

theorem sorted_countP_lt {s : List ℚ} (hs : s.Sorted (· ≤ ·)) {r : Nat} (hr : r < s.length) :
    s.countP (fun x => decide (x < s[r])) ≤ r := by
  have h0 : (s.drop r).countP (fun x => decide (x < s[r])) = 0 := by
    rw [List.countP_eq_zero]
    intro a ha
    obtain ⟨i, hi, rfl⟩ := List.mem_drop_iff_getElem.mp ha
    have := sorted_getElem_le hs (Nat.le_add_right r i) (by omega)
    simpa using this
  have h1 : (s.take r).countP (fun x => decide (x < s[r])) ≤ r :=
    le_trans (List.countP_le_length _) (by simp)
  rw [countP_split _ s r, h0]
  exact h1

theorem sorted_countP_gt {s : List ℚ} (hs : s.Sorted (· ≤ ·)) {r : Nat} (hr : r < s.length) :
    s.countP (fun x => decide (s[r] < x)) + (r + 1) ≤ s.length := by
  have h0 : (s.take (r + 1)).countP (fun x => decide (s[r] < x)) = 0 := by
    rw [List.countP_eq_zero]
    intro a ha
    obtain ⟨i, hi, rfl⟩ := List.mem_take_iff_getElem.mp ha
    have hi' : i < r + 1 := lt_of_lt_of_le hi (Nat.min_le_left _ _)
    have := sorted_getElem_le hs (Nat.lt_succ_iff.mp hi') hr
    simpa using this
  have h1 : (s.drop (r + 1)).countP (fun x => decide (s[r] < x)) ≤ s.length - (r + 1) :=
    le_trans (List.countP_le_length _) (by simp)
  rw [countP_split _ s (r + 1), h0]
  omega

theorem countP_ge_add_lt (s : List ℚ) (t : ℚ) :
    s.countP (fun x => decide (t ≤ x)) + s.countP (fun x => decide (x < t)) = s.length := by
  rw [List.length_eq_countP_add_countP (fun x => decide (t ≤ x)) s]
  congr 2
  funext x
  simp

/-! ## Retain proportion and the cutoff -/

theorem countStop_zero (N : Nat) (hN : N < 2 ^ 53) : countStop 0 N = N := by
  rw [countStop_eq_floor (by norm_num), sub_zero, toDouble_one, one_mul, toDouble_natCast N hN,
    toDouble_natCast N hN]
  exact Int.floor_natCast N

theorem TargetCutoff_zero_prop (data : List CSequence) (hN : totalLength data < 2 ^ 53) :
    TargetCutoff data 0 = none := by
  rcases Nat.eq_zero_or_pos (totalLength data) with h0 | h0
  · exact TargetCutoff_of_zero data 0 h0
  · rw [TargetCutoff_of_pos data 0 h0, countStop_zero _ hN]
    cases h : readAt (sortedPP data) (totalLength data) with
    | none => rfl
    | some v =>
      have := (readAt_isSome_iff _ _).mp (by rw [h]; rfl)
      rw [sortedPP_length] at this
      omega

theorem TargetCutoff_tiny_prop :
    countStop (1 / 2 ^ 60) (totalLength [CSequence.ofScores [1/4, 1/2]]) = 2 ∧
      TargetCutoff [CSequence.ofScores [1/4, 1/2]] (1 / 2 ^ 60) = none := by
  rw [TargetCutoff_of_pos _ _ (by decide)]
  decide!

/-- C2: evaluation at the failing input. For the one-score corpus and retain proportion
`p = 0` the rank `(int)((1 - 0) * 1) = 1` equals the length of the sorted vector, so the
read `tmp_PP[1]` is one past the end and `TargetCutoff` yields no threshold. -/
theorem targetCutoff_zero_proportion_fails :
    countStop 0 (totalLength [CSequence.ofScores [1/2]])
        = (totalLength [CSequence.ofScores [1/2]] : Int) ∧
      (sortedPP [CSequence.ofScores [1/2]]).length = totalLength [CSequence.ofScores [1/2]] ∧
      TargetCutoff [CSequence.ofScores [1/2]] 0 = none := by
  rw [TargetCutoff_of_pos _ _ (by decide)]
  decide!

theorem countP_ge_eq_gt_add_count (s : List ℚ) (t : ℚ) :
    s.countP (fun x => decide (t ≤ x)) = s.countP (fun x => decide (t < x)) + s.count t := by
  induction s with
  | nil => simp
  | cons a s ih =>
    rw [List.countP_cons, List.countP_cons, List.count_cons, ih]
    rcases lt_trichotomy t a with h | h | h
    · have h1 : t ≤ a := le_of_lt h
      have h2 : a ≠ t := ne_of_gt h
      simp [h, h1, h2]
      omega
    · subst h; simp; omega
    · have h1 : ¬ t ≤ a := not_le.mpr h
      have h2 : ¬ t < a := not_lt.mpr (le_of_lt h)
      have h3 : a ≠ t := ne_of_lt h
      simp [h1, h2, h3]

/-- C8, counterexample: on the scenario corpus (lengths 10 and 20, all scores 0.0 except
one 1.0 each) the cutoff for `p = 0.9` (the double nearest to `9/10`, or `9/10` itself) is
`0.0`; applying it removes 0 positions, and the 30 positions with score `≥` cutoff differ
from `p * N = 27` by more than one. -/
theorem quantile_scenario_keeps_everything :
    TargetCutoff scenarioCorpus (toDouble (9/10)) = some 0 ∧
      TargetCutoff scenarioCorpus (9/10) = some 0 ∧
      (applyThreshold 0 scenarioCorpus).2 = 0 ∧
      ¬ (|(((allScores scenarioCorpus).countP (fun x => decide ((0 : ℚ) ≤ x)) : Nat) : ℚ)
            - toDouble (9/10) * (totalLength scenarioCorpus : ℚ)| ≤ 1) ∧
      ¬ (|(((allScores scenarioCorpus).countP (fun x => decide ((0 : ℚ) ≤ x)) : Nat) : ℚ)
            - 9/10 * (totalLength scenarioCorpus : ℚ)| ≤ 1) := by
  have hN : 0 < totalLength scenarioCorpus := by decide
  rw [TargetCutoff_of_pos _ _ hN, TargetCutoff_of_pos _ _ hN]
  decide!

/-- C8, amended: for `0 ≤ p ≤ 1` and a defined cutoff `t = TargetCutoff p` on a corpus of
total length `N`, fewer than `p * N + N / 2 ^ 51` positions score strictly above `t` and at
least `p * N - N / 2 ^ 51` positions score `≥ t` (`N / 2 ^ 51` bounds the rounding of the
rank in binary64); when the score `t` occurs exactly once in the corpus, the number of
positions with score `≥ t` differs from `p * N` by less than `1 + N / 2 ^ 51`. -/
theorem quantile_brackets_proportion (data : List CSequence) (p t : ℚ) (hp0 : 0 ≤ p)
    (hp : p ≤ 1) (h : TargetCutoff data p = some t) :
    (((allScores data).countP (fun x => decide (t < x)) : Nat) : ℚ)
        < p * (totalLength data : ℚ) + (totalLength data : ℚ) / 2 ^ 51 ∧
      p * (totalLength data : ℚ) - (totalLength data : ℚ) / 2 ^ 51
        ≤ (((allScores data).countP (fun x => decide (t ≤ x)) : Nat) : ℚ) ∧
      ((allScores data).count t = 1 →
        |(((allScores data).countP (fun x => decide (t ≤ x)) : Nat) : ℚ)
            - p * (totalLength data : ℚ)| < 1 + (totalLength data : ℚ) / 2 ^ 51) := by
  obtain ⟨hN, hread⟩ := TargetCutoff_eq_some h
  obtain ⟨h0, h1, hget⟩ := readAt_eq_some hread
  obtain ⟨hfl, hfl2⟩ := countStop_bounds hp0 hp (totalLength data)
  have hperm := sortedPP_perm data
  have hsorted := sortedPP_sorted data
  have hlen := sortedPP_length data
  set c := countStop p (totalLength data) with hc
  have hget' : (sortedPP data)[c.toNat] = t := hget
  have hgt := sorted_countP_gt hsorted h1
  have hlt := sorted_countP_lt hsorted h1
  rw [hget'] at hgt hlt
  rw [hperm.countP_eq] at hgt hlt
  have hsum := countP_ge_add_lt (allScores data) t
  rw [← totalLength_eq] at hsum
  rw [hlen] at hgt
  have hcr : ((c.toNat : Nat) : ℚ) = (c : ℚ) := by
    have : ((c.toNat : Nat) : Int) = c := Int.toNat_of_nonneg h0
    exact_mod_cast this
  have hgtQ : (((allScores data).countP (fun x => decide (t < x)) : Nat) : ℚ)
      + ((c.toNat : Nat) : ℚ) + 1 ≤ (totalLength data : ℚ) := by exact_mod_cast hgt
  have hltQ : (((allScores data).countP (fun x => decide (x < t)) : Nat) : ℚ)
      ≤ ((c.toNat : Nat) : ℚ) := by exact_mod_cast hlt
  have hsumQ : (((allScores data).countP (fun x => decide (t ≤ x)) : Nat) : ℚ)
      + (((allScores data).countP (fun x => decide (x < t)) : Nat) : ℚ)
      = (totalLength data : ℚ) := by exact_mod_cast hsum
  rw [hcr] at hgtQ hltQ
  have hA : (((allScores data).countP (fun x => decide (t < x)) : Nat) : ℚ)
      < p * (totalLength data : ℚ) + (totalLength data : ℚ) / 2 ^ 51 := by linarith
  have hB : p * (totalLength data : ℚ) - (totalLength data : ℚ) / 2 ^ 51
      ≤ (((allScores data).countP (fun x => decide (t ≤ x)) : Nat) : ℚ) := by linarith
  refine ⟨hA, hB, ?_⟩
  intro hone
  have hsplit := countP_ge_eq_gt_add_count (allScores data) t
  rw [hone] at hsplit
  have hsplitQ : (((allScores data).countP (fun x => decide (t ≤ x)) : Nat) : ℚ)
      = (((allScores data).countP (fun x => decide (t < x)) : Nat) : ℚ) + 1 := by
    exact_mod_cast hsplit
  have hd : (0 : ℚ) ≤ (totalLength data : ℚ) / 2 ^ 51 := by positivity
  rw [abs_lt]
  constructor <;> linarith

theorem quantile_brackets_proportion_witness :
    (((allScores (gradedCorpus 5)).countP (fun x => decide ((2/100 : ℚ) < x)) : Nat) : ℚ)
        < 1/2 * (totalLength (gradedCorpus 5) : ℚ) + (totalLength (gradedCorpus 5) : ℚ) / 2 ^ 51 ∧
      1/2 * (totalLength (gradedCorpus 5) : ℚ) - (totalLength (gradedCorpus 5) : ℚ) / 2 ^ 51
        ≤ (((allScores (gradedCorpus 5)).countP (fun x => decide ((2/100 : ℚ) ≤ x)) : Nat) : ℚ) ∧
      ((allScores (gradedCorpus 5)).count (2/100) = 1 →
        |(((allScores (gradedCorpus 5)).countP (fun x => decide ((2/100 : ℚ) ≤ x)) : Nat) : ℚ)
            - 1/2 * (totalLength (gradedCorpus 5) : ℚ)|
          < 1 + (totalLength (gradedCorpus 5) : ℚ) / 2 ^ 51) :=
  quantile_brackets_proportion (gradedCorpus 5) (1/2) (2/100) (by norm_num) (by norm_num)
    (by rw [TargetCutoff_of_pos _ _ (by decide)]; decide!)

/-! ## Reading and writing positions -/

theorem length_updateAt (f : Residue → Residue) (s : CSequence) (k : Nat) :
    (updateAt f s k).length = s.length := by
  induction s generalizing k with
  | nil => rfl
  | cons r rs ih =>
    cases k with
    | zero => rfl
    | succ k => simp [updateAt, ih]

theorem getElem?_updateAt (f : Residue → Residue) (s : CSequence) (k j : Nat) :
    (updateAt f s k)[j]? = if j = k then (s[j]?).map f else s[j]? := by
  induction s generalizing k j with
  | nil => simp [updateAt]
  | cons r rs ih =>
    cases k with
    | zero =>
      cases j with
      | zero => simp [updateAt]
      | succ j => simp [updateAt]
    | succ k =>
      cases j with
      | zero => simp [updateAt]
      | succ j => simp [updateAt, ih]

theorem length_setRemove (s : CSequence) (k : Nat) : (setRemove s k).length = s.length :=
  length_updateAt _ s k

theorem length_setOutside (s : CSequence) (k : Nat) : (setOutside s k).length = s.length :=
  length_updateAt _ s k

theorem removedAt_of_le (s : CSequence) (j : Nat) (h : s.length ≤ j) : removedAt s j = false := by
  simp [removedAt, List.getElem?_eq_none h]

theorem inCoreAt_of_le (s : CSequence) (j : Nat) (h : s.length ≤ j) : inCoreAt s j = true := by
  simp [inCoreAt, List.getElem?_eq_none h]

theorem removedAt_setRemove (s : CSequence) (k j : Nat) :
    removedAt (setRemove s k) j = (removedAt s j || (decide (j = k) && decide (k < s.length))) := by
  unfold removedAt setRemove
  rw [getElem?_updateAt]
  by_cases hjk : j = k
  · subst hjk
    by_cases hlt : j < s.length
    · simp [List.getElem?_eq_getElem hlt, hlt]
    · simp [List.getElem?_eq_none (Nat.le_of_not_lt hlt), hlt]
  · simp [hjk]

theorem inCoreAt_setRemove (s : CSequence) (k j : Nat) :
    inCoreAt (setRemove s k) j = inCoreAt s j := by
  unfold inCoreAt setRemove
  rw [getElem?_updateAt]
  by_cases hjk : j = k
  · subst hjk
    cases s[j]? <;> simp
  · simp [hjk]

theorem scoreAt_setRemove (s : CSequence) (k j : Nat) :
    scoreAt (setRemove s k) j = scoreAt s j := by
  unfold scoreAt setRemove
  rw [getElem?_updateAt]
  by_cases hjk : j = k
  · subst hjk
    cases s[j]? <;> simp
  · simp [hjk]

theorem removedAt_setOutside (s : CSequence) (k j : Nat) :
    removedAt (setOutside s k) j = removedAt s j := by
  unfold removedAt setOutside
  rw [getElem?_updateAt]
  by_cases hjk : j = k
  · subst hjk
    cases s[j]? <;> simp
  · simp [hjk]

theorem inCoreAt_setOutside (s : CSequence) (k j : Nat) :
    inCoreAt (setOutside s k) j = (inCoreAt s j && !(decide (j = k) && decide (k < s.length))) := by
  unfold inCoreAt setOutside
  rw [getElem?_updateAt]
  by_cases hjk : j = k
  · subst hjk
    by_cases hlt : j < s.length
    · simp [List.getElem?_eq_getElem hlt, hlt]
    · simp [List.getElem?_eq_none (Nat.le_of_not_lt hlt), hlt]
  · simp [hjk]

theorem scoreAt_setOutside (s : CSequence) (k j : Nat) :
    scoreAt (setOutside s k) j = scoreAt s j := by
  unfold scoreAt setOutside
  rw [getElem?_updateAt]
  by_cases hjk : j = k
  · subst hjk
    cases s[j]? <;> simp
  · simp [hjk]

/-- Two sequences with the same length and the same three readings at every position are
equal. -/
theorem seq_ext (s s' : CSequence) (hlen : s'.length = s.length)
    (hP : ∀ j, j < s.length → scoreAt s' j = scoreAt s j)
    (hR : ∀ j, j < s.length → removedAt s' j = removedAt s j)
    (hI : ∀ j, j < s.length → inCoreAt s' j = inCoreAt s j) : s' = s := by
  apply List.ext_getElem hlen
  intro j h1 h2
  have p := hP j h2
  have r := hR j h2
  have c := hI j h2
  simp only [scoreAt, removedAt, inCoreAt, List.getElem?_eq_getElem h1,
    List.getElem?_eq_getElem h2] at p r c
  cases hx : s'[j] with
  | mk a b c' =>
    cases hy : s[j] with
    | mk a' b' c'' =>
      rw [hx, hy] at p r c
      simp only at p r c
      rw [p, r, c]

/-! ## The loop over the sequences -/

theorem overSeqs_fst (body : CSequence → Nat → CSequence × Nat) (f : CSequence → CSequence)
    (h : ∀ s c, (body s c).1 = f s) (data : List CSequence) (c : Nat) :
    (overSeqs body data c).1 = data.map f := by
  induction data generalizing c with
  | nil => rfl
  | cons s rest ih => simp [overSeqs, h, ih]

theorem overSeqs_snd (body : CSequence → Nat → CSequence × Nat) (g : CSequence → Nat)
    (h : ∀ s c, (body s c).2 = c + g s) (data : List CSequence) (c : Nat) :
    (overSeqs body data c).2 = c + (data.map g).sum := by
  induction data generalizing c with
  | nil => simp [overSeqs]
  | cons s rest ih => simp [overSeqs, h, ih]; omega

theorem getD_map_seq (f : CSequence → CSequence) (data : List CSequence) (i : Nat)
    (hi : i < data.length) : (data.map f).getD i [] = f (data.getD i []) := by
  simp [List.getD_eq_getElem?_getD, List.getElem?_eq_getElem hi]

/-! ## The threshold step -/

theorem foldl_range_induction {σ : Type} (step : σ → Nat → σ) (init : σ) (N : Nat)
    (Inv : Nat → σ → Prop) (h0 : Inv 0 init)
    (hstep : ∀ n st, n < N → Inv n st → Inv (n + 1) (step st n)) :
    ∀ n, n ≤ N → Inv n ((List.range n).foldl step init) := by
  intro n
  induction n with
  | zero => intro _; simpa using h0
  | succ n ih =>
    intro hn
    rw [List.range_succ, List.foldl_append]
    exact hstep n _ (by omega) (ih (by omega))

theorem thresholdInv_loop (t : ℚ) (s : CSequence) (c : Nat) :
    ∀ n, n ≤ s.length →
      ThresholdInv t s c n ((List.range n).foldl (thresholdStep t) (s, c)) := by
  apply foldl_range_induction
  · exact ⟨rfl, fun _ => rfl, fun _ => rfl, fun j => by simp, by simp⟩
  · intro n st hn inv
    have hsc : scoreAt st.1 n = scoreAt s n := inv.score n
    unfold thresholdStep
    rw [hsc]
    by_cases hlt : scoreAt s n < t
    · rw [if_pos hlt]
      refine ⟨?_, ?_, ?_, ?_, ?_⟩
      · simp [length_setRemove, inv.len]
      · intro j; simp [scoreAt_setRemove, inv.score]
      · intro j; simp [inCoreAt_setRemove, inv.core]
      · intro j
        simp only [removedAt_setRemove, inv.removed, inv.len]
        by_cases hj : j = n
        · subst hj; simp [hn, hlt]
        · have : (j < n + 1) = (j < n) := by
            apply propext; constructor <;> intro h <;> omega
          simp [hj, this]
      · simp [inv.count, List.range_succ, List.countP_append, hlt]
        omega
    · rw [if_neg hlt]
      refine ⟨inv.len, inv.score, inv.core, ?_, ?_⟩
      · intro j
        rw [inv.removed]
        by_cases hj : j = n
        · subst hj; simp [hlt]
        · have : (j < n + 1) = (j < n) := by
            apply propext; constructor <;> intro h <;> omega
          simp [this]
      · simp [inv.count, List.range_succ, List.countP_append, hlt]

theorem thresholdSeq_spec (t : ℚ) (s : CSequence) (c : Nat) :
    ThresholdInv t s c s.length (thresholdSeq t s c) :=
  thresholdInv_loop t s c s.length le_rfl

theorem thresholdSeq_fst (t : ℚ) (s : CSequence) (c : Nat) :
    (thresholdSeq t s c).1 = (thresholdSeq t s 0).1 := by
  have h1 := thresholdSeq_spec t s c
  have h2 := thresholdSeq_spec t s 0
  apply seq_ext
  · rw [h1.len, h2.len]
  · intro j _; rw [h1.score, h2.score]
  · intro j _; rw [h1.removed, h2.removed]
  · intro j _; rw [h1.core, h2.core]

theorem applyThreshold_fst (t : ℚ) (data : List CSequence) :
    (applyThreshold t data).1 = data.map (fun s => (thresholdSeq t s 0).1) :=
  overSeqs_fst _ _ (fun s c => thresholdSeq_fst t s c) data 0

/-- C3: for a corpus whose removed flags are all false, every threshold `t` and every
position `(i, j)`: after the threshold step `removed[i][j]` is true if and only if
`score[i][j] < t`; a score exactly equal to `t` is retained; `inCore[i][j]` is unchanged. -/
theorem applyThreshold_masks (data : List CSequence) (t : ℚ)
    (hclean : ∀ s ∈ data, ∀ r ∈ s, r.Remove = false) (i j : Nat) (hi : i < data.length)
    (hj : j < (data.getD i []).length) :
    (removedAt ((applyThreshold t data).1.getD i []) j = true ↔ scoreAt (data.getD i []) j < t) ∧
      (scoreAt (data.getD i []) j = t → removedAt ((applyThreshold t data).1.getD i []) j = false) ∧
      inCoreAt ((applyThreshold t data).1.getD i []) j = inCoreAt (data.getD i []) j := by
  rw [applyThreshold_fst, getD_map_seq _ _ _ hi]
  have hs := thresholdSeq_spec t (data.getD i []) 0
  have hmem : data.getD i [] ∈ data := by
    rw [List.getD_eq_getElem _ _ hi]; exact List.getElem_mem _
  have hcl : removedAt (data.getD i []) j = false := by
    unfold removedAt
    rw [List.getElem?_eq_getElem hj]
    exact hclean _ hmem _ (List.getElem_mem _)
  have hrem : removedAt (thresholdSeq t (data.getD i []) 0).1 j
      = decide (scoreAt (data.getD i []) j < t) := by
    rw [hs.removed, hcl, decide_eq_true hj]; simp
  refine ⟨?_, ?_, hs.core j⟩
  · rw [hrem]; simp
  · intro heq; rw [hrem, heq]; simp

theorem applyThreshold_masks_witness :
    (removedAt ((applyThreshold (1/2) [CSequence.ofScores [1/10, 1/2, 9/10]]).1.getD 0 []) 1 = true
        ↔ scoreAt ([CSequence.ofScores [1/10, 1/2, 9/10]].getD 0 []) 1 < 1/2) ∧
      (scoreAt ([CSequence.ofScores [1/10, 1/2, 9/10]].getD 0 []) 1 = 1/2 →
        removedAt ((applyThreshold (1/2) [CSequence.ofScores [1/10, 1/2, 9/10]]).1.getD 0 []) 1
          = false) ∧
      inCoreAt ((applyThreshold (1/2) [CSequence.ofScores [1/10, 1/2, 9/10]]).1.getD 0 []) 1
        = inCoreAt ([CSequence.ofScores [1/10, 1/2, 9/10]].getD 0 []) 1 :=
  applyThreshold_masks [CSequence.ofScores [1/10, 1/2, 9/10]] (1/2) (by decide!) 0 1
    (by decide) (by decide)

/-! ## Region extension -/

theorem foldl_setRemove_spec (l : List Nat) (s : CSequence) :
    (l.foldl setRemove s).length = s.length ∧
      (∀ k, scoreAt (l.foldl setRemove s) k = scoreAt s k) ∧
      (∀ k, inCoreAt (l.foldl setRemove s) k = inCoreAt s k) ∧
      (∀ k, removedAt (l.foldl setRemove s) k = true ↔
        removedAt s k = true ∨ (k ∈ l ∧ k < s.length)) := by
  induction l generalizing s with
  | nil => simp
  | cons a l ih =>
    obtain ⟨h1, h2, h3, h4⟩ := ih (setRemove s a)
    simp only [List.foldl_cons]
    refine ⟨by rw [h1, length_setRemove], ?_, ?_, ?_⟩
    · intro k; rw [h2, scoreAt_setRemove]
    · intro k; rw [h3, inCoreAt_setRemove]
    · intro k
      rw [h4, removedAt_setRemove, length_setRemove]
      simp only [Bool.or_eq_true, Bool.and_eq_true, decide_eq_true_eq, List.mem_cons]
      constructor
      · rintro ((h | ⟨h, h'⟩) | ⟨h, h'⟩)
        · exact Or.inl h
        · exact Or.inr ⟨Or.inl h, h ▸ h'⟩
        · exact Or.inr ⟨Or.inr h, h'⟩
      · rintro (h | ⟨h | h, h'⟩)
        · exact Or.inl (Or.inl h)
        · exact Or.inl (Or.inr ⟨h, h ▸ h'⟩)
        · exact Or.inr ⟨h, h'⟩

theorem markBack_spec (s : CSequence) (a j : Nat) :
    (markBack s a j).length = s.length ∧
      (∀ k, scoreAt (markBack s a j) k = scoreAt s k) ∧
      (∀ k, inCoreAt (markBack s a j) k = inCoreAt s k) ∧
      (∀ k, removedAt (markBack s a j) k = true ↔
        removedAt s k = true ∨ (a < k ∧ k ≤ j ∧ k < s.length)) := by
  obtain ⟨h1, h2, h3, h4⟩ := foldl_setRemove_spec ((List.range' (a + 1) (j - a)).reverse) s
  refine ⟨h1, h2, h3, ?_⟩
  intro k
  unfold markBack
  rw [h4, List.mem_reverse, List.mem_range'_1]
  constructor
  · rintro (h | ⟨h, h'⟩)
    · exact Or.inl h
    · exact Or.inr ⟨by omega, by omega, h'⟩
  · rintro (h | ⟨h, h', h''⟩)
    · exact Or.inl h
    · exact Or.inr ⟨by omega, h''⟩

theorem lastBefore_le (s : CSequence) (j : Nat) : lastBefore s j ≤ j := by
  induction j with
  | zero => simp [lastBefore]
  | succ j ih =>
    unfold lastBefore
    split <;> omega

theorem extInv_loop (G : Int) (s : CSequence) (c : Nat) :
    ∀ n, n ≤ s.length →
      ExtInv G s c n ((List.range n).foldl (extendStep G) ⟨s, 0, c⟩) := by
  apply foldl_range_induction
  · exact ⟨rfl, fun _ => rfl, fun _ => rfl, rfl, fun k => by simp, by simp⟩
  · intro n st hn inv
    have hread : removedAt st.seq n = removedAt s n := by
      rw [Bool.eq_iff_iff, inv.removed]
      constructor
      · rintro (h | ⟨b, hb, _, _, hk⟩)
        · exact h
        · omega
      · intro h; exact Or.inl h
    have hext : ∀ k, (removedAt s k = true ∨
          ∃ b, b < n + 1 ∧ mergeAt G s b = true ∧ lastBefore s b < k ∧ k ≤ b) ↔
        ((removedAt s k = true ∨
          ∃ b, b < n ∧ mergeAt G s b = true ∧ lastBefore s b < k ∧ k ≤ b) ∨
          (mergeAt G s n = true ∧ lastBefore s n < k ∧ k ≤ n)) := by
      intro k
      constructor
      · rintro (h | ⟨b, hb, h1, h2, h3⟩)
        · exact Or.inl (Or.inl h)
        · rcases Nat.lt_succ_iff_lt_or_eq.mp hb with hb' | hb'
          · exact Or.inl (Or.inr ⟨b, hb', h1, h2, h3⟩)
          · subst hb'; exact Or.inr ⟨h1, h2, h3⟩
      · rintro ((h | ⟨b, hb, h1, h2, h3⟩) | ⟨h1, h2, h3⟩)
        · exact Or.inl h
        · exact Or.inr ⟨b, by omega, h1, h2, h3⟩
        · exact Or.inr ⟨n, by omega, h1, h2, h3⟩
    unfold extendStep Filter
    rw [hread]
    by_cases hrem : removedAt s n = true
    · rw [if_pos hrem]
      have hlast : lastBefore s (n + 1) = n := by simp [lastBefore, hrem]
      by_cases hgap : (n : Int) - (st.lastFilter : Int) < G ∧ (n : Int) - (st.lastFilter : Int) > 1
      · rw [if_pos hgap]
        have hm : mergeAt G s n = true := by
          rw [inv.last] at hgap
          simp [mergeAt, hrem, hgap]
        obtain ⟨m1, m2, m3, m4⟩ := markBack_spec st.seq st.lastFilter n
        refine ⟨by rw [m1, inv.len], ?_, ?_, hlast.symm, ?_, ?_⟩
        · intro k; rw [m2, inv.score]
        · intro k; rw [m3, inv.core]
        · intro k
          rw [m4, inv.removed, hext, inv.last, inv.len]
          constructor
          · rintro (h | ⟨h1, h2, _⟩)
            · exact Or.inl h
            · exact Or.inr ⟨hm, h1, h2⟩
          · rintro (h | ⟨_, h1, h2⟩)
            · exact Or.inl h
            · exact Or.inr ⟨h1, h2, by omega⟩
        · simp [inv.count, List.range_succ, List.countP_append, hm]
          omega
      · rw [if_neg hgap]
        have hm : mergeAt G s n = false := by
          rw [inv.last] at hgap
          simp only [mergeAt, hrem, Bool.true_and, decide_eq_false_iff_not]
          exact hgap
        refine ⟨inv.len, inv.score, inv.core, hlast.symm, ?_, ?_⟩
        · intro k
          rw [inv.removed, hext, hm]
          simp
        · simp [inv.count, List.range_succ, List.countP_append, hm]
    · rw [if_neg hrem]
      have hm : mergeAt G s n = false := by simp [mergeAt, hrem]
      have hlast : lastBefore s (n + 1) = lastBefore s n := by simp [lastBefore, hrem]
      refine ⟨inv.len, inv.score, inv.core, by rw [hlast]; exact inv.last, ?_, ?_⟩
      · intro k
        rw [inv.removed, hext, hm]
        simp
      · simp [inv.count, List.range_succ, List.countP_append, hm]

theorem extendSeq_spec (G : Int) (s : CSequence) (c : Nat) :
    ExtInv G s c s.length ⟨(extendSeq G s c).1, lastBefore s s.length, (extendSeq G s c).2⟩ := by
  have h := extInv_loop G s c s.length le_rfl
  exact ⟨h.len, h.score, h.core, rfl, h.removed, h.count⟩

/-! ## Region extension in terms of the ranked removed positions -/

theorem rankIn_append_left (l : List Nat) (x : Nat) (i : Nat) (h : i ≤ l.length) :
    rankIn (l ++ [x]) i = rankIn l i := by
  cases i with
  | zero => rfl
  | succ i => exact List.getD_append l [x] 0 i h

theorem rankIn_append_last (l : List Nat) (x : Nat) :
    rankIn (l ++ [x]) (l.length + 1) = x := by
  show (l ++ [x]).getD l.length 0 = x
  rw [List.getD_append_right l [x] 0 l.length le_rfl, Nat.sub_self]
  rfl

theorem rank_link_aux (s : CSequence) (n : Nat) :
    (∀ i, 1 ≤ i → i ≤ ((List.range n).filter (removedAt s)).length →
        lastBefore s (rankIn ((List.range n).filter (removedAt s)) i)
          = rankIn ((List.range n).filter (removedAt s)) (i - 1)) ∧
      lastBefore s n = rankIn ((List.range n).filter (removedAt s))
        ((List.range n).filter (removedAt s)).length := by
  induction n with
  | zero =>
    refine ⟨?_, rfl⟩
    intro i h1 h2
    simp at h2
    omega
  | succ n ih =>
    obtain ⟨ih1, ih2⟩ := ih
    rw [List.range_succ, List.filter_append]
    by_cases hrem : removedAt s n = true
    · have hf : List.filter (removedAt s) [n] = [n] := by simp [hrem]
      rw [hf]
      have hlen : ((List.range n).filter (removedAt s) ++ [n]).length
          = ((List.range n).filter (removedAt s)).length + 1 := by simp
      constructor
      · intro i h1 h2
        rw [hlen] at h2
        rcases Nat.lt_succ_iff_lt_or_eq.mp (Nat.lt_succ_of_le h2) with h3 | h3
        · rw [rankIn_append_left _ _ _ (by omega), rankIn_append_left _ _ _ (by omega)]
          exact ih1 i h1 (by omega)
        · subst h3
          rw [rankIn_append_last, Nat.add_sub_cancel, rankIn_append_left _ _ _ le_rfl]
          exact ih2
      · rw [hlen, rankIn_append_last]
        simp [lastBefore, hrem]
    · have hf : List.filter (removedAt s) [n] = [] := by simp [hrem]
      rw [hf, List.append_nil]
      refine ⟨ih1, ?_⟩
      rw [← ih2]
      simp [lastBefore, hrem]

theorem rankPos_link (s : CSequence) (i : Nat) (h1 : 1 ≤ i)
    (h2 : i ≤ (removedPositions s).length) :
    lastBefore s (rankPos s i) = rankPos s (i - 1) :=
  (rank_link_aux s s.length).1 i h1 h2

theorem rankPos_mem (s : CSequence) (i : Nat) (h1 : 1 ≤ i)
    (h2 : i ≤ (removedPositions s).length) :
    rankPos s i < s.length ∧ removedAt s (rankPos s i) = true := by
  obtain ⟨j, rfl⟩ : ∃ j, i = j + 1 := ⟨i - 1, by omega⟩
  have hj : j < (removedPositions s).length := by omega
  have hmem : (removedPositions s).getD j 0 ∈ removedPositions s := by
    rw [List.getD_eq_getElem _ _ hj]; exact List.getElem_mem _
  unfold removedPositions at hmem
  rw [List.mem_filter, List.mem_range] at hmem
  exact hmem

theorem exists_rankPos (s : CSequence) (b : Nat) (hb : b < s.length)
    (hrem : removedAt s b = true) :
    ∃ i, 1 ≤ i ∧ i ≤ (removedPositions s).length ∧ rankPos s i = b := by
  have hmem : b ∈ removedPositions s := by
    unfold removedPositions
    rw [List.mem_filter, List.mem_range]
    exact ⟨hb, hrem⟩
  obtain ⟨j, hj, hget⟩ := List.mem_iff_getElem.mp hmem
  refine ⟨j + 1, by omega, by omega, ?_⟩
  show (removedPositions s).getD j 0 = b
  rw [List.getD_eq_getElem _ _ hj]; exact hget

theorem mem_mergeRanks (G : Int) (s : CSequence) (i : Nat) :
    i ∈ mergeRanks G s ↔
      1 ≤ i ∧ i ≤ (removedPositions s).length ∧ 1 < gapAt s i ∧ gapAt s i < G := by
  unfold mergeRanks
  rw [List.mem_filter, List.mem_range'_1, decide_eq_true_eq]
  constructor
  · rintro ⟨⟨h1, h2⟩, h3, h4⟩; exact ⟨h1, by omega, h3, h4⟩
  · rintro ⟨h1, h2, h3, h4⟩; exact ⟨⟨h1, by omega⟩, h3, h4⟩

theorem gapAt_eq (s : CSequence) (i : Nat) (h1 : 1 ≤ i) (h2 : i ≤ (removedPositions s).length) :
    gapAt s i = (rankPos s i : Int) - (lastBefore s (rankPos s i) : Int) := by
  unfold gapAt
  rw [rankPos_link s i h1 h2]

theorem merge_exists_iff (G : Int) (s : CSequence) (k : Nat) :
    (∃ b, b < s.length ∧ mergeAt G s b = true ∧ lastBefore s b < k ∧ k ≤ b) ↔
      ∃ i ∈ mergeRanks G s, rankPos s (i - 1) < k ∧ k ≤ rankPos s i := by
  constructor
  · rintro ⟨b, hb, hm, h1, h2⟩
    simp only [mergeAt, Bool.and_eq_true, decide_eq_true_eq] at hm
    obtain ⟨hrem, hg1, hg2⟩ := hm
    obtain ⟨i, hi1, hi2, rfl⟩ := exists_rankPos s b hb hrem
    refine ⟨i, ?_, ?_, h2⟩
    · rw [mem_mergeRanks, gapAt_eq s i hi1 hi2]
      exact ⟨hi1, hi2, by omega, hg1⟩
    · rw [← rankPos_link s i hi1 hi2]; exact h1
  · rintro ⟨i, hi, h1, h2⟩
    rw [mem_mergeRanks] at hi
    obtain ⟨hi1, hi2, hg1, hg2⟩ := hi
    rw [gapAt_eq s i hi1 hi2] at hg1 hg2
    obtain ⟨hlt, hrem⟩ := rankPos_mem s i hi1 hi2
    refine ⟨rankPos s i, hlt, ?_, ?_, h2⟩
    · simp only [mergeAt, Bool.and_eq_true, decide_eq_true_eq]
      exact ⟨hrem, hg2, by omega⟩
    · rw [rankPos_link s i hi1 hi2]; exact h1

theorem removedPositions_eq_map (s : CSequence) :
    removedPositions s = (List.range' 1 (removedPositions s).length).map (rankPos s) := by
  apply List.ext_getElem
  · simp
  · intro j h1 h2
    rw [List.getElem_map, List.getElem_range'_1, Nat.add_comm 1 j]
    show _ = (removedPositions s).getD j 0
    rw [List.getD_eq_getElem _ _ h1]

theorem merge_count_eq (G : Int) (s : CSequence) :
    (List.range s.length).countP (mergeAt G s) = (mergeRanks G s).length := by
  have h1 : (List.range s.length).countP (mergeAt G s)
      = (removedPositions s).countP (fun (b : Nat) => decide ((b : Int) - (lastBefore s b : Int) < G ∧
          (b : Int) - (lastBefore s b : Int) > 1)) := by
    unfold removedPositions
    rw [List.countP_filter]
    apply List.countP_congr
    intro b _
    simp only [mergeAt, Bool.and_eq_true, decide_eq_true_eq]
    constructor
    · rintro ⟨h, h'⟩; exact ⟨h', h⟩
    · rintro ⟨h, h'⟩; exact ⟨h', h⟩
  rw [h1]
  conv_lhs => rw [removedPositions_eq_map s]
  rw [List.countP_map]
  unfold mergeRanks
  rw [← List.countP_eq_length_filter]
  apply List.countP_congr
  intro i hi
  rw [List.mem_range'_1] at hi
  simp only [Function.comp, decide_eq_true_eq]
  rw [gapAt_eq s i hi.1 (by omega)]
  constructor
  · rintro ⟨h, h'⟩; exact ⟨by omega, h⟩
  · rintro ⟨h, h'⟩; exact ⟨h', by omega⟩

theorem getD_map_nil (f : CSequence → CSequence) (hf : f [] = []) (data : List CSequence)
    (i : Nat) : (data.map f).getD i [] = f (data.getD i []) := by
  have h := List.getD_map (l := data) (d := ([] : CSequence)) (n := i) f
  rw [hf] at h
  exact h

theorem extendSeq_fst (G : Int) (s : CSequence) (c : Nat) :
    (extendSeq G s c).1 = (extendSeq G s 0).1 := by
  have h1 := extendSeq_spec G s c
  have h2 := extendSeq_spec G s 0
  apply seq_ext
  · rw [h1.len, h2.len]
  · intro j _; rw [h1.score, h2.score]
  · intro j _; rw [Bool.eq_iff_iff, h1.removed, h2.removed]
  · intro j _; rw [h1.core, h2.core]

theorem extendSeq_snd (G : Int) (s : CSequence) (c : Nat) :
    (extendSeq G s c).2 = c + (mergeRanks G s).length := by
  rw [← merge_count_eq]
  exact (extendSeq_spec G s c).count

theorem extendRegions_fst (G : Int) (data : List CSequence) :
    (extendRegions G data).1 = data.map (fun s => (extendSeq G s 0).1) :=
  overSeqs_fst _ _ (fun s c => extendSeq_fst G s c) data 0

theorem extendRegions_snd (G : Int) (data : List CSequence) :
    (extendRegions G data).2 = (data.map (fun s => (mergeRanks G s).length)).sum := by
  have := overSeqs_snd (extendSeq G) (fun s => (mergeRanks G s).length)
    (fun s c => extendSeq_snd G s c) data 0
  simpa [extendRegions] using this

theorem extendSeq_removed (G : Int) (s : CSequence) (k : Nat) :
    removedAt (extendSeq G s 0).1 k = true ↔
      removedAt s k = true ∨
        ∃ n ∈ mergeRanks G s, rankPos s (n - 1) < k ∧ k ≤ rankPos s n := by
  rw [(extendSeq_spec G s 0).removed, merge_exists_iff]

/-- C4: region extension, reference definition. Let `r_1 < ... < r_n` be the positions
removed in sequence `i` before the call and `r_0 = 0`. After `extendRegions` position `k`
is removed if and only if it was removed before or there is a rank `n ≥ 1` with
`r_(n-1) < k ≤ r_n` and `1 < r_n - r_(n-1) < G`; the returned count is the number of such
ranks, summed over the sequences (a gap of exactly 1 or a gap `≥ G` merges nothing). The
mask `[T,F,F,T,T,F,F,F,T,F,F,F]` with `G = 3` is returned unchanged with count 0. -/
theorem extendRegions_reference (data : List CSequence) (G : Int) :
    (∀ i k, removedAt ((extendRegions G data).1.getD i []) k = true ↔
        removedAt (data.getD i []) k = true ∨
          ∃ n ∈ mergeRanks G (data.getD i []),
            rankPos (data.getD i []) (n - 1) < k ∧ k ≤ rankPos (data.getD i []) n) ∧
      (extendRegions G data).2 = (data.map (fun s => (mergeRanks G s).length)).sum ∧
      extendRegions 3 [CSequence.ofMask
          [true, false, false, true, true, false, false, false, true, false, false, false]]
        = ([CSequence.ofMask
          [true, false, false, true, true, false, false, false, true, false, false, false]], 0) := by
  refine ⟨?_, extendRegions_snd G data, by decide⟩
  intro i k
  rw [extendRegions_fst, getD_map_nil _ rfl]
  exact extendSeq_removed G _ k

/-! ## Edge trimming: the window scan and the core scan -/

theorem windowStep_spec (st : TrimState) (j : Nat) :
    (windowStep st j).seq.length = st.seq.length ∧
      (∀ k, scoreAt (windowStep st j).seq k = scoreAt st.seq k) ∧
      ((windowStep st j).DoOutside = (st.DoOutside || removedAt st.seq j)) ∧
      (∀ k, removedAt (windowStep st j).seq k = true ↔ removedAt st.seq k = true ∨
        (k = j ∧ j < st.seq.length ∧ (st.DoOutside = true ∨ removedAt st.seq j = true))) ∧
      (∀ k, inCoreAt (windowStep st j).seq k = true ↔ inCoreAt st.seq k = true ∧
        ¬ (k = j ∧ j < st.seq.length ∧ (st.DoOutside = true ∨ removedAt st.seq j = true))) ∧
      (windowStep st j).seqTrimmed =
        (if (!st.DoOutside && removedAt st.seq j) = true then st.seqTrimmed + 1
          else st.seqTrimmed) := by
  obtain ⟨s, d, c⟩ := st
  have aux : ∀ k, (¬k = j ∨ s.length ≤ j ↔ k = j → s.length ≤ j) := by
    intro k; constructor
    · rintro (h | h) h'
      · exact absurd h' h
      · exact h
    · intro h
      by_cases hk : k = j
      · exact Or.inr (h hk)
      · exact Or.inl hk
  cases hrem : removedAt s j <;> cases d <;>
    simp [windowStep, Filter, hrem, length_setRemove, length_setOutside, scoreAt_setRemove,
      scoreAt_setOutside, removedAt_setRemove, removedAt_setOutside, inCoreAt_setRemove,
      inCoreAt_setOutside, aux]


theorem windowFold_spec (R : Nat → Nat → Prop) (hasym : ∀ x y, R x y → ¬ R y x)
    (js : List Nat) (hpw : js.Pairwise R) (s : CSequence) (d : Bool) (c : Nat) :
    (js.foldl windowStep ⟨s, d, c⟩).seq.length = s.length ∧
      (∀ k, scoreAt (js.foldl windowStep ⟨s, d, c⟩).seq k = scoreAt s k) ∧
      ((js.foldl windowStep ⟨s, d, c⟩).DoOutside = (d || js.any (removedAt s))) ∧
      (∀ k, removedAt (js.foldl windowStep ⟨s, d, c⟩).seq k = true ↔
        removedAt s k = true ∨ Marked R js s d k) ∧
      (∀ k, inCoreAt (js.foldl windowStep ⟨s, d, c⟩).seq k = true ↔
        inCoreAt s k = true ∧ ¬ Marked R js s d k) ∧
      (js.foldl windowStep ⟨s, d, c⟩).seqTrimmed =
        (if (!d && js.any (removedAt s)) = true then c + 1 else c) := by
  induction js generalizing s d c with
  | nil => simp [Marked]
  | cons a rest ih =>
    rw [List.pairwise_cons] at hpw
    obtain ⟨hR, hpw'⟩ := hpw
    obtain ⟨w1, w2, w3, w4, w5, w6⟩ := windowStep_spec ⟨s, d, c⟩ a
    simp only at w1 w2 w3 w4 w5 w6
    have hne : ∀ j ∈ rest, j ≠ a := by
      intro j hj hja
      subst hja
      exact hasym _ _ (hR j hj) (hR j hj)
    have hremrest : ∀ j ∈ rest,
        removedAt (windowStep ⟨s, d, c⟩ a).seq j = removedAt s j := by
      intro j hj
      rw [Bool.eq_iff_iff, w4]
      constructor
      · rintro (h | ⟨h, _⟩)
        · exact h
        · exact absurd h (hne j hj)
      · intro h; exact Or.inl h
    have hany : rest.any (removedAt (windowStep ⟨s, d, c⟩ a).seq) = rest.any (removedAt s) := by
      rw [Bool.eq_iff_iff, List.any_eq_true, List.any_eq_true]
      constructor
      · rintro ⟨j, hj, h⟩; exact ⟨j, hj, by rw [← hremrest j hj]; exact h⟩
      · rintro ⟨j, hj, h⟩; exact ⟨j, hj, by rw [hremrest j hj]; exact h⟩
    have hmark : ∀ k, (Marked R rest (windowStep ⟨s, d, c⟩ a).seq
          (windowStep ⟨s, d, c⟩ a).DoOutside k ∨
          (k = a ∧ a < s.length ∧ (d = true ∨ removedAt s a = true))) ↔
        Marked R (a :: rest) s d k := by
      intro k
      unfold Marked
      rw [w1, w3]
      constructor
      · rintro (⟨h1, h2, h3⟩ | ⟨h1, h2, h3⟩)
        · refine ⟨List.mem_cons_of_mem _ h1, h2, ?_⟩
          rcases h3 with h3 | ⟨j, hj, hjk, hrem⟩
          · rw [Bool.or_eq_true] at h3
            rcases h3 with h3 | h3
            · exact Or.inl h3
            · exact Or.inr ⟨a, List.mem_cons_self _ _, Or.inr (hR k h1), h3⟩
          · exact Or.inr ⟨j, List.mem_cons_of_mem _ hj, hjk, by rw [← hremrest j hj]; exact hrem⟩
        · subst h1
          refine ⟨List.mem_cons_self _ _, h2, ?_⟩
          rcases h3 with h3 | h3
          · exact Or.inl h3
          · exact Or.inr ⟨k, List.mem_cons_self _ _, Or.inl rfl, h3⟩
      · rintro ⟨h1, h2, h3⟩
        rcases List.mem_cons.mp h1 with h1 | h1
        · subst h1
          refine Or.inr ⟨rfl, h2, ?_⟩
          rcases h3 with h3 | ⟨j, hj, hjk, hrem⟩
          · exact Or.inl h3
          · rcases List.mem_cons.mp hj with hj | hj
            · subst hj; exact Or.inr hrem
            · rcases hjk with hjk | hjk
              · exact absurd hjk (hne j hj)
              · exact absurd hjk (hasym _ _ (hR j hj))
        · refine Or.inl ⟨h1, h2, ?_⟩
          rcases h3 with h3 | ⟨j, hj, hjk, hrem⟩
          · exact Or.inl (by rw [Bool.or_eq_true]; exact Or.inl h3)
          · rcases List.mem_cons.mp hj with hj | hj
            · subst hj; exact Or.inl (by rw [Bool.or_eq_true]; exact Or.inr hrem)
            · exact Or.inr ⟨j, hj, hjk, by rw [hremrest j hj]; exact hrem⟩
    obtain ⟨i1, i2, i3, i4, i5, i6⟩ := ih hpw' (windowStep ⟨s, d, c⟩ a).seq
      (windowStep ⟨s, d, c⟩ a).DoOutside (windowStep ⟨s, d, c⟩ a).seqTrimmed
    simp only [List.foldl_cons]
    refine ⟨by rw [i1, w1], ?_, ?_, ?_, ?_, ?_⟩
    · intro k; rw [i2, w2]
    · rw [i3, hany, w3, List.any_cons, Bool.or_assoc]
    · intro k
      rw [i4, w4, ← hmark]
      constructor
      · rintro ((h | h) | h)
        · exact Or.inl h
        · exact Or.inr (Or.inr h)
        · exact Or.inr (Or.inl h)
      · rintro (h | h | h)
        · exact Or.inl (Or.inl h)
        · exact Or.inr h
        · exact Or.inl (Or.inr h)
    · intro k
      rw [i5, w5, ← hmark]
      constructor
      · rintro ⟨⟨h1, h2⟩, h3⟩
        exact ⟨h1, fun h => h.elim h3 h2⟩
      · rintro ⟨h1, h2⟩
        exact ⟨⟨h1, fun h => h2 (Or.inr h)⟩, fun h => h2 (Or.inl h)⟩
    · rw [i6, hany, w3, w6, List.any_cons]
      cases d <;> cases removedAt s a <;> cases rest.any (removedAt s) <;> simp

theorem coreScan_spec (R : Nat → Nat → Prop) (hasym : ∀ x y, R x y → ¬ R y x)
    (js : List Nat) (hpw : js.Pairwise R) (s : CSequence) :
    (coreScan js s).length = s.length ∧
      (∀ k, scoreAt (coreScan js s) k = scoreAt s k) ∧
      (∀ k, removedAt (coreScan js s) k = removedAt s k) ∧
      (∀ k, inCoreAt (coreScan js s) k = true ↔ inCoreAt s k = true ∧ ¬ RunTo R js s k) := by
  induction js generalizing s with
  | nil => simp [coreScan, RunTo]
  | cons a rest ih =>
    rw [List.pairwise_cons] at hpw
    obtain ⟨hR, hpw'⟩ := hpw
    have hne : ∀ j ∈ rest, j ≠ a := by
      intro j hj hja
      subst hja
      exact hasym _ _ (hR j hj) (hR j hj)
    unfold coreScan Filter
    by_cases hrem : removedAt s a = true
    · simp only [hrem, Bool.not_true, Bool.false_eq_true, if_false]
      obtain ⟨i1, i2, i3, i4⟩ := ih hpw' (setOutside s a)
      refine ⟨by rw [i1, length_setOutside], ?_, ?_, ?_⟩
      · intro k; rw [i2, scoreAt_setOutside]
      · intro k; rw [i3, removedAt_setOutside]
      · intro k
        rw [i4, inCoreAt_setOutside]
        unfold RunTo
        simp only [removedAt_setOutside, length_setOutside, Bool.and_eq_true,
          Bool.not_eq_true', Bool.and_eq_false_iff, decide_eq_false_iff_not, decide_eq_true_eq]
        constructor
        · rintro ⟨⟨h1, h2⟩, h3⟩
          refine ⟨h1, ?_⟩
          rintro ⟨m1, m2, m3⟩
          rcases List.mem_cons.mp m1 with m1 | m1
          · subst m1
            rcases h2 with h2 | h2
            · exact h2 rfl
            · exact h2 m2
          · exact h3 ⟨m1, m2, fun j hj hjk => m3 j (List.mem_cons_of_mem _ hj) hjk⟩
        · rintro ⟨h1, h2⟩
          refine ⟨⟨h1, ?_⟩, ?_⟩
          · by_cases hk : k = a
            · subst hk
              right
              intro hlt
              apply h2
              refine ⟨List.mem_cons_self _ _, hlt, ?_⟩
              intro j hj hjk
              rcases List.mem_cons.mp hj with hj | hj
              · subst hj; exact hrem
              · rcases hjk with hjk | hjk
                · exact absurd hjk (hne j hj)
                · exact absurd hjk (hasym _ _ (hR j hj))
            · exact Or.inl hk
          · rintro ⟨m1, m2, m3⟩
            apply h2
            refine ⟨List.mem_cons_of_mem _ m1, m2, ?_⟩
            intro j hj hjk
            rcases List.mem_cons.mp hj with hj | hj
            · subst hj; exact hrem
            · exact m3 j hj hjk
    · have hrem' : removedAt s a = false := by simpa using hrem
      simp only [hrem', Bool.not_false, if_true]
      refine ⟨trivial, fun _ => trivial, fun _ => trivial, ?_⟩
      intro k
      constructor
      · intro h
        refine ⟨h, ?_⟩
        rintro ⟨m1, m2, m3⟩
        have : removedAt s a = true := by
          apply m3 a (List.mem_cons_self _ _)
          rcases List.mem_cons.mp m1 with m1 | m1
          · exact Or.inl m1.symm
          · exact Or.inr (hR k m1)
        rw [hrem'] at this
        cases this
      · intro h; exact h.1

/-! ## Edge trimming of one sequence in closed form -/

theorem mem_frontWindow (L : Nat) (R : Int) (k : Nat) :
    k ∈ frontWindow L R ↔ 1 ≤ k ∧ k < L ∧ (k : Int) < R := by
  unfold frontWindow my_min
  rw [List.mem_reverse, List.mem_range'_1]
  split <;> constructor <;> intro h <;> omega

theorem mem_backWindow (L : Nat) (R : Int) (k : Nat) :
    k ∈ backWindow L R ↔ (L : Int) - R ≤ (k : Int) ∧ k < L := by
  unfold backWindow my_max
  rw [List.mem_range'_1]
  split <;> constructor <;> intro h <;> omega

theorem frontWindow_pairwise (L : Nat) (R : Int) : (frontWindow L R).Pairwise (· > ·) := by
  unfold frontWindow
  rw [List.pairwise_reverse]
  exact List.pairwise_lt_range' _ _

theorem backWindow_pairwise (L : Nat) (R : Int) : (backWindow L R).Pairwise (· < ·) :=
  List.pairwise_lt_range' _ _

theorem range_reverse_pairwise (L : Nat) : ((List.range L).reverse).Pairwise (· > ·) := by
  rw [List.pairwise_reverse]
  exact List.pairwise_lt_range L

theorem gt_asymm (x y : Nat) : x > y → ¬ y > x := by omega

theorem lt_asymm_nat (x y : Nat) : x < y → ¬ y < x := by omega

theorem trimSeq_spec (R : Int) (s : CSequence) (c : Nat) : TrimSpec R s (trimSeq R s c).1 := by
  -- front window scan
  obtain ⟨f1, f2, _, f4, f5, _⟩ := windowFold_spec (· > ·) gt_asymm (frontWindow s.length R)
    (frontWindow_pairwise _ _) s false c
  have hF : ∀ k, Marked (· > ·) (frontWindow s.length R) s false k ↔ frontHit R s k := by
    intro k
    unfold Marked frontHit
    simp only [mem_frontWindow, Bool.false_eq_true, false_or]
    constructor
    · rintro ⟨⟨h1, h2, h3⟩, _, j, ⟨j1, j2, j3⟩, hjk, hrem⟩
      exact ⟨h1, j, by omega, j2, j3, hrem⟩
    · rintro ⟨h1, q, q1, q2, q3, hrem⟩
      exact ⟨⟨h1, by omega, by omega⟩, by omega, q, ⟨by omega, q2, q3⟩, by omega, hrem⟩
  have f4' : ∀ k, removedAt ((frontWindow s.length R).foldl windowStep ⟨s, false, c⟩).seq k = true
      ↔ midRemoved R s k := by
    intro k; rw [f4, hF]; rfl
  -- forward core scan
  obtain ⟨g1, g2, g3, g4⟩ := coreScan_spec (· < ·) lt_asymm_nat (List.range s.length)
    (List.pairwise_lt_range _) ((frontWindow s.length R).foldl windowStep ⟨s, false, c⟩).seq
  have hP : ∀ k, RunTo (· < ·) (List.range s.length)
      ((frontWindow s.length R).foldl windowStep ⟨s, false, c⟩).seq k ↔ frontRun R s k := by
    intro k
    unfold RunTo frontRun
    rw [f1, List.mem_range]
    constructor
    · rintro ⟨h1, _, h3⟩
      refine ⟨h1, fun j hj => ?_⟩
      rw [← f4']
      exact h3 j (List.mem_range.mpr (by omega)) (by omega)
    · rintro ⟨h1, h2⟩
      refine ⟨h1, h1, fun j _ hjk => ?_⟩
      rw [f4']
      exact h2 j (by omega)
  -- back window scan
  obtain ⟨b1, b2, _, b4, b5, _⟩ := windowFold_spec (· < ·) lt_asymm_nat (backWindow s.length R)
    (backWindow_pairwise _ _)
    (coreScan (List.range s.length)
      ((frontWindow s.length R).foldl windowStep ⟨s, false, c⟩).seq) false
    ((frontWindow s.length R).foldl windowStep ⟨s, false, c⟩).seqTrimmed
  have hB : ∀ k, Marked (· < ·) (backWindow s.length R)
      (coreScan (List.range s.length)
        ((frontWindow s.length R).foldl windowStep ⟨s, false, c⟩).seq) false k ↔
      backHit R s k := by
    intro k
    unfold Marked backHit
    simp only [mem_backWindow, Bool.false_eq_true, false_or, g1, f1, g3]
    constructor
    · rintro ⟨⟨h1, h2⟩, _, j, ⟨j1, j2⟩, hjk, hrem⟩
      exact ⟨h2, j, j1, by omega, (f4' j).mp hrem⟩
    · rintro ⟨h1, q, q1, q2, hrem⟩
      exact ⟨⟨by omega, h1⟩, h1, q, ⟨q1, by omega⟩, by omega, (f4' q).mpr hrem⟩
  have b4' : ∀ k, removedAt ((backWindow s.length R).foldl windowStep
      ⟨coreScan (List.range s.length)
        ((frontWindow s.length R).foldl windowStep ⟨s, false, c⟩).seq, false,
        ((frontWindow s.length R).foldl windowStep ⟨s, false, c⟩).seqTrimmed⟩).seq k = true
      ↔ trimRemoved R s k := by
    intro k; rw [b4, hB, g3, f4']; rfl
  -- backward core scan
  obtain ⟨e1, e2, e3, e4⟩ := coreScan_spec (· > ·) gt_asymm (List.range s.length).reverse
    (range_reverse_pairwise _) ((backWindow s.length R).foldl windowStep
      ⟨coreScan (List.range s.length)
        ((frontWindow s.length R).foldl windowStep ⟨s, false, c⟩).seq, false,
        ((frontWindow s.length R).foldl windowStep ⟨s, false, c⟩).seqTrimmed⟩).seq
  have hS : ∀ k, RunTo (· > ·) (List.range s.length).reverse
      ((backWindow s.length R).foldl windowStep
        ⟨coreScan (List.range s.length)
          ((frontWindow s.length R).foldl windowStep ⟨s, false, c⟩).seq, false,
          ((frontWindow s.length R).foldl windowStep ⟨s, false, c⟩).seqTrimmed⟩).seq k ↔
      backRun R s k := by
    intro k
    unfold RunTo backRun
    rw [b1, g1, f1, List.mem_reverse, List.mem_range]
    constructor
    · rintro ⟨h1, _, h3⟩
      refine ⟨h1, fun j hj hj' => ?_⟩
      rw [← b4']
      exact h3 j (by rw [List.mem_reverse, List.mem_range]; exact hj') (by omega)
    · rintro ⟨h1, h2⟩
      refine ⟨h1, h1, fun j hj hjk => ?_⟩
      rw [List.mem_reverse, List.mem_range] at hj
      rw [b4']
      exact h2 j (by omega) hj
  unfold trimSeq
  refine ⟨by rw [e1, b1, g1, f1], ?_, ?_, ?_⟩
  · intro k; rw [e2, b2, g2, f2]
  · intro k; rw [e3, b4']
  · intro k
    rw [e4, hS, b5, hB, g4, hP, f5, hF]
    constructor
    · rintro ⟨⟨⟨⟨h1, h2⟩, h3⟩, h4⟩, h5⟩; exact ⟨h1, h2, h3, h4, h5⟩
    · rintro ⟨h1, h2, h3, h4, h5⟩; exact ⟨⟨⟨⟨h1, h2⟩, h3⟩, h4⟩, h5⟩

theorem trimSeq_fst (R : Int) (s : CSequence) (c : Nat) :
    (trimSeq R s c).1 = (trimSeq R s 0).1 := by
  have h1 := trimSeq_spec R s c
  have h2 := trimSeq_spec R s 0
  apply seq_ext
  · rw [h1.len, h2.len]
  · intro j _; rw [h1.score, h2.score]
  · intro j _; rw [Bool.eq_iff_iff, h1.removed, h2.removed]
  · intro j _; rw [Bool.eq_iff_iff, h1.core, h2.core]

theorem trimEdges_fst (R : Int) (data : List CSequence) :
    (trimEdges R data).1 = data.map (fun s => (trimSeq R s 0).1) :=
  overSeqs_fst _ _ (fun s c => trimSeq_fst R s c) data 0

theorem getD_nil_of_le (data : List CSequence) (i : Nat) (h : data.length ≤ i) :
    data.getD i [] = [] :=
  List.getD_eq_default _ _ h

theorem lt_of_pos_in_getD (data : List CSequence) (i k : Nat)
    (hk : k < (data.getD i []).length) : i < data.length := by
  by_contra h
  rw [getD_nil_of_le data i (by omega)] at hk
  simp at hk

/-- C5: evaluation at the failing input. A sequence of length 7 in which only position 2
is removed, `runLength = 3`: position 2 lies in the front window (`2 < min(7, 3)`); after
`trimEdges` positions 1 and 2 are removed and outside the core, but position 0 is still
kept and inside the core (the front scan runs while `j > 0`). -/
theorem trimEdges_front_keeps_position_zero :
    removedAt (CSequence.ofMask [false, false, true, false, false, false, false]) 2 = true ∧
      ((2 : Nat) : Int) < min ((7 : Nat) : Int) 3 ∧
      removeMask ((trimEdges 3
          [CSequence.ofMask [false, false, true, false, false, false, false]]).1.getD 0 [])
        = [false, true, true, false, false, false, false] ∧
      insideMask ((trimEdges 3
          [CSequence.ofMask [false, false, true, false, false, false, false]]).1.getD 0 [])
        = [true, false, false, true, true, true, true] := by
  decide

/-- C6: back edge trimming. For a sequence of length `L`, if a position `q` with
`q ≥ max(0, L - R)` is removed when `trimEdges` is called, then after `trimEdges` every
position `k` with `q ≤ k ≤ L - 1` has `removed = true` and `inCore = false`. -/
theorem trimEdges_back (data : List CSequence) (R : Int) (i q k : Nat)
    (hq : max 0 (((data.getD i []).length : Int) - R) ≤ (q : Int))
    (hrem : removedAt (data.getD i []) q = true)
    (hqk : q ≤ k) (hk : k < (data.getD i []).length) :
    removedAt ((trimEdges R data).1.getD i []) k = true ∧
      inCoreAt ((trimEdges R data).1.getD i []) k = false := by
  have hi := lt_of_pos_in_getD data i k hk
  rw [trimEdges_fst, getD_map_seq _ _ _ hi]
  have sp := trimSeq_spec R (data.getD i []) 0
  have hB : backHit R (data.getD i []) k :=
    ⟨hk, q, le_trans (le_max_right _ _) hq, hqk, Or.inl hrem⟩
  refine ⟨(sp.removed k).mpr (Or.inr hB), ?_⟩
  rw [← Bool.not_eq_true, sp.core]
  intro h
  exact h.2.2.2.1 hB

theorem trimEdges_back_witness :
    removedAt ((trimEdges 3 [CSequence.ofMask [false, false, false, false, true, false]]).1.getD
        0 []) 5 = true ∧
      inCoreAt ((trimEdges 3 [CSequence.ofMask [false, false, false, false, true, false]]).1.getD
        0 []) 5 = false :=
  trimEdges_back [CSequence.ofMask [false, false, false, false, true, false]] 3 0 4 5
    (by decide) (by decide) (by decide) (by decide)

/-! ## Running the stages a second time -/

theorem lastBefore_removed_or_zero (s : CSequence) (b : Nat) :
    removedAt s (lastBefore s b) = true ∨ lastBefore s b = 0 := by
  induction b with
  | zero => exact Or.inr rfl
  | succ b ih =>
    unfold lastBefore
    split
    · rename_i h; exact Or.inl h
    · exact ih

theorem lastBefore_none_between (s : CSequence) (b c : Nat) (h1 : lastBefore s b < c)
    (h2 : c < b) : removedAt s c = false := by
  induction b with
  | zero => omega
  | succ b ih =>
    unfold lastBefore at h1
    split at h1
    · omega
    · rename_i h
      rcases Nat.lt_succ_iff_lt_or_eq.mp h2 with h3 | h3
      · exact ih h1 h3
      · subst h3; simpa using h

theorem lastBefore_lt (s : CSequence) (b : Nat) (hb : 0 < b) : lastBefore s b < b := by
  cases b with
  | zero => omega
  | succ b =>
    unfold lastBefore
    split
    · omega
    · have := lastBefore_le s b; omega

theorem lastBefore_ge (s : CSequence) (b b' : Nat) (hrem : removedAt s b = true) (h : b < b') :
    b ≤ lastBefore s b' := by
  by_contra hlt
  have := lastBefore_none_between s b' b (by omega) h
  rw [hrem] at this
  cases this

theorem mergeAt_false_of_closed (G : Int) (s : CSequence) (h : Closed G s) (b : Nat)
    (hb : b < s.length) : mergeAt G s b = false := by
  by_contra hm
  have hm' : mergeAt G s b = true := by simpa using hm
  simp only [mergeAt, Bool.and_eq_true, decide_eq_true_eq] at hm'
  obtain ⟨hrem, hg1, hg2⟩ := hm'
  have hlt : lastBefore s b < b := by omega
  exact h (lastBefore s b) b hlt hb hrem (lastBefore_removed_or_zero s b)
    (fun c h1 h2 => lastBefore_none_between s b c h1 h2) ⟨hg2, hg1⟩

theorem ext_of_closed (G : Int) (s : CSequence) (c : Nat) (h : Closed G s) :
    (extendSeq G s c).1 = s := by
  have sp := extendSeq_spec G s c
  apply seq_ext _ _ sp.len (fun j _ => sp.score j) _ (fun j _ => sp.core j)
  intro j _
  rw [Bool.eq_iff_iff, sp.removed]
  constructor
  · rintro (h1 | ⟨b, hb, hm, _, _⟩)
    · exact h1
    · rw [mergeAt_false_of_closed G s h b hb] at hm
      cases hm
  · intro h1; exact Or.inl h1

theorem ext_closed (G : Int) (s : CSequence) (c : Nat) : Closed G (extendSeq G s c).1 := by
  have sp := extendSeq_spec G s c
  intro a b hab hb hMb hMa hnone hgap
  rw [sp.len] at hb
  -- position `b - 1` lies strictly between `a` and `b`
  have hb1 : removedAt (extendSeq G s c).1 (b - 1) = false := hnone (b - 1) (by omega) (by omega)
  have fill : ∀ b', b' < s.length → mergeAt G s b' = true → lastBefore s b' < b - 1 →
      b - 1 ≤ b' → False := by
    intro b' hb' hm h1 h2
    have : removedAt (extendSeq G s c).1 (b - 1) = true :=
      (sp.removed (b - 1)).mpr (Or.inr ⟨b', hb', hm, h1, h2⟩)
    rw [hb1] at this
    cases this
  have hsub : ∀ k, removedAt s k = true → removedAt (extendSeq G s c).1 k = true :=
    fun k hk => (sp.removed k).mpr (Or.inl hk)
  have hnone0 : ∀ k, a < k → k < b → removedAt s k = false := by
    intro k h1 h2
    have := hnone k h1 h2
    by_contra hk
    have hk' : removedAt s k = true := by simpa using hk
    rw [hsub k hk'] at this
    cases this
  rcases (sp.removed b).mp hMb with hM0b | ⟨b', hb', hm, h1, h2⟩
  · -- `b` was removed before the extension
    by_cases hpa : a < lastBefore s b
    · -- the previous removed position lies strictly between `a` and `b`
      have hlt : lastBefore s b < b := lastBefore_lt s b (by omega)
      rcases lastBefore_removed_or_zero s b with h | h
      · rw [hnone0 _ hpa hlt] at h; cases h
      · omega
    · by_cases hpe : lastBefore s b = a
      · -- the gap at `b` is merged, so `b - 1` is removed
        have hm : mergeAt G s b = true := by
          simp only [mergeAt, Bool.and_eq_true, decide_eq_true_eq]
          rw [hpe]
          exact ⟨hM0b, hgap.2, by omega⟩
        exact fill b hb hm (by omega) (by omega)
      · -- `a` lies strictly after the previous removed position of `b`
        have hpa' : lastBefore s b < a := by omega
        have hM0a : removedAt s a = false := lastBefore_none_between s b a hpa' hab
        have hMa' : removedAt (extendSeq G s c).1 a = true := by
          rcases hMa with h | h
          · exact h
          · omega
        rcases (sp.removed a).mp hMa' with h | ⟨b'', hb'', hm, h1, h2⟩
        · rw [hM0a] at h; cases h
        · have hM0b'' : removedAt s b'' = true := by
            simp only [mergeAt, Bool.and_eq_true, decide_eq_true_eq] at hm
            exact hm.1
          rcases Nat.lt_trichotomy b'' b with h | h | h
          · have := lastBefore_none_between s b b'' (by omega) h
            rw [hM0b''] at this; cases this
          · subst h
            exact fill b'' hb hm (by omega) (by omega)
          · have := lastBefore_ge s b b'' hM0b h
            omega
  · -- `b` was marked by a merge at `b'`
    by_cases hp : lastBefore s b' < b - 1
    · exact fill b' hb' hm hp (by omega)
    · have hpe : lastBefore s b' = b - 1 := by omega
      rcases lastBefore_removed_or_zero s b' with h | h
      · rw [hpe] at h
        rw [hsub _ h] at hb1; cases hb1
      · omega

theorem trim_closed (G R : Int) (s : CSequence) (c : Nat) (h : Closed G s) :
    Closed G (trimSeq R s c).1 := by
  have sp := trimSeq_spec R s c
  intro a b hab hb hMb hMa hnone hgap
  rw [sp.len] at hb
  have hnone3 : ∀ k, a < k → k < b → ¬ trimRemoved R s k := by
    intro k h1 h2 h3
    have := hnone k h1 h2
    rw [(sp.removed k).mpr h3] at this
    cases this
  have hnone0 : ∀ k, a < k → k < b → removedAt s k = false := by
    intro k h1 h2
    by_contra hk
    exact hnone3 k h1 h2 (Or.inl (Or.inl (by simpa using hk)))
  have hb1 := hnone3 (b - 1) (by omega) (by omega)
  have ha1 := hnone3 (a + 1) (by omega) (by omega)
  have hmid : midRemoved R s b := by
    rcases (sp.removed b).mp hMb with h2 | ⟨_, q, q1, q2, hq⟩
    · exact h2
    · by_cases hqb : q = b
      · subst hqb; exact hq
      · exact absurd (Or.inr ⟨by omega, q, q1, by omega, hq⟩) hb1
  rcases hmid with hM | ⟨_, q, q1, q2, q3, hq⟩
  · have key : removedAt s a = true ∨ a = 0 := by
      rcases hMa with hMa | hMa
      · rcases (sp.removed a).mp hMa with (hM' | ⟨h1, q, q1, q2, q3, hq⟩) | ⟨_, q, q1, q2, hq⟩
        · exact Or.inl hM'
        · by_cases hqa : q = a
          · subst hqa; exact Or.inl hq
          · exact absurd (Or.inl (Or.inr ⟨by omega, q, by omega, q2, q3, hq⟩)) ha1
        · exact absurd (Or.inr ⟨by omega, q, q1, by omega, hq⟩) ha1
      · exact Or.inr hMa
    exact h a b hab hb hM key hnone0 hgap
  · exact hb1 (Or.inl (Or.inr ⟨by omega, q, by omega, q2, q3, hq⟩))

theorem frontHit_trim (R : Int) (s : CSequence) (c : Nat) (k : Nat)
    (h : frontHit R (trimSeq R s c).1 k) : frontHit R s k ∨ backHit R s k := by
  have sp := trimSeq_spec R s c
  obtain ⟨h1, q, q1, q2, q3, hq⟩ := h
  rw [sp.len] at q2
  rcases (sp.removed q).mp hq with (hM | ⟨_, q', a1, a2, a3, a4⟩) | ⟨_, q'', b1, b2, hq''⟩
  · exact Or.inl ⟨h1, q, q1, q2, q3, hM⟩
  · exact Or.inl ⟨h1, q', by omega, a2, a3, a4⟩
  · by_cases hle : q'' ≤ k
    · exact Or.inr ⟨by omega, q'', b1, hle, hq''⟩
    · rcases hq'' with hM | ⟨_, q', a1, a2, a3, a4⟩
      · exact Or.inl ⟨h1, q'', by omega, by omega, by omega, hM⟩
      · exact Or.inl ⟨h1, q', by omega, a2, a3, a4⟩

theorem midRemoved_trim (R : Int) (s : CSequence) (c : Nat) (k : Nat) :
    midRemoved R (trimSeq R s c).1 k ↔ trimRemoved R s k := by
  have sp := trimSeq_spec R s c
  constructor
  · rintro (h | h)
    · exact (sp.removed k).mp h
    · rcases frontHit_trim R s c k h with h' | h'
      · exact Or.inl (Or.inr h')
      · exact Or.inr h'
  · intro h; exact Or.inl ((sp.removed k).mpr h)

theorem backHit_trim (R : Int) (s : CSequence) (c : Nat) (k : Nat)
    (h : backHit R (trimSeq R s c).1 k) : backHit R s k := by
  have sp := trimSeq_spec R s c
  obtain ⟨h1, q, q1, q2, hq⟩ := h
  rw [sp.len] at h1 q1
  rcases (midRemoved_trim R s c q).mp hq with hM | ⟨_, q', b1, b2, hq'⟩
  · exact ⟨h1, q, q1, q2, hM⟩
  · exact ⟨h1, q', b1, by omega, hq'⟩

theorem trimRemoved_trim (R : Int) (s : CSequence) (c : Nat) (k : Nat) :
    trimRemoved R (trimSeq R s c).1 k ↔ trimRemoved R s k := by
  constructor
  · rintro (h | h)
    · exact (midRemoved_trim R s c k).mp h
    · exact Or.inr (backHit_trim R s c k h)
  · intro h; exact Or.inl ((midRemoved_trim R s c k).mpr h)

theorem trim_idem (R : Int) (s : CSequence) (c c' : Nat) :
    (trimSeq R (trimSeq R s c).1 c').1 = (trimSeq R s c).1 := by
  have sp := trimSeq_spec R s c
  have sp' := trimSeq_spec R (trimSeq R s c).1 c'
  apply seq_ext _ _ sp'.len (fun j _ => sp'.score j)
  · intro k _
    rw [Bool.eq_iff_iff, sp'.removed, trimRemoved_trim, sp.removed]
  · intro k _
    rw [Bool.eq_iff_iff, sp'.core]
    constructor
    · intro h; exact h.1
    · intro h
      obtain ⟨hI, hF, hP, hB, hS⟩ := (sp.core k).mp h
      refine ⟨h, ?_, ?_, ?_, ?_⟩
      · intro hf
        rcases frontHit_trim R s c k hf with h' | h'
        · exact hF h'
        · exact hB h'
      · rintro ⟨hk, hall⟩
        rw [sp.len] at hk
        by_cases hmid : ∀ c', c' ≤ k → midRemoved R s c'
        · exact hP ⟨hk, hmid⟩
        · push_neg at hmid
          obtain ⟨c', hc', hnot⟩ := hmid
          rcases (midRemoved_trim R s c c').mp (hall c' hc') with h' | ⟨_, q, q1, q2, hq⟩
          · exact hnot h'
          · exact hB ⟨hk, q, q1, by omega, hq⟩
      · intro hb; exact hB (backHit_trim R s c k hb)
      · rintro ⟨hk, hall⟩
        rw [sp.len] at hk
        apply hS
        refine ⟨hk, fun c' h1 h2 => ?_⟩
        rw [← trimRemoved_trim R s c c']
        exact hall c' h1 (by rw [sp.len]; exact h2)

theorem mask_of_below (t : ℚ) (s : CSequence) (c : Nat) (h : Below t s) :
    (thresholdSeq t s c).1 = s := by
  have sp := thresholdSeq_spec t s c
  apply seq_ext _ _ sp.len (fun j _ => sp.score j) _ (fun j _ => sp.core j)
  intro j hj
  rw [sp.removed]
  by_cases hlt : scoreAt s j < t
  · rw [h j hj hlt]; rfl
  · simp [hlt]

theorem mask_below (t : ℚ) (s : CSequence) (c : Nat) : Below t (thresholdSeq t s c).1 := by
  have sp := thresholdSeq_spec t s c
  intro j hj hlt
  rw [sp.len] at hj
  rw [sp.score] at hlt
  rw [sp.removed]
  simp [hj, hlt]

theorem ext_below (t : ℚ) (G : Int) (s : CSequence) (c : Nat) (h : Below t s) :
    Below t (extendSeq G s c).1 := by
  have sp := extendSeq_spec G s c
  intro j hj hlt
  rw [sp.len] at hj
  rw [sp.score] at hlt
  exact (sp.removed j).mpr (Or.inl (h j hj hlt))

theorem trim_below (t : ℚ) (R : Int) (s : CSequence) (c : Nat) (h : Below t s) :
    Below t (trimSeq R s c).1 := by
  have sp := trimSeq_spec R s c
  intro j hj hlt
  rw [sp.len] at hj
  rw [sp.score] at hlt
  exact (sp.removed j).mpr (Or.inl (Or.inl (h j hj hlt)))

theorem DoFiltering_eq_map (t : ℚ) (G R : Int) (data : List CSequence) :
    DoFiltering t G R data = data.map (filterSeq t G R) := by
  unfold DoFiltering
  simp only [applyThreshold_fst, extendRegions_fst, trimEdges_fst]
  by_cases hG : G > 0 <;> by_cases hR : R > 0 <;>
    simp [hG, hR, filterSeq, List.map_map, Function.comp]

theorem filterSeq_idem (t : ℚ) (G R : Int) (s : CSequence) :
    filterSeq t G R (filterSeq t G R s) = filterSeq t G R s := by
  have hbelow : Below t (filterSeq t G R s) := by
    unfold filterSeq
    by_cases hG : G > 0 <;> by_cases hR : R > 0 <;> simp only [hG, hR, if_true, if_false]
    · exact trim_below _ _ _ _ (ext_below _ _ _ _ (mask_below _ _ _))
    · exact ext_below _ _ _ _ (mask_below _ _ _)
    · exact trim_below _ _ _ _ (mask_below _ _ _)
    · exact mask_below _ _ _
  have hclosed : G > 0 → Closed G (filterSeq t G R s) := by
    intro hG
    unfold filterSeq
    by_cases hR : R > 0 <;> simp only [hG, hR, if_true, if_false]
    · exact trim_closed _ _ _ _ (ext_closed _ _ _)
    · exact ext_closed _ _ _
  have htrim : R > 0 → (trimSeq R (filterSeq t G R s) 0).1 = filterSeq t G R s := by
    intro hR
    have : filterSeq t G R s = (trimSeq R (if G > 0 then
        (extendSeq G (thresholdSeq t s 0).1 0).1 else (thresholdSeq t s 0).1) 0).1 := by
      unfold filterSeq
      simp only [hR, if_true]
    rw [this]
    exact trim_idem _ _ _ _
  have step1 : (thresholdSeq t (filterSeq t G R s) 0).1 = filterSeq t G R s :=
    mask_of_below _ _ _ hbelow
  have step2 : (if G > 0 then (extendSeq G (filterSeq t G R s) 0).1 else filterSeq t G R s)
      = filterSeq t G R s := by
    by_cases hG : G > 0
    · rw [if_pos hG]; exact ext_of_closed _ _ _ (hclosed hG)
    · rw [if_neg hG]
  have step3 : (if R > 0 then (trimSeq R (filterSeq t G R s) 0).1 else filterSeq t G R s)
      = filterSeq t G R s := by
    by_cases hR : R > 0
    · rw [if_pos hR]; exact htrim hR
    · rw [if_neg hR]
  generalize filterSeq t G R s = s' at step1 step2 step3
  simp only [filterSeq, step1, step2, step3]

/-- C7: pipeline idempotence. For every corpus in its default state (nothing removed,
everything inside the core), every threshold and every `FilterRange` and
`RunBeforeInside`: running the threshold step, the region extension (when
`FilterRange > 0`) and the edge trimming (when `RunBeforeInside > 0`) a second time with
the same parameters leaves the corpus, with every removed and every inCore flag, exactly
as it was after the first run. -/
theorem DoFiltering_idempotent (scores : List (List ℚ)) (t : ℚ) (G R : Int) :
    DoFiltering t G R (DoFiltering t G R (scores.map CSequence.ofScores))
      = DoFiltering t G R (scores.map CSequence.ofScores) := by
  rw [DoFiltering_eq_map, DoFiltering_eq_map, List.map_map]
  apply List.map_congr_left
  intro s _
  exact filterSeq_idem t G R s

/-- The part of front trimming that the scan does perform: with a removed position `q`
in the front window, every position `k` with `1 ≤ k ≤ q` ends removed and outside the
core. -/
theorem trimEdges_front_from_one (data : List CSequence) (R : Int) (i q k : Nat)
    (hq : (q : Int) < min (((data.getD i []).length : Nat) : Int) R)
    (hrem : removedAt (data.getD i []) q = true) (h1 : 1 ≤ k) (hkq : k ≤ q) :
    removedAt ((trimEdges R data).1.getD i []) k = true ∧
      inCoreAt ((trimEdges R data).1.getD i []) k = false := by
  have hqL : q < (data.getD i []).length := by
    have := lt_of_lt_of_le hq (min_le_left _ _)
    exact_mod_cast this
  have hqR : (q : Int) < R := lt_of_lt_of_le hq (min_le_right _ _)
  have hi := lt_of_pos_in_getD data i q hqL
  rw [trimEdges_fst, getD_map_seq _ _ _ hi]
  have sp := trimSeq_spec R (data.getD i []) 0
  have hF : frontHit R (data.getD i []) k := ⟨h1, q, hkq, hqL, hqR, hrem⟩
  refine ⟨(sp.removed k).mpr (Or.inl (Or.inr hF)), ?_⟩
  rw [← Bool.not_eq_true, sp.core]
  intro h
  exact h.2.1 hF

/-! ## The threshold step in closed form -/

theorem countP_range_score (t : ℚ) (s : CSequence) :
    (List.range s.length).countP (fun j => decide (scoreAt s j < t))
      = s.countP (fun r => decide (r.PP < t)) := by
  induction s with
  | nil => rfl
  | cons r rs ih =>
    rw [List.length_cons, List.range_succ_eq_map, List.countP_cons, List.countP_cons,
      List.countP_map, ← ih]
    have h0 : scoreAt (r :: rs) 0 = r.PP := by simp [scoreAt]
    have hs : ((fun j => decide (scoreAt (r :: rs) j < t)) ∘ Nat.succ)
        = (fun j => decide (scoreAt rs j < t)) := by
      funext j; simp [scoreAt]
    rw [h0, hs]

theorem thresholdSeq_eq (t : ℚ) (s : CSequence) (c : Nat) :
    thresholdSeq t s c
      = (s.map (maskResidue t), c + s.countP (fun r => decide (r.PP < t))) := by
  have sp := thresholdSeq_spec t s c
  apply Prod.ext
  · show (thresholdSeq t s c).1 = s.map (maskResidue t)
    symm
    apply seq_ext
    · rw [List.length_map, sp.len]
    · intro j hj
      rw [sp.len] at hj
      rw [sp.score]
      simp [scoreAt, List.getElem?_map, List.getElem?_eq_getElem hj, maskResidue]
    · intro j hj
      rw [sp.len] at hj
      rw [sp.removed]
      simp [removedAt, scoreAt, List.getElem?_map, List.getElem?_eq_getElem hj, maskResidue, hj]
    · intro j hj
      rw [sp.len] at hj
      rw [sp.core]
      simp [inCoreAt, List.getElem?_map, List.getElem?_eq_getElem hj, maskResidue]
  · show (thresholdSeq t s c).2 = _
    rw [sp.count, countP_range_score]

theorem applyThreshold_eq_map (t : ℚ) (data : List CSequence) :
    (applyThreshold t data).1 = data.map (fun s => s.map (maskResidue t)) :=
  overSeqs_fst _ _ (fun s c => by rw [thresholdSeq_eq]) data 0

theorem sum_countP_eq_allScores (t : ℚ) (data : List CSequence) :
    (data.map (fun s => s.countP (fun r => decide (r.PP < t)))).sum = countBelow t data := by
  unfold countBelow allScores
  induction data with
  | nil => rfl
  | cons s rest ih =>
    rw [List.map_cons, List.sum_cons, ih, List.flatMap_cons, List.countP_append, List.countP_map]
    rfl

theorem applyThreshold_count (t : ℚ) (data : List CSequence) :
    (applyThreshold t data).2 = countBelow t data := by
  have := overSeqs_snd (thresholdSeq t) (fun s => s.countP (fun r => decide (r.PP < t)))
    (fun s c => by rw [thresholdSeq_eq]) data 0
  rw [← sum_countP_eq_allScores]
  simpa [applyThreshold] using this

theorem removedAt_mask (t : ℚ) (s : CSequence) (j : Nat) :
    removedAt (s.map (maskResidue t)) j = true ↔
      removedAt s j = true ∨ (j < s.length ∧ scoreAt s j < t) := by
  by_cases hj : j < s.length
  · simp [removedAt, scoreAt, List.getElem?_map, List.getElem?_eq_getElem hj, maskResidue, hj]
  · have hj' : s.length ≤ j := Nat.le_of_not_lt hj
    simp [removedAt, List.getElem?_map, List.getElem?_eq_none hj', hj]

theorem getD_map_mask (t : ℚ) (data : List CSequence) (i : Nat) :
    (data.map (fun s => s.map (maskResidue t))).getD i [] = (data.getD i []).map (maskResidue t) :=
  getD_map_nil _ rfl data i

/-- C11: masking is monotone in the threshold. For every corpus state and thresholds
`t1 ≤ t2`, every position removed after applying `t1` is also removed after applying `t2`
to the same state, and every position removed before an application is still removed
after it. -/
theorem applyThreshold_monotone (data : List CSequence) (t1 t2 : ℚ) (h : t1 ≤ t2) (i j : Nat) :
    (removedAt ((applyThreshold t1 data).1.getD i []) j = true →
        removedAt ((applyThreshold t2 data).1.getD i []) j = true) ∧
      (removedAt (data.getD i []) j = true →
        removedAt ((applyThreshold t1 data).1.getD i []) j = true) := by
  rw [applyThreshold_eq_map, applyThreshold_eq_map, getD_map_mask, getD_map_mask,
    removedAt_mask, removedAt_mask]
  constructor
  · rintro (h1 | ⟨h1, h2⟩)
    · exact Or.inl h1
    · exact Or.inr ⟨h1, lt_of_lt_of_le h2 h⟩
  · intro h1; exact Or.inl h1

theorem applyThreshold_monotone_witness :
    (removedAt ((applyThreshold (1/4) [[⟨1/10, false, true⟩, ⟨3/10, false, true⟩,
          ⟨9/10, true, true⟩]]).1.getD 0 []) 0 = true →
        removedAt ((applyThreshold (1/2) [[⟨1/10, false, true⟩, ⟨3/10, false, true⟩,
          ⟨9/10, true, true⟩]]).1.getD 0 []) 0 = true) ∧
      (removedAt ([[⟨1/10, false, true⟩, ⟨3/10, false, true⟩,
          ⟨9/10, true, true⟩]].getD 0 []) 0 = true →
        removedAt ((applyThreshold (1/4) [[⟨1/10, false, true⟩, ⟨3/10, false, true⟩,
          ⟨9/10, true, true⟩]]).1.getD 0 []) 0 = true) :=
  applyThreshold_monotone [[⟨1/10, false, true⟩, ⟨3/10, false, true⟩, ⟨9/10, true, true⟩]]
    (1/4) (1/2) (by norm_num) 0 0

theorem zip_self_map {α β : Type} (f : α → β) (l : List α) :
    List.zip l (l.map f) = l.map (fun x => (x, f x)) := by
  induction l with
  | nil => rfl
  | cons a l ih => simp [ih]

theorem newlyMarkedSeq_mask (t : ℚ) (s : CSequence) :
    newlyMarkedSeq s (s.map (maskResidue t))
      = s.countP (fun r => !r.Remove && decide (r.PP < t)) := by
  unfold newlyMarkedSeq
  rw [zip_self_map, List.countP_map]
  apply List.countP_congr
  intro r _
  cases hr : r.Remove <;> simp [maskResidue, hr]

theorem countP_below_split (t : ℚ) (s : CSequence) :
    s.countP (fun r => decide (r.PP < t))
      = s.countP (fun r => !r.Remove && decide (r.PP < t))
        + s.countP (fun r => r.Remove && decide (r.PP < t)) := by
  induction s with
  | nil => rfl
  | cons r rs ih =>
    rw [List.countP_cons, List.countP_cons, List.countP_cons, ih]
    cases hr : r.Remove <;> by_cases hlt : r.PP < t <;> simp [hr, hlt] <;> omega

theorem newlyMarked_mask (t : ℚ) (data : List CSequence) :
    newlyMarked data (data.map (fun s => s.map (maskResidue t))) + removedBelow t data
      = (data.map (fun s => s.countP (fun r => decide (r.PP < t)))).sum := by
  unfold newlyMarked removedBelow
  rw [zip_self_map, List.map_map]
  induction data with
  | nil => rfl
  | cons s rest ih =>
    simp only [List.map_cons, List.sum_cons, Function.comp] at ih ⊢
    rw [newlyMarkedSeq_mask, countP_below_split t s]
    omega

/-- C12, counterexample: one position that is already removed and scores 0; the threshold
step with `t = 1/2` reports 1, while no removed flag changes from false to true. -/
theorem applyThreshold_counts_already_removed :
    (applyThreshold (1/2) [[⟨0, true, true⟩]]).2 = 1 ∧
      newlyMarked [[⟨0, true, true⟩]] (applyThreshold (1/2) [[⟨0, true, true⟩]]).1 = 0 := by
  decide!

/-- C12, amended: for every corpus state and every threshold, the count reported by the
threshold step is the number of positions scoring below the threshold: the positions newly
marked plus the positions that were already removed and score below the threshold. -/
theorem applyThreshold_count_split (data : List CSequence) (t : ℚ) :
    (applyThreshold t data).2 = countBelow t data ∧
      (applyThreshold t data).2
        = newlyMarked data (applyThreshold t data).1 + removedBelow t data := by
  refine ⟨applyThreshold_count t data, ?_⟩
  rw [applyThreshold_count, applyThreshold_eq_map, newlyMarked_mask, sum_countP_eq_allScores]

/-- C20, counterexample: for five positions with the distinct scores `0/100, ..., 4/100`
and `p = 0.2` (the double nearest to `1/5`) the code computes the rank
`(int)((1.0 - 0.2) * 5) = 4`, the cutoff is `4/100` and 4 positions score below it, more
than `⌊(1 - p) * N⌋ = 3`; the one retained position is less than `p * N`. For one position
and `p = 3/2` the cast truncates `-0.5` to rank 0: the cutoff is defined, no position is
below it, and `⌊(1 - p) * N⌋ = -1`. -/
theorem quantile_removes_above_floor :
    TargetCutoff (gradedCorpus 5) (toDouble (1/5)) = some (4/100) ∧
      countBelow (4/100) (gradedCorpus 5) = 4 ∧
      ⌊(1 - toDouble (1/5)) * (totalLength (gradedCorpus 5) : ℚ)⌋ = 3 ∧
      ¬ (toDouble (1/5) * (totalLength (gradedCorpus 5) : ℚ)
          ≤ ((totalLength (gradedCorpus 5) - countBelow (4/100) (gradedCorpus 5) : Nat) : ℚ)) ∧
      TargetCutoff [CSequence.ofScores [1/2]] (3/2) = some (1/2) ∧
      countBelow (1/2) [CSequence.ofScores [1/2]] = 0 ∧
      ⌊(1 - (3/2 : ℚ)) * (totalLength [CSequence.ofScores [1/2]] : ℚ)⌋ = -1 := by
  rw [TargetCutoff_of_pos _ _ (show 0 < totalLength (gradedCorpus 5) by decide),
    TargetCutoff_of_pos _ _ (show 0 < totalLength [CSequence.ofScores [1/2]] by decide)]
  decide!

/-- C20, amended: for a retain proportion `0 ≤ p ≤ 1` whose cutoff `t = TargetCutoff p` is
defined on a corpus of total length `N`, the number of positions scoring strictly below `t`
(the count the masking step reports) is at most the rank the code computes,
`(int)((1.0 - p) * (double) N)` in binary64, which is at most `⌊(1 - p) * N + N / 2 ^ 51⌋`;
so at least `p * N - N / 2 ^ 51` of the `N` positions are retained. -/
theorem quantile_retains_requested (data : List CSequence) (p t : ℚ) (hp0 : 0 ≤ p)
    (hp : p ≤ 1) (h : TargetCutoff data p = some t) :
    ((countBelow t data : Nat) : Int) ≤ countStop p (totalLength data) ∧
      countStop p (totalLength data)
        ≤ ⌊(1 - p) * (totalLength data : ℚ) + (totalLength data : ℚ) / 2 ^ 51⌋ ∧
      (applyThreshold t data).2 = countBelow t data ∧
      p * (totalLength data : ℚ) - (totalLength data : ℚ) / 2 ^ 51
        ≤ ((totalLength data - countBelow t data : Nat) : ℚ) := by
  obtain ⟨hN, hread⟩ := TargetCutoff_eq_some h
  obtain ⟨h0, h1, hget⟩ := readAt_eq_some hread
  have hget' : (sortedPP data)[(countStop p (totalLength data)).toNat] = t := hget
  have hlt := sorted_countP_lt (sortedPP_sorted data) h1
  rw [hget', (sortedPP_perm data).countP_eq] at hlt
  have hle : countBelow t data ≤ totalLength data := by
    unfold countBelow
    rw [totalLength_eq]
    exact List.countP_le_length _
  have hA : ((countBelow t data : Nat) : Int) ≤ countStop p (totalLength data) := by
    have : ((countBelow t data : Nat) : Int)
        ≤ (((countStop p (totalLength data)).toNat : Nat) : Int) := by
      exact_mod_cast hlt
    rwa [Int.toNat_of_nonneg h0] at this
  refine ⟨hA, (countStop_floor_bounds hp0 hp _).2, applyThreshold_count t data, ?_⟩
  have hfl := (countStop_bounds hp0 hp (totalLength data)).1
  have hAQ : ((countBelow t data : Nat) : ℚ) ≤ ((countStop p (totalLength data) : Int) : ℚ) := by
    exact_mod_cast hA
  rw [Nat.cast_sub hle]
  linarith

theorem quantile_retains_requested_witness :
    ((countBelow (2/100) (gradedCorpus 5) : Nat) : Int) ≤ countStop (1/2) (totalLength (gradedCorpus 5)) ∧
      countStop (1/2) (totalLength (gradedCorpus 5))
        ≤ ⌊(1 - (1/2 : ℚ)) * (totalLength (gradedCorpus 5) : ℚ)
          + (totalLength (gradedCorpus 5) : ℚ) / 2 ^ 51⌋ ∧
      (applyThreshold (2/100) (gradedCorpus 5)).2 = countBelow (2/100) (gradedCorpus 5) ∧
      (1/2 : ℚ) * (totalLength (gradedCorpus 5) : ℚ) - (totalLength (gradedCorpus 5) : ℚ) / 2 ^ 51
        ≤ ((totalLength (gradedCorpus 5) - countBelow (2/100) (gradedCorpus 5) : Nat) : ℚ) :=
  quantile_retains_requested (gradedCorpus 5) (1/2) (2/100) (by norm_num) (by norm_num)
    (by rw [TargetCutoff_of_pos _ _ (by decide)]; decide!)

/-! ## The counter of the edge trimming -/

theorem trimSeq_snd (R : Int) (s : CSequence) (c : Nat) :
    (trimSeq R s c).2
      = c + (if frontTriggered R s = true then 1 else 0)
          + (if backTriggered R s = true then 1 else 0) := by
  obtain ⟨f1, _, _, f4, _, f6⟩ := windowFold_spec (· > ·) gt_asymm (frontWindow s.length R)
    (frontWindow_pairwise _ _) s false c
  obtain ⟨g1, _, g3, _⟩ := coreScan_spec (· < ·) lt_asymm_nat (List.range s.length)
    (List.pairwise_lt_range _) ((frontWindow s.length R).foldl windowStep ⟨s, false, c⟩).seq
  obtain ⟨_, _, _, _, _, b6⟩ := windowFold_spec (· < ·) lt_asymm_nat (backWindow s.length R)
    (backWindow_pairwise _ _)
    (coreScan (List.range s.length)
      ((frontWindow s.length R).foldl windowStep ⟨s, false, c⟩).seq) false
    ((frontWindow s.length R).foldl windowStep ⟨s, false, c⟩).seqTrimmed
  have hany : (backWindow s.length R).any (removedAt (coreScan (List.range s.length)
      ((frontWindow s.length R).foldl windowStep ⟨s, false, c⟩).seq))
      = (backWindow s.length R).any (removedAt s) := by
    rw [Bool.eq_iff_iff, List.any_eq_true, List.any_eq_true]
    constructor
    · rintro ⟨q, hq, hrem⟩
      rw [g3, f4] at hrem
      rcases hrem with hrem | ⟨_, _, hm⟩
      · exact ⟨q, hq, hrem⟩
      · rcases hm with hm | ⟨j, hj, hjq, hrem⟩
        · cases hm
        · rw [mem_backWindow] at hq
          rw [mem_frontWindow] at hj
          refine ⟨j, ?_, hrem⟩
          rw [mem_backWindow]
          rcases hjq with hjq | hjq <;> exact ⟨by omega, hj.2.1⟩
    · rintro ⟨q, hq, hrem⟩
      exact ⟨q, hq, by rw [g3, f4]; exact Or.inl hrem⟩
  show ((backWindow s.length R).foldl windowStep
    ⟨coreScan (List.range s.length)
      ((frontWindow s.length R).foldl windowStep ⟨s, false, c⟩).seq, false,
      ((frontWindow s.length R).foldl windowStep ⟨s, false, c⟩).seqTrimmed⟩).seqTrimmed = _
  rw [b6, f6, hany]
  unfold frontTriggered backTriggered
  cases (frontWindow s.length R).any (removedAt s) <;>
    cases (backWindow s.length R).any (removedAt s) <;> simp

theorem trimEdges_snd (R : Int) (data : List CSequence) :
    (trimEdges R data).2
      = (data.map (fun s => (if frontTriggered R s = true then 1 else 0)
          + (if backTriggered R s = true then 1 else 0))).sum := by
  have := overSeqs_snd (trimSeq R)
    (fun s => (if frontTriggered R s = true then 1 else 0)
      + (if backTriggered R s = true then 1 else 0))
    (fun s c => by rw [trimSeq_snd, Nat.add_assoc]) data 0
  simpa [trimEdges] using this

theorem sum_triggers (R : Int) (data : List CSequence) :
    (data.map (fun s => (if frontTriggered R s = true then 1 else 0)
          + (if backTriggered R s = true then 1 else 0))).sum
      = data.countP (frontTriggered R) + data.countP (backTriggered R) := by
  induction data with
  | nil => rfl
  | cons s rest ih =>
    rw [List.map_cons, List.sum_cons, ih, List.countP_cons, List.countP_cons]
    omega

/-- C13, counterexample: one sequence with mask `[F,T,F,T,F]` and `runLength = 2` is
trimmed at the front (position 1) and at the back (position 3); `trimEdges` returns 2,
more than the number of sequences. -/
theorem trimEdges_counts_both_edges :
    (trimEdges 2 [CSequence.ofMask [false, true, false, true, false]]).2 = 2 ∧
      [CSequence.ofMask [false, true, false, true, false]].length = 1 ∧
      ¬ ((trimEdges 2 [CSequence.ofMask [false, true, false, true, false]]).2
          ≤ [CSequence.ofMask [false, true, false, true, false]].length) := by
  decide

/-- C13, amended: the count returned by `trimEdges` counts trimmed edges. It is the
number of sequences with a removed position among positions `1 .. min(L, R) - 1` plus the
number of sequences with a removed position among positions `max(0, L - R) .. L - 1`; a
sequence trimmed at both edges counts twice. So the count is at least the number of
sequences in which trimming was triggered and at most twice the number of sequences. -/
theorem trimEdges_count_sections (data : List CSequence) (R : Int) :
    (trimEdges R data).2 = data.countP (frontTriggered R) + data.countP (backTriggered R) ∧
      data.countP (fun s => frontTriggered R s || backTriggered R s) ≤ (trimEdges R data).2 ∧
      (trimEdges R data).2 ≤ 2 * data.length := by
  have h : (trimEdges R data).2
      = data.countP (frontTriggered R) + data.countP (backTriggered R) := by
    rw [trimEdges_snd, sum_triggers]
  refine ⟨h, ?_, ?_⟩
  · rw [h]
    induction data with
    | nil => simp
    | cons s rest ih =>
      have ih' := ih (by rw [trimEdges_snd, sum_triggers])
      rw [List.countP_cons, List.countP_cons, List.countP_cons]
      cases frontTriggered R s <;> cases backTriggered R s <;> simp <;> omega
  · rw [h]
    have h1 := List.countP_le_length (frontTriggered R) (l := data)
    have h2 := List.countP_le_length (backTriggered R) (l := data)
    omega

/-! ## Sequences without removed positions -/

theorem removedAt_of_clean (s : CSequence) (hclean : ∀ r ∈ s, r.Remove = false) (j : Nat) :
    removedAt s j = false := by
  unfold removedAt
  cases h : s[j]? with
  | none => rfl
  | some r => exact hclean r (List.getElem?_mem h)

theorem not_trimRemoved_of_clean (R : Int) (s : CSequence)
    (hrem : ∀ j, removedAt s j = false) (k : Nat) : ¬ trimRemoved R s k := by
  have hmid : ∀ q, ¬ midRemoved R s q := by
    rintro q (h | ⟨_, q', _, _, _, h⟩)
    · rw [hrem] at h; cases h
    · rw [hrem] at h; cases h
  rintro (h | ⟨_, q, _, _, h⟩)
  · exact hmid k h
  · exact hmid q h

theorem extendSeq_of_clean (G : Int) (s : CSequence) (c : Nat)
    (hrem : ∀ j, removedAt s j = false) : extendSeq G s c = (s, c) := by
  have sp := extendSeq_spec G s c
  have hm : ∀ b, mergeAt G s b = false := by
    intro b; simp [mergeAt, hrem]
  apply Prod.ext
  · apply seq_ext _ _ sp.len (fun j _ => sp.score j) _ (fun j _ => sp.core j)
    intro j _
    rw [Bool.eq_iff_iff, sp.removed]
    constructor
    · rintro (h | ⟨b, _, h, _⟩)
      · exact h
      · rw [hm] at h; cases h
    · intro h; exact Or.inl h
  · show (extendSeq G s c).2 = c
    have hc : (extendSeq G s c).2 = c + (List.range s.length).countP (mergeAt G s) := sp.count
    have : (List.range s.length).countP (mergeAt G s) = 0 := by
      rw [List.countP_eq_zero]
      intro b _
      rw [hm]; simp
    omega

theorem trimSeq_of_clean (R : Int) (s : CSequence) (c : Nat)
    (hrem : ∀ j, removedAt s j = false) : trimSeq R s c = (s, c) := by
  have sp := trimSeq_spec R s c
  have hno := not_trimRemoved_of_clean R s hrem
  apply Prod.ext
  · apply seq_ext _ _ sp.len (fun j _ => sp.score j)
    · intro j _
      rw [Bool.eq_iff_iff, sp.removed, hrem]
      constructor
      · intro h; exact absurd h (hno j)
      · intro h; cases h
    · intro j _
      rw [Bool.eq_iff_iff, sp.core]
      constructor
      · intro h; exact h.1
      · intro h
        refine ⟨h, ?_, ?_, ?_, ?_⟩
        · intro hf; exact hno j (Or.inl (Or.inr hf))
        · rintro ⟨_, hall⟩; exact hno j (Or.inl (hall j le_rfl))
        · intro hb; exact hno j (Or.inr hb)
        · rintro ⟨hj, hall⟩; exact hno j (hall j le_rfl hj)
  · show (trimSeq R s c).2 = c
    rw [trimSeq_snd]
    have h1 : frontTriggered R s = false := by
      unfold frontTriggered
      rw [List.any_eq_false]
      intro q _; rw [hrem]; simp
    have h2 : backTriggered R s = false := by
      unfold backTriggered
      rw [List.any_eq_false]
      intro q _; rw [hrem]; simp
    simp [h1, h2]

/-- C16: clean sequences are left alone. For a sequence `i` of the corpus in which no
position is removed, and every `maxGap` and `runLength`: `extendRegions` and `trimEdges`
return the sequence unchanged (removed flags all false, inCore flags as before), and the
loop body for this sequence hands back the counter it was given, so the sequence
contributes 0 to the merge count and 0 to the trim count. -/
theorem clean_sequence_untouched (data : List CSequence) (G R : Int) (i : Nat)
    (hclean : ∀ r ∈ data.getD i [], r.Remove = false) :
    (extendRegions G data).1.getD i [] = data.getD i [] ∧
      (trimEdges R data).1.getD i [] = data.getD i [] ∧
      (∀ c, extendSeq G (data.getD i []) c = (data.getD i [], c)) ∧
      (∀ c, trimSeq R (data.getD i []) c = (data.getD i [], c)) := by
  have hrem := removedAt_of_clean _ hclean
  have hnil : ∀ j, removedAt ([] : CSequence) j = false := fun j => rfl
  refine ⟨?_, ?_, fun c => extendSeq_of_clean G _ c hrem, fun c => trimSeq_of_clean R _ c hrem⟩
  · rw [extendRegions_fst, getD_map_nil _ rfl, extendSeq_of_clean G _ 0 hrem]
  · rw [trimEdges_fst,
      getD_map_nil _ (by rw [trimSeq_of_clean R [] 0 hnil]) data i,
      trimSeq_of_clean R _ 0 hrem]

theorem clean_sequence_untouched_witness :
    (extendRegions 3 [CSequence.ofMask [true, false, false], CSequence.ofMask [false, false]]).1.getD
        1 [] = [CSequence.ofMask [true, false, false], CSequence.ofMask [false, false]].getD 1 [] ∧
      (trimEdges 2 [CSequence.ofMask [true, false, false], CSequence.ofMask [false, false]]).1.getD
        1 [] = [CSequence.ofMask [true, false, false], CSequence.ofMask [false, false]].getD 1 [] ∧
      (∀ c, extendSeq 3
          ([CSequence.ofMask [true, false, false], CSequence.ofMask [false, false]].getD 1 []) c
        = ([CSequence.ofMask [true, false, false], CSequence.ofMask [false, false]].getD 1 [], c)) ∧
      (∀ c, trimSeq 2
          ([CSequence.ofMask [true, false, false], CSequence.ofMask [false, false]].getD 1 []) c
        = ([CSequence.ofMask [true, false, false], CSequence.ofMask [false, false]].getD 1 [], c)) :=
  clean_sequence_untouched [CSequence.ofMask [true, false, false], CSequence.ofMask [false, false]]
    3 2 1 (by decide)

/-! ## Removal is never undone -/

theorem countP_remove_le (s s' : CSequence) (hlen : s'.length = s.length)
    (h : ∀ j, removedAt s j = true → removedAt s' j = true) :
    s.countP (fun r => r.Remove) ≤ s'.countP (fun r => r.Remove) := by
  induction s generalizing s' with
  | nil => simp
  | cons r rs ih =>
    cases s' with
    | nil => simp at hlen
    | cons r' rs' =>
      have h0 : r.Remove = true → r'.Remove = true := by
        have := h 0
        simpa [removedAt] using this
      have hs : ∀ j, removedAt rs j = true → removedAt rs' j = true := by
        intro j
        have := h (j + 1)
        simpa [removedAt] using this
      have hlen' : rs'.length = rs.length := by simpa using hlen
      have := ih rs' hlen' hs
      rw [List.countP_cons, List.countP_cons]
      cases hr : r.Remove
      · simp; omega
      · rw [h0 hr]; simp; omega

theorem removedCount_map_le (f : CSequence → CSequence) (data : List CSequence)
    (hlen : ∀ s, (f s).length = s.length)
    (h : ∀ s j, removedAt s j = true → removedAt (f s) j = true) :
    removedCount data ≤ removedCount (data.map f) := by
  unfold removedCount
  induction data with
  | nil => simp
  | cons s rest ih =>
    simp only [List.map_cons, List.sum_cons]
    have := countP_remove_le s (f s) (hlen s) (h s)
    omega

theorem filterSeq_len_score (t : ℚ) (G R : Int) (s : CSequence) :
    (filterSeq t G R s).length = s.length ∧
      ∀ j, scoreAt (filterSeq t G R s) j = scoreAt s j := by
  have m := thresholdSeq_spec t s 0
  unfold filterSeq
  by_cases hG : G > 0 <;> by_cases hR : R > 0 <;> simp only [hG, hR, if_true, if_false]
  · have e := extendSeq_spec G (thresholdSeq t s 0).1 0
    have r := trimSeq_spec R (extendSeq G (thresholdSeq t s 0).1 0).1 0
    exact ⟨by rw [r.len, e.len, m.len], fun j => by rw [r.score, e.score, m.score]⟩
  · have e := extendSeq_spec G (thresholdSeq t s 0).1 0
    exact ⟨by rw [e.len, m.len], fun j => by rw [e.score, m.score]⟩
  · have r := trimSeq_spec R (thresholdSeq t s 0).1 0
    exact ⟨by rw [r.len, m.len], fun j => by rw [r.score, m.score]⟩
  · exact ⟨m.len, m.score⟩

theorem filterSeq_below (t : ℚ) (G R : Int) (s : CSequence) : Below t (filterSeq t G R s) := by
  unfold filterSeq
  by_cases hG : G > 0 <;> by_cases hR : R > 0 <;> simp only [hG, hR, if_true, if_false]
  · exact trim_below _ _ _ _ (ext_below _ _ _ _ (mask_below _ _ _))
  · exact ext_below _ _ _ _ (mask_below _ _ _)
  · exact trim_below _ _ _ _ (mask_below _ _ _)
  · exact mask_below _ _ _

theorem extendSeq_keeps (G : Int) (s : CSequence) (c j : Nat) (h : removedAt s j = true) :
    removedAt (extendSeq G s c).1 j = true :=
  ((extendSeq_spec G s c).removed j).mpr (Or.inl h)

theorem trimSeq_keeps (R : Int) (s : CSequence) (c j : Nat) (h : removedAt s j = true) :
    removedAt (trimSeq R s c).1 j = true :=
  ((trimSeq_spec R s c).removed j).mpr (Or.inl (Or.inl h))

theorem thresholdSeq_keeps (t : ℚ) (s : CSequence) (c j : Nat) (h : removedAt s j = true) :
    removedAt (thresholdSeq t s c).1 j = true := by
  rw [(thresholdSeq_spec t s c).removed, h]; rfl

theorem getD_map_of_pos (f : CSequence → CSequence) (hlen : ∀ s, (f s).length = s.length)
    (data : List CSequence) (i : Nat) : (data.map f).getD i [] = f (data.getD i []) := by
  apply getD_map_nil
  exact List.eq_nil_of_length_eq_zero (hlen [])

/-- C15: removal is never undone. For every corpus state, every parameter choice and every
position `(i, j)`: a position that is removed stays removed through the threshold step,
through the region extension and through the edge trimming; hence the number of removed
positions does not decrease in any stage, and every position scoring below the threshold
is removed after the full pipeline. -/
theorem removal_never_undone (data : List CSequence) (t : ℚ) (G R : Int) (i j : Nat) :
    (removedAt (data.getD i []) j = true →
        removedAt ((applyThreshold t data).1.getD i []) j = true) ∧
      (removedAt (data.getD i []) j = true →
        removedAt ((extendRegions G data).1.getD i []) j = true) ∧
      (removedAt (data.getD i []) j = true →
        removedAt ((trimEdges R data).1.getD i []) j = true) ∧
      removedCount data ≤ removedCount (applyThreshold t data).1 ∧
      removedCount data ≤ removedCount (extendRegions G data).1 ∧
      removedCount data ≤ removedCount (trimEdges R data).1 ∧
      (j < (data.getD i []).length → scoreAt (data.getD i []) j < t →
        removedAt ((DoFiltering t G R data).getD i []) j = true) := by
  have lm : ∀ s, (thresholdSeq t s 0).1.length = s.length := fun s => (thresholdSeq_spec t s 0).len
  have le : ∀ s, (extendSeq G s 0).1.length = s.length := fun s => (extendSeq_spec G s 0).len
  have lr : ∀ s, (trimSeq R s 0).1.length = s.length := fun s => (trimSeq_spec R s 0).len
  have lf : ∀ s, (filterSeq t G R s).length = s.length := fun s => (filterSeq_len_score t G R s).1
  rw [applyThreshold_fst, extendRegions_fst, trimEdges_fst, DoFiltering_eq_map,
    getD_map_of_pos _ lm, getD_map_of_pos _ le, getD_map_of_pos _ lr, getD_map_of_pos _ lf]
  refine ⟨thresholdSeq_keeps t _ 0 j, extendSeq_keeps G _ 0 j, trimSeq_keeps R _ 0 j,
    removedCount_map_le _ data lm (fun s j => thresholdSeq_keeps t s 0 j),
    removedCount_map_le _ data le (fun s j => extendSeq_keeps G s 0 j),
    removedCount_map_le _ data lr (fun s j => trimSeq_keeps R s 0 j), ?_⟩
  intro hj hlt
  apply filterSeq_below t G R (data.getD i []) j
  · rw [lf]; exact hj
  · rw [(filterSeq_len_score t G R _).2]; exact hlt

theorem removal_never_undone_witness :
    removedAt ((DoFiltering (1/2) 3 2 [CSequence.ofScores [1/10, 9/10, 9/10]]).getD 0 []) 0
      = true :=
  (removal_never_undone [CSequence.ofScores [1/10, 9/10, 9/10]] (1/2) 3 2 0 0).2.2.2.2.2.2
    (by decide) (by decide!)

/-! ## Interior positions and the core -/

/-- C18: edge trimming leaves the interior untouched. For a sequence of length `L` and a
position `k` outside both edge windows (`min(L, R) ≤ k < max(0, L - R)`): `trimEdges` does
not change `removed[k]`, and it changes `inCore[k]` only if `k` belongs to a contiguous run
of removed positions that reaches position 0 or position `L - 1` (the run is read in the
state that `trimEdges` leaves). -/
theorem trimEdges_interior (data : List CSequence) (R : Int) (i k : Nat)
    (h1 : min (((data.getD i []).length : Nat) : Int) R ≤ (k : Int))
    (h2 : (k : Int) < max 0 ((((data.getD i []).length : Nat) : Int) - R)) :
    removedAt ((trimEdges R data).1.getD i []) k = removedAt (data.getD i []) k ∧
      (inCoreAt ((trimEdges R data).1.getD i []) k ≠ inCoreAt (data.getD i []) k →
        ((∀ c, c ≤ k → removedAt ((trimEdges R data).1.getD i []) c = true) ∨
          (∀ c, k ≤ c → c < (data.getD i []).length →
            removedAt ((trimEdges R data).1.getD i []) c = true))) := by
  rw [trimEdges_fst, getD_map_of_pos _ (fun s => (trimSeq_spec R s 0).len)]
  have sp := trimSeq_spec R (data.getD i []) 0
  rw [min_le_iff] at h1
  rw [lt_max_iff] at h2
  have hF : ¬ frontHit R (data.getD i []) k := by
    rintro ⟨_, q, q1, q2, q3, _⟩
    omega
  have hB : ¬ backHit R (data.getD i []) k := by
    rintro ⟨_, q, q1, q2, _⟩
    omega
  constructor
  · rw [Bool.eq_iff_iff, sp.removed]
    constructor
    · rintro ((h | h) | h)
      · exact h
      · exact absurd h hF
      · exact absurd h hB
    · intro h; exact Or.inl (Or.inl h)
  · intro hne
    by_cases hP : frontRun R (data.getD i []) k
    · left
      intro c hc
      exact (sp.removed c).mpr (Or.inl (hP.2 c hc))
    · by_cases hS : backRun R (data.getD i []) k
      · right
        intro c hc hcL
        exact (sp.removed c).mpr (hS.2 c hc hcL)
      · exfalso
        apply hne
        rw [Bool.eq_iff_iff, sp.core]
        constructor
        · intro h; exact h.1
        · intro h; exact ⟨h, hF, hP, hB, hS⟩

theorem trimEdges_interior_witness :
    removedAt ((trimEdges 2 [CSequence.ofMask [false, false, true, true, false]]).1.getD 0 []) 2
        = removedAt ([CSequence.ofMask [false, false, true, true, false]].getD 0 []) 2 ∧
      (inCoreAt ((trimEdges 2 [CSequence.ofMask [false, false, true, true, false]]).1.getD 0 []) 2
          ≠ inCoreAt ([CSequence.ofMask [false, false, true, true, false]].getD 0 []) 2 →
        ((∀ c, c ≤ 2 → removedAt
            ((trimEdges 2 [CSequence.ofMask [false, false, true, true, false]]).1.getD 0 []) c
              = true) ∨
          (∀ c, 2 ≤ c → c < ([CSequence.ofMask [false, false, true, true, false]].getD 0 []).length →
            removedAt
              ((trimEdges 2 [CSequence.ofMask [false, false, true, true, false]]).1.getD 0 []) c
                = true))) :=
  trimEdges_interior [CSequence.ofMask [false, false, true, true, false]] 2 0 2
    (by decide) (by decide)

theorem coreInv_mask (t : ℚ) (s : CSequence) (c : Nat) (h : CoreInv s) :
    CoreInv (thresholdSeq t s c).1 := by
  intro j hj
  rw [(thresholdSeq_spec t s c).core] at hj
  exact thresholdSeq_keeps t s c j (h j hj)

theorem coreInv_ext (G : Int) (s : CSequence) (c : Nat) (h : CoreInv s) :
    CoreInv (extendSeq G s c).1 := by
  intro j hj
  rw [(extendSeq_spec G s c).core] at hj
  exact extendSeq_keeps G s c j (h j hj)

theorem coreInv_trim (R : Int) (s : CSequence) (c : Nat) (h : CoreInv s) :
    CoreInv (trimSeq R s c).1 := by
  have sp := trimSeq_spec R s c
  intro j hj
  rw [sp.removed]
  by_cases hI : inCoreAt s j = true
  · by_contra hno
    have : inCoreAt (trimSeq R s c).1 j = true := by
      rw [sp.core]
      refine ⟨hI, ?_, ?_, ?_, ?_⟩
      · intro hf; exact hno (Or.inl (Or.inr hf))
      · rintro ⟨_, hall⟩; exact hno (Or.inl (hall j le_rfl))
      · intro hb; exact hno (Or.inr hb)
      · rintro ⟨hjL, hall⟩; exact hno (hall j le_rfl hjL)
    rw [hj] at this
    cases this
  · exact Or.inl (Or.inl (h j (by simpa using hI)))

theorem coreInv_filterSeq (t : ℚ) (G R : Int) (s : CSequence) (h : CoreInv s) :
    CoreInv (filterSeq t G R s) := by
  unfold filterSeq
  by_cases hG : G > 0 <;> by_cases hR : R > 0 <;> simp only [hG, hR, if_true, if_false]
  · exact coreInv_trim _ _ _ (coreInv_ext _ _ _ (coreInv_mask _ _ _ h))
  · exact coreInv_ext _ _ _ (coreInv_mask _ _ _ h)
  · exact coreInv_trim _ _ _ (coreInv_mask _ _ _ h)
  · exact coreInv_mask _ _ _ h

theorem coreInv_ofScores (pp : List ℚ) : CoreInv (CSequence.ofScores pp) := by
  intro j hj
  have : inCoreAt (CSequence.ofScores pp) j = true := by
    unfold inCoreAt CSequence.ofScores
    rw [List.getElem?_map]
    cases pp[j]? <;> rfl
  rw [this] at hj
  cases hj

/-- C19: outside the core implies removed. For every corpus starting in its default state
(nothing removed, everything inside the core) and all parameters, after the full pipeline
every position with `inCore = false` has `removed = true`. -/
theorem outside_core_is_removed (scores : List (List ℚ)) (t : ℚ) (G R : Int) (i j : Nat)
    (h : inCoreAt ((DoFiltering t G R (scores.map CSequence.ofScores)).getD i []) j = false) :
    removedAt ((DoFiltering t G R (scores.map CSequence.ofScores)).getD i []) j = true := by
  rw [DoFiltering_eq_map,
    getD_map_of_pos _ (fun s => (filterSeq_len_score t G R s).1)] at h ⊢
  have hinv : CoreInv ((scores.map CSequence.ofScores).getD i []) := by
    by_cases hi : i < scores.length
    · rw [List.getD_eq_getElem _ _ (by simpa using hi), List.getElem_map]
      exact coreInv_ofScores _
    · rw [List.getD_eq_default _ _ (by simpa using hi)]
      intro j hj
      cases hj
  exact coreInv_filterSeq t G R _ hinv j h

theorem outside_core_is_removed_witness :
    removedAt ((DoFiltering (1/2) 3 2
      ([[9/10, 1/10, 9/10, 9/10, 9/10]].map CSequence.ofScores)).getD 0 []) 1 = true :=
  outside_core_is_removed [[9/10, 1/10, 9/10, 9/10, 9/10]] (1/2) 3 2 0 1 (by decide!)

/-! ## Region extension at the start of a sequence -/

/-- C17: evaluation at the failing input. Mask `[F,F,T]` with `maxGap = 3`: the first
removed position is 2, `lastFilter` still holds its initial 0, the gap `2 - 0 = 2` lies
in `(1, 3)`, so position 1 is changed from kept to removed (one merge is counted) although
no position before it was removed: position 0 was and stays kept. -/
theorem extendRegions_fills_from_start :
    removeMask ((extendRegions 3 [CSequence.ofMask [false, false, true]]).1.getD 0 [])
        = [false, true, true] ∧
      (extendRegions 3 [CSequence.ofMask [false, false, true]]).2 = 1 ∧
      removedAt (CSequence.ofMask [false, false, true]) 1 = false ∧
      removedAt (CSequence.ofMask [false, false, true]) 0 = false := by
  decide

/-- What does hold for a position `k` that the region extension changes from kept to
removed: a position `b > k` was already removed, and either the last removed position
before `b` lies before `k`, or no position before `b` was removed at all (the gap is then
measured from position 0). -/
theorem extendSeq_new_position (G : Int) (s : CSequence) (c k : Nat)
    (hold : removedAt s k = false) (hnew : removedAt (extendSeq G s c).1 k = true) :
    ∃ b, k < b ∧ b < s.length ∧ removedAt s b = true ∧
      ((∃ a, a < k ∧ removedAt s a = true) ∨
        (0 < k ∧ ∀ a, a < b → removedAt s a = false)) := by
  rcases ((extendSeq_spec G s c).removed k).mp hnew with h | ⟨b, hb, hm, h1, h2⟩
  · rw [hold] at h; cases h
  · simp only [mergeAt, Bool.and_eq_true, decide_eq_true_eq] at hm
    have hkb : k < b := by
      rcases Nat.lt_or_ge k b with h | h
      · exact h
      · have : k = b := by omega
        subst this
        rw [hold] at hm
        cases hm.1
    refine ⟨b, hkb, hb, hm.1, ?_⟩
    rcases lastBefore_removed_or_zero s b with h | h
    · exact Or.inl ⟨lastBefore s b, h1, h⟩
    · by_cases h0 : removedAt s 0 = true
      · exact Or.inl ⟨0, by omega, h0⟩
      · right
        refine ⟨by omega, ?_⟩
        intro a ha
        rcases Nat.eq_zero_or_pos a with ha0 | ha0
        · subst ha0; simpa using h0
        · exact lastBefore_none_between s b a (by omega) ha

/-! ## The extremes of the summary -/

theorem summaryBody_rem (st : SummaryState) (i : Nat) (x : SeqSummary) :
    ((summaryBody st i x).rem_max = if x.PropRemoved > st.rem_max then x.PropRemoved
        else st.rem_max) ∧
      ((summaryBody st i x).rem_index = if x.PropRemoved > st.rem_max then (i : Int)
        else st.rem_index) := by
  unfold summaryBody
  by_cases h1 : x.PropRemoved > st.rem_max <;> by_cases h2 : x.PropInside < st.in_min <;>
    simp [h1, h2]

theorem summaryBody_in (st : SummaryState) (i : Nat) (x : SeqSummary) :
    ((summaryBody st i x).in_min = if x.PropInside < st.in_min then x.PropInside
        else st.in_min) ∧
      ((summaryBody st i x).in_index = if x.PropInside < st.in_min then (i : Int)
        else st.in_index) := by
  unfold summaryBody
  by_cases h1 : x.PropRemoved > st.rem_max <;> by_cases h2 : x.PropInside < st.in_min <;>
    simp [h1, h2]

theorem getElem?_append_single {α : Type} (pre : List α) (x : α) (j : Nat) (y : α)
    (h : pre[j]? = some y) : (pre ++ [x])[j]? = some y := by
  have hj : j < pre.length := by
    by_contra hn
    rw [List.getElem?_eq_none (Nat.le_of_not_lt hn)] at h
    cases h
  rw [List.getElem?_append_left hj]
  exact h

theorem getElem?_append_single_inv {α : Type} (pre : List α) (x : α) (j : Nat) (y : α)
    (hj : j < pre.length) (h : (pre ++ [x])[j]? = some y) : pre[j]? = some y := by
  rw [List.getElem?_append_left hj] at h
  exact h

theorem remInv_step (pre : List SeqSummary) (st : SummaryState) (x : SeqSummary)
    (h : RemInv pre st) : RemInv (pre ++ [x]) (summaryBody st pre.length x) := by
  obtain ⟨e1, e2⟩ := summaryBody_rem st pre.length x
  have hlast : (pre ++ [x])[pre.length]? = some x := by simp
  by_cases hgt : x.PropRemoved > st.rem_max
  · rw [if_pos hgt] at e1 e2
    right
    refine ⟨pre.length, x, e2, hlast, e1, ?_, ?_, ?_⟩
    · rcases h with ⟨_, h2, _⟩ | ⟨k, y, _, _, h3, h4, _, _⟩
      · rw [h2] at hgt; exact hgt
      · rw [h3] at hgt; exact lt_trans h4 hgt
    · intro z hz
      rcases List.mem_append.mp hz with hz | hz
      · rcases h with ⟨_, h2, h3⟩ | ⟨k, y, _, _, h3, _, h5, _⟩
        · rw [h2] at hgt; exact le_trans (h3 z hz) (le_of_lt hgt)
        · rw [h3] at hgt; exact le_trans (h5 z hz) (le_of_lt hgt)
      · rw [List.mem_singleton] at hz; rw [hz]
    · intro j z hj hz
      have hz' := getElem?_append_single_inv pre x j z hj hz
      have hmem : z ∈ pre := List.getElem?_mem hz'
      rcases h with ⟨_, h2, h3⟩ | ⟨k, y, _, _, h3, _, h5, _⟩
      · rw [h2] at hgt; exact lt_of_le_of_lt (h3 z hmem) hgt
      · rw [h3] at hgt; exact lt_of_le_of_lt (h5 z hmem) hgt
  · rw [if_neg hgt] at e1 e2
    have hle : x.PropRemoved ≤ st.rem_max := not_lt.mp hgt
    rcases h with ⟨h1, h2, h3⟩ | ⟨k, y, h1, h2, h3, h4, h5, h6⟩
    · left
      refine ⟨by rw [e2, h1], by rw [e1, h2], ?_⟩
      intro z hz
      rcases List.mem_append.mp hz with hz | hz
      · exact h3 z hz
      · rw [List.mem_singleton] at hz; rw [hz, ← h2]; exact hle
    · right
      refine ⟨k, y, by rw [e2, h1], getElem?_append_single pre x k y h2, by rw [e1, h3], h4,
        ?_, ?_⟩
      · intro z hz
        rcases List.mem_append.mp hz with hz | hz
        · exact h5 z hz
        · rw [List.mem_singleton] at hz; rw [hz, ← h3]; exact hle
      · intro j z hj hz
        have hk : k < pre.length := by
          by_contra hn
          rw [List.getElem?_eq_none (Nat.le_of_not_lt hn)] at h2
          cases h2
        exact h6 j z hj (getElem?_append_single_inv pre x j z (by omega) hz)

theorem inInv_step (pre : List SeqSummary) (st : SummaryState) (x : SeqSummary)
    (h : InInv pre st) : InInv (pre ++ [x]) (summaryBody st pre.length x) := by
  obtain ⟨e1, e2⟩ := summaryBody_in st pre.length x
  have hlast : (pre ++ [x])[pre.length]? = some x := by simp
  by_cases hlt : x.PropInside < st.in_min
  · rw [if_pos hlt] at e1 e2
    right
    refine ⟨pre.length, x, e2, hlast, e1, ?_, ?_, ?_⟩
    · rcases h with ⟨_, h2, _⟩ | ⟨k, y, _, _, h3, h4, _, _⟩
      · rw [h2] at hlt; exact hlt
      · rw [h3] at hlt; exact lt_trans hlt h4
    · intro z hz
      rcases List.mem_append.mp hz with hz | hz
      · rcases h with ⟨_, h2, h3⟩ | ⟨k, y, _, _, h3, _, h5, _⟩
        · rw [h2] at hlt; exact le_trans (le_of_lt hlt) (h3 z hz)
        · rw [h3] at hlt; exact le_trans (le_of_lt hlt) (h5 z hz)
      · rw [List.mem_singleton] at hz; rw [hz]
    · intro j z hj hz
      have hz' := getElem?_append_single_inv pre x j z hj hz
      have hmem : z ∈ pre := List.getElem?_mem hz'
      rcases h with ⟨_, h2, h3⟩ | ⟨k, y, _, _, h3, _, h5, _⟩
      · rw [h2] at hlt; exact lt_of_lt_of_le hlt (h3 z hmem)
      · rw [h3] at hlt; exact lt_of_lt_of_le hlt (h5 z hmem)
  · rw [if_neg hlt] at e1 e2
    have hle : st.in_min ≤ x.PropInside := not_lt.mp hlt
    rcases h with ⟨h1, h2, h3⟩ | ⟨k, y, h1, h2, h3, h4, h5, h6⟩
    · left
      refine ⟨by rw [e2, h1], by rw [e1, h2], ?_⟩
      intro z hz
      rcases List.mem_append.mp hz with hz | hz
      · exact h3 z hz
      · rw [List.mem_singleton] at hz; rw [hz, ← h2]; exact hle
    · right
      refine ⟨k, y, by rw [e2, h1], getElem?_append_single pre x k y h2, by rw [e1, h3], h4,
        ?_, ?_⟩
      · intro z hz
        rcases List.mem_append.mp hz with hz | hz
        · exact h5 z hz
        · rw [List.mem_singleton] at hz; rw [hz, ← h3]; exact hle
      · intro j z hj hz
        have hk : k < pre.length := by
          by_contra hn
          rw [List.getElem?_eq_none (Nat.le_of_not_lt hn)] at h2
          cases h2
        exact h6 j z hj (getElem?_append_single_inv pre x j z (by omega) hz)

theorem summaryLoop_inv (rest pre : List SeqSummary) (st : SummaryState)
    (hr : RemInv pre st) (hi : InInv pre st) :
    RemInv (pre ++ rest) (summaryLoop rest pre.length st) ∧
      InInv (pre ++ rest) (summaryLoop rest pre.length st) := by
  induction rest generalizing pre st with
  | nil => simpa [summaryLoop] using ⟨hr, hi⟩
  | cons x rest ih =>
    have := ih (pre ++ [x]) (summaryBody st pre.length x) (remInv_step pre st x hr)
      (inInv_step pre st x hi)
    simpa [summaryLoop] using this

theorem summaryStats_inv (data : List SeqSummary) :
    RemInv data (summaryStats data) ∧ InInv data (summaryStats data) := by
  have h := summaryLoop_inv data [] summaryInit
    (Or.inl ⟨rfl, rfl, fun x hx => by cases hx⟩) (Or.inl ⟨rfl, rfl, fun x hx => by cases hx⟩)
  simp only [List.nil_append, List.length_nil] at h
  exact h

theorem mostRemoved_spec (data : List SeqSummary) :
    (mostRemoved data = none ∧ ∀ x ∈ data, x.PropRemoved ≤ 0) ∨
      ∃ (k : Nat) (y : SeqSummary), mostRemoved data = some k ∧ data[k]? = some y ∧
        0 < y.PropRemoved ∧ (∀ x ∈ data, x.PropRemoved ≤ y.PropRemoved) ∧
        ∀ j x, j < k → data[j]? = some x → x.PropRemoved < y.PropRemoved := by
  rcases (summaryStats_inv data).1 with ⟨h1, _, h3⟩ | ⟨k, y, h1, h2, _, h4, h5, h6⟩
  · left
    refine ⟨?_, h3⟩
    unfold mostRemoved
    rw [h1]
    rfl
  · right
    refine ⟨k, y, ?_, h2, h4, h5, h6⟩
    unfold mostRemoved
    rw [h1, if_pos (by omega)]
    simp

theorem leastInCore_spec (data : List SeqSummary) :
    (leastInCore data = none ∧ ∀ x ∈ data, 1 ≤ x.PropInside) ∨
      ∃ (k : Nat) (y : SeqSummary), leastInCore data = some k ∧ data[k]? = some y ∧
        y.PropInside < 1 ∧ (∀ x ∈ data, y.PropInside ≤ x.PropInside) ∧
        ∀ j x, j < k → data[j]? = some x → y.PropInside < x.PropInside := by
  rcases (summaryStats_inv data).2 with ⟨h1, _, h3⟩ | ⟨k, y, h1, h2, _, h4, h5, h6⟩
  · left
    refine ⟨?_, h3⟩
    unfold leastInCore
    rw [h1]
    rfl
  · right
    refine ⟨k, y, ?_, h2, h4, h5, h6⟩
    unfold leastInCore
    rw [h1, if_pos (by omega)]
    simp

/-- C14, counterexample: a corpus of two sequences with `propRemoved = 0` and
`propInCore = 1` each. `rem_index` and `in_index` keep their initial `-1`, so neither a
most-removed nor a least-in-core sequence is reported, although index 0 attains both the
maximum `propRemoved` and the minimum `propInCore`. -/
theorem summary_reports_no_index :
    ([⟨0, 1⟩, ⟨0, 1⟩] : List SeqSummary).length = 2 ∧
      mostRemoved [⟨0, 1⟩, ⟨0, 1⟩] = none ∧ leastInCore [⟨0, 1⟩, ⟨0, 1⟩] = none := by
  decide

/-- C14, amended: for per-sequence proportions in `[0, 1]`, a most-removed sequence is
reported exactly when some `propRemoved` is above 0, and it is then the first index
attaining the maximum `propRemoved`; a least-in-core sequence is reported exactly when
some `propInCore` is below 1, and it is then the first index attaining the minimum
`propInCore`. -/
theorem summary_extremes (data : List SeqSummary)
    (hrange : ∀ x ∈ data, 0 ≤ x.PropRemoved ∧ x.PropRemoved ≤ 1 ∧
      0 ≤ x.PropInside ∧ x.PropInside ≤ 1) :
    (mostRemoved data = none ↔ ∀ x ∈ data, x.PropRemoved = 0) ∧
      (∀ i, mostRemoved data = some i → ∃ y, data[i]? = some y ∧
        (∀ x ∈ data, x.PropRemoved ≤ y.PropRemoved) ∧
        ∀ j x, j < i → data[j]? = some x → x.PropRemoved < y.PropRemoved) ∧
      (leastInCore data = none ↔ ∀ x ∈ data, x.PropInside = 1) ∧
      (∀ i, leastInCore data = some i → ∃ y, data[i]? = some y ∧
        (∀ x ∈ data, y.PropInside ≤ x.PropInside) ∧
        ∀ j x, j < i → data[j]? = some x → y.PropInside < x.PropInside) := by
  refine ⟨?_, ?_, ?_, ?_⟩
  · rcases mostRemoved_spec data with ⟨h1, h2⟩ | ⟨k, y, h1, h2, h3, _, _⟩
    · rw [h1]
      refine ⟨fun _ x hx => le_antisymm (h2 x hx) (hrange x hx).1, fun _ => rfl⟩
    · rw [h1]
      constructor
      · intro h; cases h
      · intro h
        have := h y (List.getElem?_mem h2)
        rw [this] at h3
        exact absurd h3 (lt_irrefl _)
  · intro i hi
    rcases mostRemoved_spec data with ⟨h1, _⟩ | ⟨k, y, h1, h2, _, h4, h5⟩
    · rw [h1] at hi; cases hi
    · rw [h1] at hi
      have : k = i := Option.some.inj hi
      subst this
      exact ⟨y, h2, h4, h5⟩
  · rcases leastInCore_spec data with ⟨h1, h2⟩ | ⟨k, y, h1, h2, h3, _, _⟩
    · rw [h1]
      refine ⟨fun _ x hx => le_antisymm (hrange x hx).2.2.2 (h2 x hx), fun _ => rfl⟩
    · rw [h1]
      constructor
      · intro h; cases h
      · intro h
        have := h y (List.getElem?_mem h2)
        rw [this] at h3
        exact absurd h3 (lt_irrefl _)
  · intro i hi
    rcases leastInCore_spec data with ⟨h1, _⟩ | ⟨k, y, h1, h2, _, h4, h5⟩
    · rw [h1] at hi; cases hi
    · rw [h1] at hi
      have : k = i := Option.some.inj hi
      subst this
      exact ⟨y, h2, h4, h5⟩

theorem summary_extremes_witness :
    (mostRemoved [⟨1/4, 1⟩, ⟨1/2, 3/4⟩, ⟨1/2, 3/4⟩] = none ↔
        ∀ x ∈ [(⟨1/4, 1⟩ : SeqSummary), ⟨1/2, 3/4⟩, ⟨1/2, 3/4⟩], x.PropRemoved = 0) ∧
      (∀ i, mostRemoved [⟨1/4, 1⟩, ⟨1/2, 3/4⟩, ⟨1/2, 3/4⟩] = some i →
        ∃ y, [(⟨1/4, 1⟩ : SeqSummary), ⟨1/2, 3/4⟩, ⟨1/2, 3/4⟩][i]? = some y ∧
        (∀ x ∈ [(⟨1/4, 1⟩ : SeqSummary), ⟨1/2, 3/4⟩, ⟨1/2, 3/4⟩],
          x.PropRemoved ≤ y.PropRemoved) ∧
        ∀ j x, j < i → [(⟨1/4, 1⟩ : SeqSummary), ⟨1/2, 3/4⟩, ⟨1/2, 3/4⟩][j]? = some x →
          x.PropRemoved < y.PropRemoved) ∧
      (leastInCore [⟨1/4, 1⟩, ⟨1/2, 3/4⟩, ⟨1/2, 3/4⟩] = none ↔
        ∀ x ∈ [(⟨1/4, 1⟩ : SeqSummary), ⟨1/2, 3/4⟩, ⟨1/2, 3/4⟩], x.PropInside = 1) ∧
      (∀ i, leastInCore [⟨1/4, 1⟩, ⟨1/2, 3/4⟩, ⟨1/2, 3/4⟩] = some i →
        ∃ y, [(⟨1/4, 1⟩ : SeqSummary), ⟨1/2, 3/4⟩, ⟨1/2, 3/4⟩][i]? = some y ∧
        (∀ x ∈ [(⟨1/4, 1⟩ : SeqSummary), ⟨1/2, 3/4⟩, ⟨1/2, 3/4⟩],
          y.PropInside ≤ x.PropInside) ∧
        ∀ j x, j < i → [(⟨1/4, 1⟩ : SeqSummary), ⟨1/2, 3/4⟩, ⟨1/2, 3/4⟩][j]? = some x →
          y.PropInside < x.PropInside) :=
  summary_extremes [⟨1/4, 1⟩, ⟨1/2, 3/4⟩, ⟨1/2, 3/4⟩] (by decide!)

theorem mostRemoved_example :
    mostRemoved [⟨1/4, 1⟩, ⟨1/2, 3/4⟩, ⟨1/2, 3/4⟩] = some 1 ∧
      leastInCore [⟨1/4, 1⟩, ⟨1/2, 3/4⟩, ⟨1/2, 3/4⟩] = some 1 := by
  decide!

end SeqFilter
